import Mathlib

/-!
Shallow embedding of src/backend/catalog/partition.c (PostgreSQL-10-era
table partitioning): canonical partition-bound construction
(RelationBuildPartitionDesc), the bound comparators (partition_rbound_cmp,
partition_rbound_datum_cmp, partition_bound_cmp), binary search over a
canonical collection (partition_bound_bsearch), collection equality
(partition_bounds_equal), overlap checking (check_new_partition_bound),
dispatch-tree construction (RelationGetPartitionDispatchInfo) and tuple
routing (get_partition_for_tuple).

Datums are drawn from a linearly ordered type alpha; the per-column btree
support function FunctionCall2Coll(partsupfunc[j], ...) is modelled by
colCmp, returning -1 / 0 / 1.  A range bound datum together with its
RangeDatumContent tag is modelled by the single type RangeDatum (the C code
never reads the datum slot of a non-finite column, so the merged
representation is faithful).  datumIsEqual is modelled by equality on alpha.
-/

set_option linter.unusedVariables false

/-- The tri-state tag stored for every range bound column
(enum RangeDatumContent in partition.c, with its C integer values). -/
inductive RangeDatumContent where
  | RANGE_DATUM_FINITE
  | RANGE_DATUM_NEG_INF
  | RANGE_DATUM_POS_INF
deriving DecidableEq, Repr

/-- The C enum value of a RangeDatumContent (FINITE = 0, NEG_INF = 1,
POS_INF = 2); the comparator compares these integers when both columns are
infinite. -/
def RangeDatumContent.val : RangeDatumContent → Nat
  | .RANGE_DATUM_FINITE => 0
  | .RANGE_DATUM_NEG_INF => 1
  | .RANGE_DATUM_POS_INF => 2

/-- One range bound column: a finite datum or an infinity.  This fuses the
datums[j] slot with its content[j] tag; partition.c never reads datums[j]
when content[j] is not RANGE_DATUM_FINITE. -/
inductive RangeDatum (α : Type) where
  | finite (a : α)
  | negInf
  | posInf
deriving DecidableEq, Repr

/-- The content tag of a column. -/
def RangeDatum.content {α : Type} : RangeDatum α → RangeDatumContent
  | .finite _ => .RANGE_DATUM_FINITE
  | .negInf => .RANGE_DATUM_NEG_INF
  | .posInf => .RANGE_DATUM_POS_INF

/-- The per-column comparison support function
(FunctionCall2Coll(&key->partsupfunc[j], ...)): a btree comparator over a
total order, returning a negative, zero or positive int32. -/
def colCmp {α : Type} [LinearOrder α] (a b : α) : Int :=
  if a < b then -1 else if b < a then 1 else 0

/-- The column loop of partition_rbound_cmp (partition.c:2147-2173).
Sum.inl c models the early `return` statements taken for infinite columns
(bypassing the lower/upper tie-break); Sum.inr c models falling out of the
loop (by `break` on a non-zero comparison or by exhausting the columns), in
which case the tie-break still applies. -/
def rbcGo {α : Type} [LinearOrder α] :
    List (RangeDatum α) → List (RangeDatum α) → Sum Int Int
  | x :: t1, y :: t2 =>
    match x, y with
    | .negInf, .negInf => .inl 0
    | .negInf, .posInf => .inl (-1)
    | .posInf, .negInf => .inl 1
    | .posInf, .posInf => .inl 0
    | .negInf, .finite _ => .inl (-1)
    | .posInf, .finite _ => .inl 1
    | .finite _, .negInf => .inl 1
    | .finite _, .posInf => .inl (-1)
    | .finite a, .finite b =>
      let c := colCmp a b
      if c = 0 then rbcGo t1 t2 else .inr c
  | _, _ => .inr 0

/-- partition_rbound_cmp (partition.c:2136-2185): compare two range bounds
column by column; if every compared column is finite and equal, break the
tie by the lower/upper flags (a lower bound is the greater of the two). -/
def partition_rbound_cmp {α : Type} [LinearOrder α]
    (datums1 : List (RangeDatum α)) (lower1 : Bool)
    (datums2 : List (RangeDatum α)) (lower2 : Bool) : Int :=
  match rbcGo datums1 datums2 with
  | .inl c => c
  | .inr c => if c = 0 ∧ lower1 ≠ lower2 then (if lower1 then 1 else -1) else c

/-- The column loop of partition_rbound_datum_cmp (partition.c:2201-2212),
threading the running cmpval (initialised to -1 by the caller). -/
def prdcGo {α : Type} [LinearOrder α] (acc : Int) :
    List (RangeDatum α) → List α → Int
  | .negInf :: _, _ => -1
  | .posInf :: _, _ => 1
  | .finite a :: t, x :: xs =>
    let c := colCmp a x
    if c = 0 then prdcGo c t xs else c
  | _, _ => acc

/-- partition_rbound_datum_cmp (partition.c:2193-2215): compare a range
bound against the partition-key datums of a tuple; an infinite bound column
decides immediately, with no lower/upper tie-break. -/
def partition_rbound_datum_cmp {α : Type} [LinearOrder α]
    (rb_datums : List (RangeDatum α)) (tuple_datums : List α) : Int :=
  prdcGo (-1) rb_datums tuple_datums

/-- All columns finite on both sides and equal under the per-column
comparator (the situation of the lower/upper tie-break of
partition_rbound_cmp). -/
def finEqCols {α : Type} [LinearOrder α]
    (d1 d2 : List (RangeDatum α)) : Prop :=
  List.Forall₂ (fun x y => ∃ a b, x = .finite a ∧ y = .finite b ∧ colCmp a b = 0) d1 d2

theorem rbcGo_of_finEqCols {α : Type} [LinearOrder α]
    {d1 d2 : List (RangeDatum α)} (h : finEqCols d1 d2) :
    rbcGo d1 d2 = .inr 0 := by
  induction h with
  | nil => rfl
  | cons hxy _ ih =>
    obtain ⟨a, b, hx, hy, hab⟩ := hxy
    subst hx; subst hy
    simp [rbcGo, hab, ih]

/-- C5: when every key column is finite on both sides and comparator-equal,
partition_rbound_cmp resolves by edge kind: a lower edge compares strictly
greater (result 1) than an upper edge of the same value, an upper edge
strictly smaller (result -1) than a lower edge, and two edges of the same
kind compare equal (result 0). -/
theorem rbound_cmp_edge_tiebreak {α : Type} [LinearOrder α]
    (d1 d2 : List (RangeDatum α)) (h : finEqCols d1 d2) :
    partition_rbound_cmp d1 true d2 false = 1 ∧
    partition_rbound_cmp d1 false d2 true = -1 ∧
    ∀ l : Bool, partition_rbound_cmp d1 l d2 l = 0 := by
  have hg := rbcGo_of_finEqCols h
  refine ⟨?_, ?_, ?_⟩ <;> simp [partition_rbound_cmp, hg]

/-- Witness for C5 at the concrete single-column value 5 on both sides. -/
theorem rbound_cmp_edge_tiebreak_witness :
    partition_rbound_cmp [RangeDatum.finite (5 : ℤ)] true
      [RangeDatum.finite (5 : ℤ)] false = 1 ∧
    partition_rbound_cmp [RangeDatum.finite (5 : ℤ)] false
      [RangeDatum.finite (5 : ℤ)] true = -1 ∧
    ∀ l : Bool, partition_rbound_cmp [RangeDatum.finite (5 : ℤ)] l
      [RangeDatum.finite (5 : ℤ)] l = 0 :=
  rbound_cmp_edge_tiebreak [RangeDatum.finite (5 : ℤ)] [RangeDatum.finite (5 : ℤ)]
    (List.Forall₂.cons ⟨5, 5, rfl, rfl, by simp [colCmp]⟩ List.Forall₂.nil)

/-- C10: if some key column carries the same infinity sign on both sides
while every earlier column is finite on both sides and comparator-equal,
partition_rbound_cmp returns 0 immediately: the remaining columns are
arbitrary (never compared) and the lower/upper tie-break is not applied
(the edge flags are arbitrary). -/
theorem rbound_cmp_same_infinity_early_equal {α : Type} [LinearOrder α]
    (pre1 pre2 t1 t2 : List (RangeDatum α)) (x : RangeDatum α)
    (hx : x = RangeDatum.negInf ∨ x = RangeDatum.posInf)
    (h : finEqCols pre1 pre2) (l1 l2 : Bool) :
    partition_rbound_cmp (pre1 ++ x :: t1) l1 (pre2 ++ x :: t2) l2 = 0 := by
  have hg : rbcGo (pre1 ++ x :: t1) (pre2 ++ x :: t2) = .inl 0 := by
    induction h with
    | nil => rcases hx with h | h <;> subst h <;> rfl
    | cons hxy _ ih =>
      obtain ⟨a, b, hfx, hfy, hab⟩ := hxy
      subst hfx; subst hfy
      simp [rbcGo, hab, ih]
  simp [partition_rbound_cmp, hg]

/-- Witness for C10: first column finite-equal (7), second column negative
infinity on both sides, differing junk after it and differing edge flags. -/
theorem rbound_cmp_same_infinity_early_equal_witness :
    partition_rbound_cmp
      [RangeDatum.finite (7 : ℤ), RangeDatum.negInf, RangeDatum.finite 1] true
      [RangeDatum.finite (7 : ℤ), RangeDatum.negInf, RangeDatum.finite 2] false = 0 :=
  rbound_cmp_same_infinity_early_equal
    [RangeDatum.finite (7 : ℤ)] [RangeDatum.finite (7 : ℤ)]
    [RangeDatum.finite 1] [RangeDatum.finite 2] RangeDatum.negInf
    (Or.inl rfl)
    (List.Forall₂.cons ⟨7, 7, rfl, rfl, by simp [colCmp]⟩ List.Forall₂.nil)
    true false

/-- Partition strategy (char strategy in C: PARTITION_STRATEGY_LIST /
PARTITION_STRATEGY_RANGE). -/
inductive PartitionStrategy where
  | list
  | range
deriving DecidableEq, Repr

/-- struct PartitionListValue: one value of some list partition, tagged with
the position (index) of its owning partition in the input order. -/
structure PartitionListValue (α : Type) where
  index : Int
  value : α
deriving DecidableEq, Repr

/-- struct PartitionRangeBound: one edge of a range partition. -/
structure PartitionRangeBound (α : Type) where
  index : Int
  datums : List (RangeDatum α)
  lower : Bool
deriving DecidableEq, Repr

/-- make_one_range_bound (partition.c:2079-2117): build an edge from raw
per-column declarations (none = UNBOUNDED); an infinite column of a lower
bound becomes NEG_INF, of an upper bound POS_INF. -/
def make_one_range_bound {α : Type} (index : Int) (datums : List (Option α))
    (lower : Bool) : PartitionRangeBound α :=
  { index := index
    datums := datums.map (fun d =>
      match d with
      | some v => RangeDatum.finite v
      | none => if lower then RangeDatum.negInf else RangeDatum.posInf)
    lower := lower }

/-- qsort_partition_list_value_cmp (partition.c:2060-2070). -/
def qsort_partition_list_value_cmp {α : Type} [LinearOrder α]
    (a b : PartitionListValue α) : Int :=
  colCmp a.value b.value

/-- qsort_partition_rbound_cmp (partition.c:2120-2128). -/
def qsort_partition_rbound_cmp {α : Type} [LinearOrder α]
    (b1 b2 : PartitionRangeBound α) : Int :=
  partition_rbound_cmp b1.datums b1.lower b2.datums b2.lower

/-- The sorting relation realised by qsort_arg with
qsort_partition_list_value_cmp. -/
def plvLE {α : Type} [LinearOrder α] (a b : PartitionListValue α) : Prop :=
  qsort_partition_list_value_cmp a b ≤ 0

instance {α : Type} [LinearOrder α] : DecidableRel (plvLE (α := α)) :=
  fun a b => inferInstanceAs (Decidable (_ ≤ _))

/-- The sorting relation realised by qsort_arg with
qsort_partition_rbound_cmp. -/
def rbLE {α : Type} [LinearOrder α] (b1 b2 : PartitionRangeBound α) : Prop :=
  qsort_partition_rbound_cmp b1 b2 ≤ 0

instance {α : Type} [LinearOrder α] : DecidableRel (rbLE (α := α)) :=
  fun a b => inferInstanceAs (Decidable (_ ≤ _))

/-- The values of each list partition tagged with the partition's input
position (the unified non_null_values list of partition.c:241-307, in scan
order). -/
def listGatherVals {α : Type} : List (List (Option α)) → Int → List (PartitionListValue α)
  | [], _ => []
  | s :: rest, i =>
    s.filterMap (fun d => d.map (fun v => ⟨i, v⟩)) ++ listGatherVals rest (i + 1)

/-- The input positions of every null list datum, in scan order
(partition.c:269-279 records the first and raises "found null more than
once" on any later one). -/
def listGatherNulls {α : Type} : List (List (Option α)) → Int → List Int
  | [], _ => []
  | s :: rest, i =>
    s.filterMap (fun d => match d with | none => some i | some _ => none)
      ++ listGatherNulls rest (i + 1)

/-- The mapping[] array of RelationBuildPartitionDesc together with
next_index, as an association list from input position to canonical
ordinal. -/
structure MapState where
  assigned : List (Int × Nat)
  next : Nat
deriving DecidableEq, Repr

def lookupAssigned : List (Int × Nat) → Int → Option Nat
  | [], _ => none
  | (k, o) :: rest, i => if k = i then some o else lookupAssigned rest i

def emptyMapState : MapState := ⟨[], 0⟩

/-- "If the old index has no mapping, assign one" (partition.c:487-489 and
555-557): mapping[orig] = next_index++ on first appearance. -/
def getOrAssign (s : MapState) (orig : Int) : Nat × MapState :=
  match lookupAssigned s.assigned orig with
  | some o => (o, s)
  | none => (s.next, ⟨s.assigned ++ [(orig, s.next)], s.next + 1⟩)

/-- The canonical index construction of the list arm
(partition.c:480-492): one ordinal per sorted value, by first appearance of
its owning partition. -/
def listBuildIndexes {α : Type} :
    List (PartitionListValue α) → MapState → List Int × MapState
  | [], s => ([], s)
  | v :: rest, s =>
    let p := getOrAssign s v.index
    let q := listBuildIndexes rest p.2
    ((p.1 : Int) :: q.1, q.2)

/-- The canonical index construction of the range arm
(partition.c:520-561): a retained lower bound marks a gap (index -1), a
retained upper bound gets its owner's first-appearance ordinal. -/
def rangeBuildIndexes {α : Type} :
    List (PartitionRangeBound α) → MapState → List Int × MapState
  | [], s => ([], s)
  | b :: rest, s =>
    if b.lower then
      let q := rangeBuildIndexes rest s
      ((-1 : Int) :: q.1, q.2)
    else
      let p := getOrAssign s b.index
      let q := rangeBuildIndexes rest p.2
      ((p.1 : Int) :: q.1, q.2)

/-- The is_distinct test of partition.c:369-400, inverted: cur is NOT
distinct from prev exactly when every column is finite on both bounds and
the column comparator returns 0.  The lower/upper flags play no part. -/
def boundsNotDistinct {α : Type} [LinearOrder α] :
    List (RangeDatum α) → List (RangeDatum α) → Bool
  | [], [] => true
  | x :: t1, y :: t2 =>
    match x, y with
    | .finite a, .finite b => colCmp a b == 0 && boundsNotDistinct t1 t2
    | _, _ => false
  | _, _ => false

/-- The tail of the distinct-bound selection loop (partition.c:362-416 and
422-430): drop each bound not distinct from its immediate predecessor in
the sorted order; prev always advances to the current bound. -/
def dedupGo {α : Type} [LinearOrder α] (prev : PartitionRangeBound α) :
    List (PartitionRangeBound α) → List (PartitionRangeBound α)
  | [] => []
  | c :: rest =>
    if boundsNotDistinct c.datums prev.datums then dedupGo c rest
    else c :: dedupGo c rest

/-- The distinct bounds kept in the rbounds array: the first sorted bound
plus every bound distinct from its predecessor. -/
def dedupBounds {α : Type} [LinearOrder α] :
    List (PartitionRangeBound α) → List (PartitionRangeBound α)
  | [] => []
  | b :: rest => b :: dedupGo b rest

/-- struct PartitionBoundInfoData.  datums fuses the C datums and content
arrays (list-partition datums are all finite). -/
structure PartitionBoundInfoData (α : Type) where
  strategy : PartitionStrategy
  ndatums : Nat
  datums : List (List (RangeDatum α))
  indexes : List Int
  null_index : Int
deriving DecidableEq, Repr

/-- partition_bounds_equal (partition.c:597-660).  partnatts and strategy
come from the partition key; per row the content tags are compared and then
the finite datums via datumIsEqual, which the fused RangeDatum equality
renders exactly; range collections compare the extra trailing index. -/
def partition_bounds_equal {α : Type} [LinearOrder α] (partnatts : Nat)
    (strategy : PartitionStrategy) (b1 b2 : PartitionBoundInfoData α) : Bool :=
  if b1.strategy ≠ b2.strategy then false
  else if b1.ndatums ≠ b2.ndatums then false
  else if b1.null_index ≠ b2.null_index then false
  else
    ((List.range b1.ndatums).all (fun i =>
      ((List.range partnatts).all (fun j =>
        (b1.datums.getD i []).getD j RangeDatum.negInf
          == (b2.datums.getD i []).getD j RangeDatum.negInf))
      && (b1.indexes.getD i 0 == b2.indexes.getD i 0)))
    && (if strategy = PartitionStrategy.range then
          b1.indexes.getD b1.ndatums 0 == b2.indexes.getD b1.ndatums 0
        else true)

/-- The list-strategy arm of RelationBuildPartitionDesc (partition.c:239-311
and 465-511): gather all non-null values with owners, sort them with
qsort_partition_list_value_cmp, canonicalise ordinals by first appearance,
then map the null-accepting partition (if any).  The error is the elog
"found null more than once".  Returns the bound info and the final mapping
state. -/
def build_list_boundinfo {α : Type} [LinearOrder α] (specs : List (List (Option α))) :
    Except Unit (PartitionBoundInfoData α × MapState) :=
  let nulls := listGatherNulls specs 0
  if 2 ≤ nulls.length then .error ()
  else
    let sorted := List.insertionSort plvLE (listGatherVals specs 0)
    let p := listBuildIndexes sorted emptyMapState
    let q :=
      match nulls with
      | [] => ((-1 : Int), p.2)
      | pos :: _ =>
        let r := getOrAssign p.2 pos
        ((r.1 : Int), r.2)
    .ok ({ strategy := .list
           ndatums := sorted.length
           datums := sorted.map (fun v => [RangeDatum.finite v.value])
           indexes := p.1
           null_index := q.1 }, q.2)

/-- PartitionBoundSpec for the range strategy: raw per-column lower and
upper declarations (none = UNBOUNDED). -/
structure PartitionRangeSpec (α : Type) where
  lowerdatums : List (Option α)
  upperdatums : List (Option α)
deriving DecidableEq, Repr

/-- The unified all_bounds array (partition.c:320-348): for the partition at
input position i, its lower bound then its upper bound. -/
def rangeAllBounds {α : Type} : List (PartitionRangeSpec α) → Int → List (PartitionRangeBound α)
  | [], _ => []
  | sp :: rest, i =>
    make_one_range_bound i sp.lowerdatums true
      :: make_one_range_bound i sp.upperdatums false
      :: rangeAllBounds rest (i + 1)

/-- The range-strategy arm of RelationBuildPartitionDesc
(partition.c:312-431 and 513-564): build 2*nparts edges, sort them with
qsort_partition_rbound_cmp, keep the distinct ones, assign ordinals (gap
slots for retained lower bounds), and append the trailing sentinel index
-1.  Returns the bound info and the final mapping state. -/
def build_range_boundinfo {α : Type} [LinearOrder α] (specs : List (PartitionRangeSpec α)) :
    PartitionBoundInfoData α × MapState :=
  let sorted := List.insertionSort rbLE (rangeAllBounds specs 0)
  let rbounds := dedupBounds sorted
  let p := rangeBuildIndexes rbounds emptyMapState
  ({ strategy := .range
     ndatums := rbounds.length
     datums := rbounds.map (fun b => b.datums)
     indexes := p.1 ++ [-1]
     null_index := -1 }, p.2)

/-- The final OID placement of RelationBuildPartitionDesc
(partition.c:580-581): result->oids[mapping[i]] = oids[i], i over input
positions.  A position without a mapping is skipped (unreachable for a
well-formed partition set). -/
def placeOids (oids : List Nat) (s : MapState) : List Nat :=
  (List.range oids.length).foldl
    (fun acc i =>
      match lookupAssigned s.assigned (Int.ofNat i) with
      | some o => acc.set o (oids.getD i 0)
      | none => acc)
    (List.replicate oids.length 0)

theorem boundsNotDistinct_iff_finEqCols {α : Type} [LinearOrder α] :
    ∀ d1 d2 : List (RangeDatum α),
      boundsNotDistinct d1 d2 = true ↔ finEqCols d1 d2
  | [], [] => by simp [boundsNotDistinct, finEqCols]
  | [], _ :: _ => by simp [boundsNotDistinct, finEqCols]
  | _ :: _, [] => by simp [boundsNotDistinct, finEqCols]
  | x :: t1, y :: t2 => by
    cases x <;> cases y <;>
      simp [boundsNotDistinct, finEqCols, boundsNotDistinct_iff_finEqCols t1 t2]

theorem colCmp_eq_zero_iff {α : Type} [LinearOrder α] {a b : α} :
    colCmp a b = 0 ↔ a = b := by
  unfold colCmp
  split_ifs with h1 h2
  · simp [ne_of_lt h1]
  · simp [(ne_of_lt h2).symm]
  · simp [le_antisymm (not_lt.mp h2) (not_lt.mp h1)]

theorem finEqCols_symm {α : Type} [LinearOrder α]
    {d1 d2 : List (RangeDatum α)} (h : finEqCols d1 d2) : finEqCols d2 d1 := by
  induction h with
  | nil => exact List.Forall₂.nil
  | cons hxy _ ih =>
    obtain ⟨a, b, hfx, hfy, hab⟩ := hxy
    exact List.Forall₂.cons
      ⟨b, a, hfy, hfx, colCmp_eq_zero_iff.mpr (colCmp_eq_zero_iff.mp hab).symm⟩ ih

theorem finEqCols_all_finite {α : Type} [LinearOrder α]
    {d1 d2 : List (RangeDatum α)} (h : finEqCols d1 d2) :
    ∀ x ∈ d1, x.content = RangeDatumContent.RANGE_DATUM_FINITE := by
  induction h with
  | nil => intro x hx; cases hx
  | cons hxy _ ih =>
    intro x hx
    simp only [List.mem_cons] at hx
    rcases hx with hx | hx
    · obtain ⟨a, b, hfx, _, _⟩ := hxy
      subst hx; subst hfx
      rfl
    · exact ih x hx

/-- C2 amended: the duplicate-merge step of range canonicalization merges a
bound into its immediate predecessor exactly when every key column is
finite on both bounds and comparator-equal — the lower/upper edge kinds
play no part, so an upper-edge marker followed by a lower-edge marker of
identical finite value IS merged into a single slot; a bound is never
merged when any column of it or of its predecessor is infinite (merging
requires all-finite columns on both sides). -/
theorem dedup_merges_exactly_on_finite_equality {α : Type} [LinearOrder α]
    (prev c : PartitionRangeBound α) (rest : List (PartitionRangeBound α)) :
    (finEqCols c.datums prev.datums → dedupGo prev (c :: rest) = dedupGo c rest) ∧
    (¬ finEqCols c.datums prev.datums → dedupGo prev (c :: rest) = c :: dedupGo c rest) ∧
    (finEqCols c.datums prev.datums →
      (∀ x ∈ c.datums, x.content = RangeDatumContent.RANGE_DATUM_FINITE) ∧
      (∀ y ∈ prev.datums, y.content = RangeDatumContent.RANGE_DATUM_FINITE)) := by
  refine ⟨?_, ?_, ?_⟩
  · intro h
    simp [dedupGo, (boundsNotDistinct_iff_finEqCols c.datums prev.datums).mpr h]
  · intro h
    have hb : boundsNotDistinct c.datums prev.datums = false := by
      cases hcase : boundsNotDistinct c.datums prev.datums
      · rfl
      · exact absurd ((boundsNotDistinct_iff_finEqCols c.datums prev.datums).mp hcase) h
    simp [dedupGo, hb]
  · intro h
    exact ⟨finEqCols_all_finite h, finEqCols_all_finite (finEqCols_symm h)⟩

/-- Witness for the C2 amendment: the upper edge of [10,20) followed by the
lower edge of [20,30) (identical finite value 20, opposite edge kinds) is
merged: the lower-edge marker is dropped from the retained sequence. -/
theorem dedup_merges_exactly_on_finite_equality_witness :
    dedupGo (⟨0, [RangeDatum.finite (20 : ℤ)], false⟩ : PartitionRangeBound ℤ)
        [⟨1, [RangeDatum.finite 20], true⟩]
      = dedupGo ⟨1, [RangeDatum.finite 20], true⟩ [] ∧
    ∀ x ∈ [RangeDatum.finite (20 : ℤ)], x.content = RangeDatumContent.RANGE_DATUM_FINITE :=
  And.intro
    ((dedup_merges_exactly_on_finite_equality
        ⟨0, [RangeDatum.finite (20 : ℤ)], false⟩ ⟨1, [RangeDatum.finite 20], true⟩ []).1
      (List.Forall₂.cons ⟨20, 20, rfl, rfl, by simp [colCmp]⟩ List.Forall₂.nil))
    (((dedup_merges_exactly_on_finite_equality
        ⟨0, [RangeDatum.finite (20 : ℤ)], false⟩ ⟨1, [RangeDatum.finite 20], true⟩ []).2.2
      (List.Forall₂.cons ⟨20, 20, rfl, rfl, by simp [colCmp]⟩ List.Forall₂.nil)).1)

/-- Counterexample to C2 as stated: canonicalizing P1 = [10,20) and
P2 = [20,30) merges P1's upper-edge marker and P2's lower-edge marker
(identical finite value 20) into a single slot: the canonical sequence has
3 entries, not 4, and the value-20 row appears exactly once. -/
theorem upper_lower_equal_value_markers_are_merged_cx :
    ((build_range_boundinfo
        [⟨[some (10 : ℤ)], [some 20]⟩, ⟨[some 20], [some 30]⟩]).1.datums.count
      [RangeDatum.finite 20] = 1) ∧
    (build_range_boundinfo
        [⟨[some (10 : ℤ)], [some 20]⟩, ⟨[some 20], [some 30]⟩]).1.ndatums = 3 := by
  exact ⟨by decide, by decide⟩

/-- The probe handed to partition_bound_cmp / partition_bound_bsearch: the
C void *probe together with the probe_is_bound flag.  For the list
strategy both callers pass a single datum; for the range strategy either a
range bound (probe_is_bound = true) or a tuple's key datums. -/
inductive BoundProbe (α : Type) where
  | listDatum (a : α)
  | rangeBound (datums : List (RangeDatum α)) (lower : Bool)
  | rangeTuple (t : List α)
deriving DecidableEq, Repr

/-- partition_bound_cmp (partition.c:2223-2269).  The probe constructor
carries what the C code dispatches on via key->strategy plus
probe_is_bound.  For a range-bound probe the stored bound's lower flag is
reconstructed as indexes[offset] < 0 (partition.c:2250).  The offset is a
Nat: every C call site passes an offset in [0, ndatums). -/
def partition_bound_cmp {α : Type} [LinearOrder α]
    (bi : PartitionBoundInfoData α) (offset : Nat) (probe : BoundProbe α) : Int :=
  let bound_datums := bi.datums.getD offset []
  match probe with
  | .listDatum a =>
    match bound_datums with
    | .finite b :: _ => colCmp b a
    | _ => 0
  | .rangeBound d l =>
    partition_rbound_cmp bound_datums (decide (bi.indexes.getD offset 0 < 0)) d l
  | .rangeTuple t => partition_rbound_datum_cmp bound_datums t

/-- The narrowing loop of partition_bound_bsearch (partition.c:2292-2311).
fuel bounds the iteration count; hi - lo shrinks by at least one per
iteration, so ndatums iterations always suffice.  The returned Bool is
*is_equal, initialised to false by the C callers on the paths modelled
here. -/
def pbbLoop {α : Type} [LinearOrder α] (bi : PartitionBoundInfoData α)
    (probe : BoundProbe α) : Nat → Int → Int → Bool → Int × Bool
  | 0, lo, _, eq => (lo, eq)
  | fuel + 1, lo, hi, eq =>
    if lo < hi then
      if partition_bound_cmp bi ((lo + hi + 1) / 2).toNat probe ≤ 0 then
        if partition_bound_cmp bi ((lo + hi + 1) / 2).toNat probe = 0 then
          ((lo + hi + 1) / 2, true)
        else pbbLoop bi probe fuel ((lo + hi + 1) / 2) hi false
      else pbbLoop bi probe fuel lo ((lo + hi + 1) / 2 - 1) eq
    else (lo, eq)

/-- partition_bound_bsearch (partition.c:2284-2314): binary search for the
greatest bound less than or equal to the probe over lo = -1,
hi = ndatums - 1. -/
def partition_bound_bsearch {α : Type} [LinearOrder α]
    (bi : PartitionBoundInfoData α) (probe : BoundProbe α) : Int × Bool :=
  pbbLoop bi probe bi.ndatums (-1) ((bi.ndatums : Int) - 1) false

theorem pbbLoop_spec {α : Type} [LinearOrder α]
    (bi : PartitionBoundInfoData α) (probe : BoundProbe α)
    (hmono : ∀ j : Nat, j < bi.ndatums → ∀ i : Nat, i < j →
      partition_bound_cmp bi j probe ≤ 0 → partition_bound_cmp bi i probe < 0) :
    ∀ (fuel : Nat) (lo hi : Int) (eq : Bool),
      -1 ≤ lo → lo ≤ hi → hi ≤ (bi.ndatums : Int) - 1 → hi - lo ≤ (fuel : Int) →
      (0 ≤ lo → partition_bound_cmp bi lo.toNat probe ≤ 0) →
      (eq = true ↔ (0 ≤ lo ∧ partition_bound_cmp bi lo.toNat probe = 0)) →
      (∀ i : Int, hi < i → i ≤ (bi.ndatums : Int) - 1 →
        0 < partition_bound_cmp bi i.toNat probe) →
      (-1 ≤ (pbbLoop bi probe fuel lo hi eq).1 ∧
       (pbbLoop bi probe fuel lo hi eq).1 ≤ (bi.ndatums : Int) - 1 ∧
       (0 ≤ (pbbLoop bi probe fuel lo hi eq).1 →
         partition_bound_cmp bi (pbbLoop bi probe fuel lo hi eq).1.toNat probe ≤ 0) ∧
       (∀ i : Int, (pbbLoop bi probe fuel lo hi eq).1 < i → i ≤ (bi.ndatums : Int) - 1 →
         0 < partition_bound_cmp bi i.toNat probe) ∧
       ((pbbLoop bi probe fuel lo hi eq).2 = true ↔
         (0 ≤ (pbbLoop bi probe fuel lo hi eq).1 ∧
          partition_bound_cmp bi (pbbLoop bi probe fuel lo hi eq).1.toNat probe = 0))) := by
  have hmono' : ∀ i j : Int, 0 ≤ i → i < j → j ≤ (bi.ndatums : Int) - 1 →
      partition_bound_cmp bi j.toNat probe ≤ 0 →
      partition_bound_cmp bi i.toNat probe < 0 := by
    intro i j h0 hij hjn hle
    exact hmono j.toNat (by omega) i.toNat (by omega) hle
  intro fuel
  induction fuel with
  | zero =>
    intro lo hi eq h1 h2 h3 h4 h5 h6 h7
    have hlohi : lo = hi := by omega
    subst hlohi
    have hres : pbbLoop bi probe 0 lo lo eq = (lo, eq) := rfl
    rw [hres]
    exact ⟨h1, by omega, h5, fun i hi1 hi2 => h7 i hi1 hi2, h6⟩
  | succ fuel ih =>
    intro lo hi eq h1 h2 h3 h4 h5 h6 h7
    by_cases hlh : lo < hi
    · have hm1 : lo + 1 ≤ (lo + hi + 1) / 2 := by omega
      have hm2 : (lo + hi + 1) / 2 ≤ hi := by omega
      by_cases hcle : partition_bound_cmp bi ((lo + hi + 1) / 2).toNat probe ≤ 0
      · by_cases hceq : partition_bound_cmp bi ((lo + hi + 1) / 2).toNat probe = 0
        · have hres : pbbLoop bi probe (fuel + 1) lo hi eq = ((lo + hi + 1) / 2, true) := by
            simp only [pbbLoop, if_pos hlh, if_pos hcle, if_pos hceq]
          rw [hres]
          refine ⟨by omega, by omega, fun _ => hcle, ?_, ?_⟩
          · intro i hi1 hi2
            by_cases hih : i ≤ hi
            · by_contra hcon
              push_neg at hcon
              have := hmono' ((lo + hi + 1) / 2) i (by omega) hi1 hi2 hcon
              omega
            · exact h7 i (by omega) hi2
          · exact ⟨fun _ => ⟨by omega, hceq⟩, fun _ => rfl⟩
        · have hres : pbbLoop bi probe (fuel + 1) lo hi eq
              = pbbLoop bi probe fuel ((lo + hi + 1) / 2) hi false := by
            simp only [pbbLoop, if_pos hlh, if_pos hcle, if_neg hceq]
          rw [hres]
          exact ih ((lo + hi + 1) / 2) hi false (by omega) (by omega) h3 (by omega)
            (fun _ => hcle)
            (Iff.intro (fun h => absurd h Bool.false_ne_true) (fun hp => absurd hp.2 hceq))
            h7
      · have hres : pbbLoop bi probe (fuel + 1) lo hi eq
            = pbbLoop bi probe fuel lo ((lo + hi + 1) / 2 - 1) eq := by
          simp only [pbbLoop, if_pos hlh, if_neg hcle]
        rw [hres]
        refine ih lo ((lo + hi + 1) / 2 - 1) eq h1 (by omega) (by omega) (by omega) h5 h6 ?_
        intro i hi1 hi2
        by_cases hih : i ≤ hi
        · by_cases hieq : i = (lo + hi + 1) / 2
          · subst hieq
            omega
          · by_contra hcon
            push_neg at hcon
            have := hmono' ((lo + hi + 1) / 2) i (by omega) (by omega) hi2 hcon
            omega
        · exact h7 i (by omega) hi2
    · have hlohi : lo = hi := by omega
      subst hlohi
      have hres : pbbLoop bi probe (fuel + 1) lo lo eq = (lo, eq) := by
        simp [pbbLoop]
      rw [hres]
      exact ⟨h1, by omega, h5, fun i hi1 hi2 => h7 i hi1 hi2, h6⟩

/-- C3: over a canonical (strictly ascending) bound collection —
expressed by the hypothesis that a bound below the probe at one offset
forces every earlier bound strictly below the probe —
partition_bound_bsearch returns -1 exactly when the probe compares
strictly less than every stored bound; otherwise it returns the greatest
offset whose bound compares less than or equal to the probe; it returns
the last offset ndatums-1 exactly when every stored bound compares less
than or equal to the probe; and whenever the bound at the returned offset
compares equal to the probe, is_equal is set to true. -/
theorem partition_bound_bsearch_correct {α : Type} [LinearOrder α]
    (bi : PartitionBoundInfoData α) (probe : BoundProbe α)
    (hmono : ∀ j : Nat, j < bi.ndatums → ∀ i : Nat, i < j →
      partition_bound_cmp bi j probe ≤ 0 → partition_bound_cmp bi i probe < 0) :
    ((partition_bound_bsearch bi probe).1 = -1 ↔
      ∀ i : Nat, i < bi.ndatums → 0 < partition_bound_cmp bi i probe) ∧
    ((partition_bound_bsearch bi probe).1 ≠ -1 →
      ∃ k : Nat, (partition_bound_bsearch bi probe).1 = (k : Int) ∧ k < bi.ndatums ∧
        partition_bound_cmp bi k probe ≤ 0 ∧
        ∀ i : Nat, k < i → i < bi.ndatums → 0 < partition_bound_cmp bi i probe) ∧
    ((partition_bound_bsearch bi probe).1 = (bi.ndatums : Int) - 1 ↔
      ∀ i : Nat, i < bi.ndatums → partition_bound_cmp bi i probe ≤ 0) ∧
    (∀ k : Nat, (partition_bound_bsearch bi probe).1 = (k : Int) →
      partition_bound_cmp bi k probe = 0 → (partition_bound_bsearch bi probe).2 = true) := by
  have hspec := pbbLoop_spec bi probe hmono bi.ndatums (-1) ((bi.ndatums : Int) - 1) false
    (by omega) (by omega) (by omega) (by omega)
    (fun h => absurd h (by omega))
    (Iff.intro (fun h => absurd h Bool.false_ne_true) (fun hp => absurd hp.1 (by omega)))
    (fun i hi1 hi2 => absurd hi2 (by omega))
  obtain ⟨hs1, hs2, hs3, hs4, hs5⟩ := hspec
  have hbs : partition_bound_bsearch bi probe
      = pbbLoop bi probe bi.ndatums (-1) ((bi.ndatums : Int) - 1) false := rfl
  rw [hbs]
  set res := (pbbLoop bi probe bi.ndatums (-1) ((bi.ndatums : Int) - 1) false).1 with hresdef
  refine ⟨?_, ?_, ?_, ?_⟩
  · constructor
    · intro hm1 i hi1
      have := hs4 (i : Int) (by omega) (by omega)
      simpa using this
    · intro hall
      by_contra hne
      have hge : 0 ≤ res := by omega
      have hle := hs3 hge
      have := hall res.toNat (by omega)
      omega
  · intro hne
    have hge : 0 ≤ res := by omega
    refine ⟨res.toNat, by omega, by omega, ?_, ?_⟩
    · have := hs3 hge
      exact this
    · intro i hi1 hi2
      have := hs4 (i : Int) (by omega) (by omega)
      simpa using this
  · constructor
    · intro hlast i hi1
      by_cases hi0 : i = res.toNat
      · subst hi0
        exact hs3 (by omega)
      · have hlt : partition_bound_cmp bi i probe < 0 :=
          hmono res.toNat (by omega) i (by omega) (hs3 (by omega))
        omega
    · intro hall
      by_contra hne
      have hlt : res < (bi.ndatums : Int) - 1 := by omega
      have hn1 : 1 ≤ bi.ndatums := by omega
      have := hs4 ((bi.ndatums : Int) - 1) (by omega) (by omega)
      have h2 := hall (bi.ndatums - 1) (by omega)
      have hcast : ((bi.ndatums : Int) - 1).toNat = bi.ndatums - 1 := by omega
      rw [hcast] at this
      omega
  · intro k hk hz
    refine hs5.mpr ⟨by omega, ?_⟩
    have : res.toNat = k := by omega
    rw [this]
    exact hz

/-- Witness for C3: the canonical collection of [10,20) and [20,30)
(slots 10, 20, 30, indexes -1,0,1,-1) probed with the lower bound [15. -/
theorem partition_bound_bsearch_correct_witness :
    ((partition_bound_bsearch
        (⟨PartitionStrategy.range, 3,
          [[RangeDatum.finite (10 : ℤ)], [RangeDatum.finite 20], [RangeDatum.finite 30]],
          [-1, 0, 1, -1], -1⟩ : PartitionBoundInfoData ℤ)
        (BoundProbe.rangeBound [RangeDatum.finite 15] true)).1 = -1 ↔
      ∀ i : Nat, i < 3 → 0 < partition_bound_cmp
        (⟨PartitionStrategy.range, 3,
          [[RangeDatum.finite (10 : ℤ)], [RangeDatum.finite 20], [RangeDatum.finite 30]],
          [-1, 0, 1, -1], -1⟩ : PartitionBoundInfoData ℤ) i
        (BoundProbe.rangeBound [RangeDatum.finite 15] true)) ∧
    ((partition_bound_bsearch
        (⟨PartitionStrategy.range, 3,
          [[RangeDatum.finite (10 : ℤ)], [RangeDatum.finite 20], [RangeDatum.finite 30]],
          [-1, 0, 1, -1], -1⟩ : PartitionBoundInfoData ℤ)
        (BoundProbe.rangeBound [RangeDatum.finite 15] true)).1 ≠ -1 →
      ∃ k : Nat, (partition_bound_bsearch
        (⟨PartitionStrategy.range, 3,
          [[RangeDatum.finite (10 : ℤ)], [RangeDatum.finite 20], [RangeDatum.finite 30]],
          [-1, 0, 1, -1], -1⟩ : PartitionBoundInfoData ℤ)
        (BoundProbe.rangeBound [RangeDatum.finite 15] true)).1 = (k : Int) ∧ k < 3 ∧
        partition_bound_cmp
          (⟨PartitionStrategy.range, 3,
            [[RangeDatum.finite (10 : ℤ)], [RangeDatum.finite 20], [RangeDatum.finite 30]],
            [-1, 0, 1, -1], -1⟩ : PartitionBoundInfoData ℤ) k
          (BoundProbe.rangeBound [RangeDatum.finite 15] true) ≤ 0 ∧
        ∀ i : Nat, k < i → i < 3 → 0 < partition_bound_cmp
          (⟨PartitionStrategy.range, 3,
            [[RangeDatum.finite (10 : ℤ)], [RangeDatum.finite 20], [RangeDatum.finite 30]],
            [-1, 0, 1, -1], -1⟩ : PartitionBoundInfoData ℤ) i
          (BoundProbe.rangeBound [RangeDatum.finite 15] true)) ∧
    ((partition_bound_bsearch
        (⟨PartitionStrategy.range, 3,
          [[RangeDatum.finite (10 : ℤ)], [RangeDatum.finite 20], [RangeDatum.finite 30]],
          [-1, 0, 1, -1], -1⟩ : PartitionBoundInfoData ℤ)
        (BoundProbe.rangeBound [RangeDatum.finite 15] true)).1 = (3 : Int) - 1 ↔
      ∀ i : Nat, i < 3 → partition_bound_cmp
        (⟨PartitionStrategy.range, 3,
          [[RangeDatum.finite (10 : ℤ)], [RangeDatum.finite 20], [RangeDatum.finite 30]],
          [-1, 0, 1, -1], -1⟩ : PartitionBoundInfoData ℤ) i
        (BoundProbe.rangeBound [RangeDatum.finite 15] true) ≤ 0) ∧
    (∀ k : Nat, (partition_bound_bsearch
        (⟨PartitionStrategy.range, 3,
          [[RangeDatum.finite (10 : ℤ)], [RangeDatum.finite 20], [RangeDatum.finite 30]],
          [-1, 0, 1, -1], -1⟩ : PartitionBoundInfoData ℤ)
        (BoundProbe.rangeBound [RangeDatum.finite 15] true)).1 = (k : Int) →
      partition_bound_cmp
        (⟨PartitionStrategy.range, 3,
          [[RangeDatum.finite (10 : ℤ)], [RangeDatum.finite 20], [RangeDatum.finite 30]],
          [-1, 0, 1, -1], -1⟩ : PartitionBoundInfoData ℤ) k
        (BoundProbe.rangeBound [RangeDatum.finite 15] true) = 0 →
      (partition_bound_bsearch
        (⟨PartitionStrategy.range, 3,
          [[RangeDatum.finite (10 : ℤ)], [RangeDatum.finite 20], [RangeDatum.finite 30]],
          [-1, 0, 1, -1], -1⟩ : PartitionBoundInfoData ℤ)
        (BoundProbe.rangeBound [RangeDatum.finite 15] true)).2 = true) :=
  partition_bound_bsearch_correct
    (⟨PartitionStrategy.range, 3,
      [[RangeDatum.finite (10 : ℤ)], [RangeDatum.finite 20], [RangeDatum.finite 30]],
      [-1, 0, 1, -1], -1⟩ : PartitionBoundInfoData ℤ)
    (BoundProbe.rangeBound [RangeDatum.finite 15] true) (by decide)

/-- Outcome of check_new_partition_bound for a range candidate: accepted,
the ereport "cannot create range partition with empty range", or the
ereport "partition would overlap partition ..." carrying the canonical
index of the colliding partition (looked up in partdesc->oids by the C
code). -/
inductive CheckResult where
  | ok
  | emptyRange
  | overlap (w : Int)
deriving DecidableEq, Repr

/-- The range arm of check_new_partition_bound (partition.c:725-824,
831-839): build the candidate's edges, reject an empty range first
(partition.c:738-743), then, when the parent has partitions, search the
candidate's lower bound and apply the gap analysis of partition.c:755-820.
The parent's partdesc is modelled by nparts and its bound info. -/
def check_new_partition_bound_range {α : Type} [LinearOrder α]
    (nparts : Nat) (boundinfo : PartitionBoundInfoData α)
    (spec : PartitionRangeSpec α) : CheckResult :=
  let lower := make_one_range_bound (-1) spec.lowerdatums true
  let upper := make_one_range_bound (-1) spec.upperdatums false
  if 0 ≤ partition_rbound_cmp lower.datums true upper.datums upper.lower then
    .emptyRange
  else if 0 < nparts then
    let r1 := partition_bound_bsearch boundinfo (.rangeBound lower.datums lower.lower)
    if r1.2 = false ∧ boundinfo.indexes.getD (r1.1 + 1).toNat 0 < 0 then
      let r2 := partition_bound_bsearch boundinfo (.rangeBound upper.datums upper.lower)
      if r2.2 = true ∨ r1.1 ≠ r2.1 then
        .overlap (if boundinfo.indexes.getD r2.1.toNat 0 < 0 then
            boundinfo.indexes.getD (r2.1 + 1).toNat 0
          else boundinfo.indexes.getD r2.1.toNat 0)
      else .ok
    else .overlap (boundinfo.indexes.getD (r1.1 + 1).toNat 0)
  else .ok

/-- C7: a range candidate whose lower edge compares greater than or equal
to its upper edge under partition_rbound_cmp is rejected with the
empty-range error — an outcome distinct from the overlap report — for
every state of the parent's collection (including an empty one), before
and instead of any overlap search. -/
theorem check_new_partition_bound_empty_range_first {α : Type} [LinearOrder α]
    (nparts : Nat) (boundinfo : PartitionBoundInfoData α)
    (spec : PartitionRangeSpec α)
    (h : 0 ≤ partition_rbound_cmp
      (make_one_range_bound (-1) spec.lowerdatums true).datums true
      (make_one_range_bound (-1) spec.upperdatums false).datums
      (make_one_range_bound (-1) spec.upperdatums false).lower) :
    check_new_partition_bound_range nparts boundinfo spec = CheckResult.emptyRange := by
  simp only [check_new_partition_bound_range, if_pos h]

/-- Witness for C7: the empty candidate [20,10) against the canonical
collection of [10,20) and [20,30). -/
theorem check_new_partition_bound_empty_range_first_witness :
    check_new_partition_bound_range 2
      (build_range_boundinfo
        [⟨[some (10 : ℤ)], [some 20]⟩, ⟨[some 20], [some 30]⟩]).1
      ⟨[some 20], [some 10]⟩ = CheckResult.emptyRange :=
  check_new_partition_bound_empty_range_first 2
    (build_range_boundinfo [⟨[some (10 : ℤ)], [some 20]⟩, ⟨[some 20], [some 30]⟩]).1
    ⟨[some 20], [some 10]⟩ (by decide)

/-- C4: for the parent canonicalized from exactly P1 = [10,20) and
P2 = [20,30) over one integer key column (P1 getting canonical ordinal 0
and P2 ordinal 1), check_new_partition_bound reports for candidate
[15,25) an overlap with P1 (one of the two existing partitions), for
candidate [20,30) an overlap with exactly P2, and no collision for
candidate [30,40). -/
theorem check_new_partition_bound_concrete_cases :
    (lookupAssigned
      (build_range_boundinfo
        [⟨[some (10 : ℤ)], [some 20]⟩, ⟨[some 20], [some 30]⟩]).2.assigned 0 = some 0) ∧
    (lookupAssigned
      (build_range_boundinfo
        [⟨[some (10 : ℤ)], [some 20]⟩, ⟨[some 20], [some 30]⟩]).2.assigned 1 = some 1) ∧
    check_new_partition_bound_range 2
      (build_range_boundinfo
        [⟨[some (10 : ℤ)], [some 20]⟩, ⟨[some 20], [some 30]⟩]).1
      ⟨[some 15], [some 25]⟩ = CheckResult.overlap 0 ∧
    check_new_partition_bound_range 2
      (build_range_boundinfo
        [⟨[some (10 : ℤ)], [some 20]⟩, ⟨[some 20], [some 30]⟩]).1
      ⟨[some 20], [some 30]⟩ = CheckResult.overlap 1 ∧
    check_new_partition_bound_range 2
      (build_range_boundinfo
        [⟨[some (10 : ℤ)], [some 20]⟩, ⟨[some 20], [some 30]⟩]).1
      ⟨[some 30], [some 40]⟩ = CheckResult.ok := by
  refine ⟨by decide, by decide, by decide, by decide, by decide⟩

/-- One dispatch node of the routing structure (struct
PartitionDispatchData): the node's partition key data (strategy, column
count), its partition descriptor (nparts, bound info), the per-slot
decoded indexes array built by RelationGetPartitionDispatchInfo, the
parent-to-child tuple conversion map (tupmap/tupslot; none for the root)
and FormPartitionKeyDatum's key extraction from a row (none = SQL null).
Rows have the abstract type rho. -/
structure PartitionDispatchData (ρ α : Type) where
  strategy : PartitionStrategy
  partnatts : Nat
  nparts : Nat
  boundinfo : PartitionBoundInfoData α
  indexes : List Int
  tupmap : Option (ρ → ρ)
  keyvals : ρ → List (Option α)

/-- The tuple-conversion step of the routing loop (partition.c:1942-1950):
convert the row to the node's layout when the node carries a conversion
map. -/
def convertedSlot {ρ α : Type} (parent : PartitionDispatchData ρ α) (slot : ρ) : ρ :=
  match parent.tupmap with
  | some conv => conv slot
  | none => slot

/-- The partition choice of one routing step (partition.c:1990-2027): a
null first key column routes to the null-accepting partition if there is
one, otherwise nowhere; a non-null key is binary-searched, the list
strategy demanding an exact match and the range strategy taking the slot
after the returned offset. -/
def chooseCurIndex {α : Type} [LinearOrder α] (strategy : PartitionStrategy)
    (boundinfo : PartitionBoundInfoData α) (keys : List (Option α)) : Int :=
  if keys.getD 0 none = none then
    if boundinfo.null_index ≠ -1 then boundinfo.null_index else -1
  else
    match strategy, keys.getD 0 none with
    | .list, some a =>
      let r := partition_bound_bsearch boundinfo (.listDatum a)
      if 0 ≤ r.1 ∧ r.2 = true then boundinfo.indexes.getD r.1.toNat 0 else -1
    | .list, none => -1
    | .range, _ =>
      let r := partition_bound_bsearch boundinfo (.rangeTuple (keys.filterMap id))
      boundinfo.indexes.getD (r.1 + 1).toNat 0

/-- The outcome of get_partition_for_tuple: a leaf index (the C return
value >= 0), or failure carrying the failing node's position in the pd
array (*failed_at) and the row image held at that node (*failed_slot).
stuck stands for running out of fuel or walking outside the pd array,
both unreachable for a well-formed finite dispatch forest. -/
inductive RouteResult (ρ : Type) where
  | found (leaf : Int)
  | failed (failed_at : Nat) (failed_slot : ρ)
  | stuck
deriving Repr

/-- get_partition_for_tuple (partition.c:1916-2053): walk the dispatch
array from node cur (the caller starts at the root, 0): convert the row,
fail when the node has no partitions, fail at a range node holding a null
key column, otherwise choose a partition slot, and decode it through the
node's indexes array — a non-negative entry is the final leaf, a negative
entry continues at the dispatch node at its negation.  fuel bounds the
number of descents (pd.length always suffices on a well-formed forest). -/
def get_partition_for_tuple {ρ α : Type} [LinearOrder α]
    (pd : List (PartitionDispatchData ρ α)) : Nat → Nat → ρ → RouteResult ρ
  | 0, _, _ => .stuck
  | fuel + 1, cur, slot =>
    match pd[cur]? with
    | none => .stuck
    | some parent =>
      if parent.nparts = 0 then .failed cur (convertedSlot parent slot)
      else if parent.strategy = PartitionStrategy.range ∧
          ∃ i < parent.partnatts,
            (parent.keyvals (convertedSlot parent slot)).getD i none = none then
        .failed cur (convertedSlot parent slot)
      else if chooseCurIndex parent.strategy parent.boundinfo
          (parent.keyvals (convertedSlot parent slot)) < 0 then
        .failed cur (convertedSlot parent slot)
      else if 0 ≤ parent.indexes.getD (chooseCurIndex parent.strategy parent.boundinfo
          (parent.keyvals (convertedSlot parent slot))).toNat 0 then
        .found (parent.indexes.getD (chooseCurIndex parent.strategy parent.boundinfo
          (parent.keyvals (convertedSlot parent slot))).toNat 0)
      else
        get_partition_for_tuple pd fuel
          (-(parent.indexes.getD (chooseCurIndex parent.strategy parent.boundinfo
            (parent.keyvals (convertedSlot parent slot))).toNat 0)).toNat
          (convertedSlot parent slot)

/-- C6: at a range-strategy dispatch node, a row with any null key column
fails at that node — failed_at names the node, failed_slot the row image
there — whatever the node's bound collection holds (no search happens); at
a list-strategy node, a null first key column routes to the node's
null-accepting partition when one exists (the walk decodes exactly the
null_index slot: leaf result or descent into that partition) and
otherwise fails at that node. -/
theorem get_partition_for_tuple_null_keys {ρ α : Type} [LinearOrder α]
    (pd : List (PartitionDispatchData ρ α)) (fuel cur : Nat) (slot : ρ)
    (parent : PartitionDispatchData ρ α) (hcur : pd[cur]? = some parent)
    (hnp : parent.nparts ≠ 0) :
    (parent.strategy = PartitionStrategy.range →
      (∃ i < parent.partnatts,
        (parent.keyvals (convertedSlot parent slot)).getD i none = none) →
      get_partition_for_tuple pd (fuel + 1) cur slot
        = RouteResult.failed cur (convertedSlot parent slot)) ∧
    (parent.strategy = PartitionStrategy.list →
      (parent.keyvals (convertedSlot parent slot)).getD 0 none = none →
      (0 ≤ parent.boundinfo.null_index →
        get_partition_for_tuple pd (fuel + 1) cur slot
          = if 0 ≤ parent.indexes.getD parent.boundinfo.null_index.toNat 0 then
              RouteResult.found (parent.indexes.getD parent.boundinfo.null_index.toNat 0)
            else
              get_partition_for_tuple pd fuel
                (-(parent.indexes.getD parent.boundinfo.null_index.toNat 0)).toNat
                (convertedSlot parent slot)) ∧
      (parent.boundinfo.null_index = -1 →
        get_partition_for_tuple pd (fuel + 1) cur slot
          = RouteResult.failed cur (convertedSlot parent slot))) := by
  constructor
  · intro hstrat hnull
    simp only [get_partition_for_tuple, hcur, if_neg hnp]
    rw [if_pos ⟨hstrat, hnull⟩]
  · intro hstrat hnull0
    have hnotrange : ¬ (parent.strategy = PartitionStrategy.range ∧
        ∃ i < parent.partnatts,
          (parent.keyvals (convertedSlot parent slot)).getD i none = none) := by
      rintro ⟨hr, _⟩
      rw [hstrat] at hr
      cases hr
    constructor
    · intro hni
      have hchoose : chooseCurIndex parent.strategy parent.boundinfo
          (parent.keyvals (convertedSlot parent slot)) = parent.boundinfo.null_index := by
        simp only [chooseCurIndex, if_pos hnull0]
        rw [if_pos (by omega)]
      simp only [get_partition_for_tuple, hcur, if_neg hnp, if_neg hnotrange, hchoose]
      rw [if_neg (by omega)]
    · intro hni
      have hchoose : chooseCurIndex parent.strategy parent.boundinfo
          (parent.keyvals (convertedSlot parent slot)) = -1 := by
        simp only [chooseCurIndex, if_pos hnull0]
        rw [if_neg (by omega)]
      simp only [get_partition_for_tuple, hcur, if_neg hnp, if_neg hnotrange, hchoose]
      rw [if_pos (by omega)]

/-- Witness for C6: a one-node range forest whose row has a null second
key column fails at the root with the row image; a one-node list forest
with a null-accepting partition (null_index 1, decoding to leaf 9) routes
a null first key column there. -/
theorem get_partition_for_tuple_null_keys_witness :
    get_partition_for_tuple
      [({ strategy := .range, partnatts := 2, nparts := 2,
          boundinfo := ⟨.range, 0, [], [], -1⟩, indexes := [0, 1],
          tupmap := none,
          keyvals := fun _ => [some (1 : ℤ), none] } : PartitionDispatchData Nat ℤ)]
      1 0 42 = RouteResult.failed 0 42 ∧
    get_partition_for_tuple
      [({ strategy := .list, partnatts := 1, nparts := 2,
          boundinfo := ⟨.list, 1, [[RangeDatum.finite (5 : ℤ)]], [0], 1⟩,
          indexes := [7, 9],
          tupmap := none,
          keyvals := fun _ => [none] } : PartitionDispatchData Nat ℤ)]
      1 0 42
      = (if (0 : Int) ≤ ([7, 9] : List Int).getD ((1 : Int)).toNat 0 then
          RouteResult.found (([7, 9] : List Int).getD ((1 : Int)).toNat 0)
        else
          get_partition_for_tuple
            [({ strategy := .list, partnatts := 1, nparts := 2,
                boundinfo := ⟨.list, 1, [[RangeDatum.finite (5 : ℤ)]], [0], 1⟩,
                indexes := [7, 9],
                tupmap := none,
                keyvals := fun _ => [none] } : PartitionDispatchData Nat ℤ)]
            0 (-(([7, 9] : List Int).getD ((1 : Int)).toNat 0)).toNat 42) :=
  And.intro
    ((get_partition_for_tuple_null_keys
        [({ strategy := .range, partnatts := 2, nparts := 2,
            boundinfo := ⟨.range, 0, [], [], -1⟩, indexes := [0, 1],
            tupmap := none,
            keyvals := fun _ => [some (1 : ℤ), none] } : PartitionDispatchData Nat ℤ)]
        0 0 42
        ({ strategy := .range, partnatts := 2, nparts := 2,
           boundinfo := ⟨.range, 0, [], [], -1⟩, indexes := [0, 1],
           tupmap := none,
           keyvals := fun _ => [some (1 : ℤ), none] } : PartitionDispatchData Nat ℤ)
        rfl (by decide)).1 rfl ⟨1, by decide, rfl⟩)
    (((get_partition_for_tuple_null_keys
        [({ strategy := .list, partnatts := 1, nparts := 2,
            boundinfo := ⟨.list, 1, [[RangeDatum.finite (5 : ℤ)]], [0], 1⟩,
            indexes := [7, 9],
            tupmap := none,
            keyvals := fun _ => [none] } : PartitionDispatchData Nat ℤ)]
        0 0 42
        ({ strategy := .list, partnatts := 1, nparts := 2,
           boundinfo := ⟨.list, 1, [[RangeDatum.finite (5 : ℤ)]], [0], 1⟩,
           indexes := [7, 9],
           tupmap := none,
           keyvals := fun _ => [none] } : PartitionDispatchData Nat ℤ)
        rfl (by decide)).2 rfl rfl).1 (by decide))

/-- A partition subtree as seen by RelationGetPartitionDispatchInfo: a
leaf partition, or a partitioned table (RELKIND_PARTITIONED_TABLE, i.e.
its RelationGetPartitionDesc is non-null) with its partitions in
partition-descriptor order. -/
inductive PTree where
  | pleaf (oid : Nat)
  | pnode (oid : Nat) (children : List PTree)

def ptreeOid : PTree → Nat
  | .pleaf o => o
  | .pnode o _ => o

def ptreeIsNode : PTree → Bool
  | .pleaf _ => false
  | .pnode _ _ => true

def ptreeChildren : PTree → List PTree
  | .pleaf _ => []
  | .pnode _ cs => cs

/-- The partitioned children of a relation: those whose descriptor makes
them dispatch nodes of their own. -/
def pch (t : PTree) : List PTree :=
  (ptreeChildren t).filter ptreeIsNode

mutual
def ptreeSize : PTree → Nat
  | .pleaf _ => 1
  | .pnode _ cs => 1 + ptreeSizeList cs
def ptreeSizeList : List PTree → Nat
  | [] => 0
  | t :: ts => ptreeSize t + ptreeSizeList ts
end

theorem ptreeSize_pos (t : PTree) : 1 ≤ ptreeSize t := by
  cases t <;> simp [ptreeSize]

theorem ptreeSizeList_append (a b : List PTree) :
    ptreeSizeList (a ++ b) = ptreeSizeList a + ptreeSizeList b := by
  induction a with
  | nil => simp [ptreeSizeList]
  | cons t ts ih => simp [ptreeSizeList, ih]; omega

theorem ptreeSizeList_filter (p : PTree → Bool) (cs : List PTree) :
    ptreeSizeList (cs.filter p) ≤ ptreeSizeList cs := by
  induction cs with
  | nil => simp [ptreeSizeList]
  | cons t ts ih =>
    by_cases h : p t
    · simp [List.filter, h, ptreeSizeList]
      omega
    · simp [List.filter, h, ptreeSizeList]
      have := ptreeSize_pos t
      omega

theorem ptreeSizeList_pch (t : PTree) : ptreeSizeList (pch t) < ptreeSize t := by
  cases t with
  | pleaf o => simp [pch, ptreeChildren, ptreeSizeList, ptreeSize]
  | pnode o cs =>
    have := ptreeSizeList_filter ptreeIsNode cs
    simp only [pch, ptreeChildren, ptreeSize]
    omega

/-- The collection of parted_rels by RelationGetPartitionDispatchInfo
(partition.c:1050-1080): a queue seeded with the root; each processed
node is listed and its partitioned children are appended to the end of
the work list, giving the breadth-first, per-level order of the C code. -/
def bfsQ : List PTree → List PTree
  | [] => []
  | t :: rest => t :: bfsQ (rest ++ pch t)
termination_by q => ptreeSizeList q
decreasing_by
  simp only [ptreeSizeList, ptreeSizeList_append]
  have := ptreeSizeList_pch t
  omega

theorem bfsQ_append : ∀ (q1 q2 : List PTree),
    bfsQ (q1 ++ q2) = q1 ++ bfsQ (q2 ++ q1.flatMap pch) := by
  intro q1
  induction q1 with
  | nil => intro q2; simp
  | cons t q1' ih =>
    intro q2
    have h1 : (t :: q1') ++ q2 = t :: (q1' ++ q2) := rfl
    rw [h1, bfsQ]
    rw [List.append_assoc, ih (q2 ++ pch t)]
    simp [List.append_assoc]

/-- Number of partitioned children contributed by the first i nodes of the
flat dispatch list: the value of the C offset counter when node i is
processed (partition.c:1094, 1171). -/
def pchCountPre (Q : List PTree) (i : Nat) : Nat :=
  ((Q.take i).map (fun t => (pch t).length)).sum

theorem pchCountPre_zero (Q : List PTree) : pchCountPre Q 0 = 0 := rfl

theorem pchCountPre_cons_succ (x : PTree) (X : List PTree) (j : Nat) :
    pchCountPre (x :: X) (j + 1) = (pch x).length + pchCountPre X j := by
  simp [pchCountPre]

theorem bfsQ_child_positions : ∀ (q : List PTree) (i m : Nat) (t c : PTree),
    (bfsQ q)[i]? = some t → (pch t)[m]? = some c →
    (bfsQ q)[q.length + pchCountPre (bfsQ q) i + m]? = some c := by
  intro q
  induction q using bfsQ.induct with
  | case1 =>
    intro i m t c ht hc
    rw [bfsQ] at ht
    simp at ht
  | case2 x rest ih =>
    intro i m t c ht hc
    rw [bfsQ] at ht ⊢
    have hQ' : bfsQ (rest ++ pch x)
        = (rest ++ pch x) ++ bfsQ ((rest ++ pch x).flatMap pch) := by
      have h0 := bfsQ_append (rest ++ pch x) []
      simpa using h0
    cases i with
    | zero =>
      simp only [List.getElem?_cons_zero, Option.some_inj] at ht
      subst ht
      have hm : m < (pch x).length := by
        by_contra hcon
        rw [List.getElem?_eq_none (by omega)] at hc
        cases hc
      rw [pchCountPre_zero]
      have hpos : (x :: rest).length + 0 + m = (rest.length + m) + 1 := by
        simp
        omega
      rw [hpos, List.getElem?_cons_succ, hQ',
        List.getElem?_append_left (by simp; omega),
        List.getElem?_append_right (by omega)]
      have : rest.length + m - rest.length = m := by omega
      rw [this]
      exact hc
    | succ j =>
      rw [List.getElem?_cons_succ] at ht
      have hstep := ih j m t c ht hc
      rw [pchCountPre_cons_succ]
      have hpos : (x :: rest).length + ((pch x).length + pchCountPre (bfsQ (rest ++ pch x)) j) + m
          = ((rest ++ pch x).length + pchCountPre (bfsQ (rest ++ pch x)) j + m) + 1 := by
        simp
        omega
      rw [hpos, List.getElem?_cons_succ]
      exact hstep

/-- Result of scanning one node's partition slots
(partition.c:1143-1164): the node's indexes array, the leaf OIDs
discovered (appended to *leaf_part_oids in the same order), and the
updated k (next leaf ordinal) and m (partitioned children seen). -/
structure SlotScan where
  idxs : List Int
  leafOids : List Nat
  kOut : Nat
  mOut : Nat

/-- The slot loop of RelationGetPartitionDispatchInfo
(partition.c:1143-1164): a leaf child takes the next leaf ordinal k++; a
partitioned child takes -(1 + offset + m), m++. -/
def nodeSlotScan : List PTree → Nat → Nat → Nat → SlotScan
  | [], k, _, m => ⟨[], [], k, m⟩
  | c :: cs, k, offset, m =>
    match c with
    | .pleaf oid =>
      let r := nodeSlotScan cs (k + 1) offset m
      ⟨(k : Int) :: r.idxs, oid :: r.leafOids, r.kOut, r.mOut⟩
    | .pnode _ _ =>
      let r := nodeSlotScan cs k offset (m + 1)
      ⟨(-(1 + (offset : Int) + (m : Int))) :: r.idxs, r.leafOids, r.kOut, r.mOut⟩

/-- The OID of a leaf child, none for a partitioned child. -/
def leafOidOf : PTree → Option Nat
  | .pleaf o => some o
  | .pnode _ _ => none

/-- The OIDs of the leaf children of a slot list, in slot order. -/
def leafChildOids (cs : List PTree) : List Nat :=
  cs.filterMap leafOidOf

/-- The outer loop of RelationGetPartitionDispatchInfo
(partition.c:1091-1172) over the breadth-first parted_rels list, threading
k and offset; collects each node's indexes array and the global
leaf_part_oids list. -/
def buildDispatchGo : List PTree → Nat → Nat → List (List Int) × List Nat
  | [], _, _ => ([], [])
  | t :: rest, k, offset =>
    let s := nodeSlotScan (ptreeChildren t) k offset 0
    let r := buildDispatchGo rest s.kOut (offset + s.mOut)
    (s.idxs :: r.1, s.leafOids ++ r.2)

/-- RelationGetPartitionDispatchInfo (partition.c:1025-1175): the flat
breadth-first dispatch array (each node reduced to its indexes array; the
node's relation, key and bound data come from the node itself) and the
leaf_part_oids list. -/
def RelationGetPartitionDispatchInfo (root : PTree) : List (List Int) × List Nat :=
  buildDispatchGo (bfsQ [root]) 0 0

/-- Number of leaf ordinals consumed by the first i nodes of the flat
dispatch list: the value of the C counter k when node i is processed. -/
def leafCountPre (Q : List PTree) (i : Nat) : Nat :=
  ((Q.take i).map (fun t => (leafChildOids (ptreeChildren t)).length)).sum

theorem leafCountPre_zero (Q : List PTree) : leafCountPre Q 0 = 0 := rfl

theorem leafCountPre_cons_succ (x : PTree) (X : List PTree) (j : Nat) :
    leafCountPre (x :: X) (j + 1)
      = (leafChildOids (ptreeChildren x)).length + leafCountPre X j := by
  simp [leafCountPre]

theorem nodeSlotScan_counts : ∀ (cs : List PTree) (k offset m : Nat),
    (nodeSlotScan cs k offset m).leafOids = leafChildOids cs ∧
    (nodeSlotScan cs k offset m).kOut = k + (leafChildOids cs).length ∧
    (nodeSlotScan cs k offset m).mOut = m + (cs.filter ptreeIsNode).length := by
  intro cs
  induction cs with
  | nil => intro k offset m; simp [nodeSlotScan, leafChildOids]
  | cons c cs ih =>
    intro k offset m
    cases c with
    | pleaf oid =>
      obtain ⟨h1, h2, h3⟩ := ih (k + 1) offset m
      refine ⟨?_, ?_, ?_⟩
      · simp [nodeSlotScan, leafChildOids, leafOidOf, h1, List.filterMap_cons]
      · simp [nodeSlotScan, h2, leafChildOids, leafOidOf, List.filterMap_cons]
        omega
      · simp [nodeSlotScan, h3, List.filter_cons, ptreeIsNode]
    | pnode o gcs =>
      obtain ⟨h1, h2, h3⟩ := ih k offset (m + 1)
      refine ⟨?_, ?_, ?_⟩
      · simp [nodeSlotScan, leafChildOids, leafOidOf, h1, List.filterMap_cons]
      · simp [nodeSlotScan, h2, leafChildOids, leafOidOf, List.filterMap_cons]
      · simp [nodeSlotScan, h3, List.filter_cons, ptreeIsNode]
        omega

theorem nodeSlotScan_entry : ∀ (cs : List PTree) (k offset m j : Nat) (c : PTree),
    cs[j]? = some c →
    (ptreeIsNode c = false →
      (nodeSlotScan cs k offset m).idxs[j]?
        = some ((k + (leafChildOids (cs.take j)).length : Nat) : Int)) ∧
    (ptreeIsNode c = true →
      (nodeSlotScan cs k offset m).idxs[j]?
        = some (-(1 + (offset : Int)
            + ((m + ((cs.take j).filter ptreeIsNode).length : Nat) : Int)))) := by
  intro cs
  induction cs with
  | nil =>
    intro k offset m j c hc
    simp at hc
  | cons x cs ih =>
    intro k offset m j c hc
    cases j with
    | zero =>
      simp only [List.getElem?_cons_zero, Option.some_inj] at hc
      subst hc
      cases x with
      | pleaf oid =>
        constructor
        · intro _
          simp [nodeSlotScan, leafChildOids, leafOidOf]
        · intro hcon
          simp [ptreeIsNode] at hcon
      | pnode o gcs =>
        constructor
        · intro hcon
          simp [ptreeIsNode] at hcon
        · intro _
          simp [nodeSlotScan]
    | succ j =>
      rw [List.getElem?_cons_succ] at hc
      cases x with
      | pleaf oid =>
        obtain ⟨h1, h2⟩ := ih (k + 1) offset m j c hc
        constructor
        · intro hl
          have := h1 hl
          simp only [nodeSlotScan, List.getElem?_cons_succ]
          rw [this]
          simp [leafChildOids, leafOidOf, List.filterMap_cons]
          omega
        · intro hn
          have := h2 hn
          simp only [nodeSlotScan, List.getElem?_cons_succ]
          rw [this]
          simp [List.filter_cons, ptreeIsNode]
      | pnode o gcs =>
        obtain ⟨h1, h2⟩ := ih k offset (m + 1) j c hc
        constructor
        · intro hl
          have := h1 hl
          simp only [nodeSlotScan, List.getElem?_cons_succ]
          rw [this]
          simp [leafChildOids, leafOidOf, List.filterMap_cons]
        · intro hn
          have := h2 hn
          simp only [nodeSlotScan, List.getElem?_cons_succ]
          rw [this]
          simp only [List.take_succ_cons, List.filter_cons, ptreeIsNode]
          congr 1
          simp
          omega

theorem buildDispatchGo_spec : ∀ (Fs : List PTree) (k offset : Nat),
    (buildDispatchGo Fs k offset).2
        = (Fs.map (fun t => leafChildOids (ptreeChildren t))).flatten ∧
    ∀ (i : Nat) (t : PTree), Fs[i]? = some t →
      (buildDispatchGo Fs k offset).1[i]?
        = some (nodeSlotScan (ptreeChildren t)
            (k + leafCountPre Fs i) (offset + pchCountPre Fs i) 0).idxs := by
  intro Fs
  induction Fs with
  | nil =>
    intro k offset
    constructor
    · simp [buildDispatchGo]
    · intro i t ht
      simp at ht
  | cons x rest ih =>
    intro k offset
    obtain ⟨hc1, hc2, hc3⟩ :=
      nodeSlotScan_counts (ptreeChildren x) k offset 0
    obtain ⟨ih1, ih2⟩ := ih (nodeSlotScan (ptreeChildren x) k offset 0).kOut
      (offset + (nodeSlotScan (ptreeChildren x) k offset 0).mOut)
    constructor
    · simp only [buildDispatchGo, List.map_cons, List.flatten_cons]
      rw [ih1, hc1]
    · intro i t ht
      cases i with
      | zero =>
        simp only [List.getElem?_cons_zero, Option.some_inj] at ht
        subst ht
        simp only [buildDispatchGo, List.getElem?_cons_zero, Option.some_inj]
        rw [leafCountPre_zero, pchCountPre_zero]
        simp
      | succ j =>
        rw [List.getElem?_cons_succ] at ht
        have := ih2 j t ht
        simp only [buildDispatchGo, List.getElem?_cons_succ]
        rw [this, hc2, hc3]
        rw [leafCountPre_cons_succ, pchCountPre_cons_succ]
        have harith1 : k + (leafChildOids (ptreeChildren x)).length + leafCountPre rest j
            = k + ((leafChildOids (ptreeChildren x)).length + leafCountPre rest j) := by omega
        have harith2 : offset + (0 + (List.filter ptreeIsNode (ptreeChildren x)).length)
              + pchCountPre rest j
            = offset + ((pch x).length + pchCountPre rest j) := by
          simp [pch]
          omega
        rw [harith1, harith2]

theorem filterMap_take_position {β γ : Type} (f : β → Option γ) :
    ∀ (l : List β) (j : Nat) (c : β) (b : γ), l[j]? = some c → f c = some b →
      (l.filterMap f)[((l.take j).filterMap f).length]? = some b := by
  intro l
  induction l with
  | nil => intro j c b hc; simp at hc
  | cons x xs ih =>
    intro j c b hc hf
    cases j with
    | zero =>
      simp only [List.getElem?_cons_zero, Option.some_inj] at hc
      subst hc
      simp [List.filterMap_cons, hf]
    | succ j =>
      rw [List.getElem?_cons_succ] at hc
      have := ih j c b hc hf
      cases hfx : f x with
      | none => simpa [List.filterMap_cons, hfx] using this
      | some bx =>
        simp only [List.take_succ_cons, List.filterMap_cons, hfx, List.length_cons,
          List.getElem?_cons_succ]
        exact this

theorem filter_take_position {β : Type} (p : β → Bool) :
    ∀ (l : List β) (j : Nat) (c : β), l[j]? = some c → p c = true →
      (l.filter p)[((l.take j).filter p).length]? = some c := by
  intro l
  induction l with
  | nil => intro j c hc; simp at hc
  | cons x xs ih =>
    intro j c hc hp
    cases j with
    | zero =>
      simp only [List.getElem?_cons_zero, Option.some_inj] at hc
      subst hc
      simp [List.filter_cons, hp]
    | succ j =>
      rw [List.getElem?_cons_succ] at hc
      have := ih j c hc hp
      cases hpx : p x with
      | false => simpa [List.filter_cons, hpx] using this
      | true =>
        simp only [List.take_succ_cons, List.filter_cons, hpx, if_true, List.length_cons,
          List.getElem?_cons_succ]
        exact this

theorem flatten_take_position {γ : Type} :
    ∀ (L : List (List γ)) (i : Nat) (A : List γ) (m : Nat) (b : γ),
      L[i]? = some A → A[m]? = some b →
      L.flatten[(((L.take i).map List.length).sum) + m]? = some b := by
  intro L
  induction L with
  | nil => intro i A m b hA; simp at hA
  | cons X Xs ih =>
    intro i A m b hA hb
    cases i with
    | zero =>
      simp only [List.getElem?_cons_zero, Option.some_inj] at hA
      subst hA
      have hm : m < X.length := by
        by_contra hcon
        rw [List.getElem?_eq_none (by omega)] at hb
        cases hb
      simp only [List.take_zero, List.map_nil, List.sum_nil, Nat.zero_add,
        List.flatten_cons]
      rw [List.getElem?_append_left hm]
      exact hb
    | succ i =>
      rw [List.getElem?_cons_succ] at hA
      have := ih i A m b hA hb
      simp only [List.take_succ_cons, List.map_cons, List.sum_cons, List.flatten_cons]
      rw [Nat.add_assoc, List.getElem?_append_right (by omega)]
      have harith : X.length + (((Xs.take i).map List.length).sum + m) - X.length
          = ((Xs.take i).map List.length).sum + m := by omega
      rw [harith]
      exact this

/-- C8: in the dispatch forest of RelationGetPartitionDispatchInfo, a
node's slot entry is non-negative exactly when the referenced child is a
leaf; a leaf child's entry is the next unused leaf ordinal in
breadth-first discovery order (the number of leaves discovered before it)
and indexes exactly that child's OID in the returned leaf_part_oids list;
a partitioned child's entry is the negation of that child's own position
in the flat node array, so the router's decode step continues at exactly
that child's dispatch node. -/
theorem RelationGetPartitionDispatchInfo_correct (root : PTree) (i : Nat) (t : PTree)
    (ht : (bfsQ [root])[i]? = some t) (j : Nat) (c : PTree)
    (hc : (ptreeChildren t)[j]? = some c) :
    (0 ≤ ((RelationGetPartitionDispatchInfo root).1.getD i []).getD j 0 ↔
      ptreeIsNode c = false) ∧
    (ptreeIsNode c = false →
      ((RelationGetPartitionDispatchInfo root).1.getD i []).getD j 0
        = ((leafCountPre (bfsQ [root]) i
            + (leafChildOids ((ptreeChildren t).take j)).length : Nat) : Int) ∧
      (RelationGetPartitionDispatchInfo root).2[
        leafCountPre (bfsQ [root]) i
          + (leafChildOids ((ptreeChildren t).take j)).length]? = some (ptreeOid c)) ∧
    (ptreeIsNode c = true →
      ((RelationGetPartitionDispatchInfo root).1.getD i []).getD j 0
        = -(((1 + pchCountPre (bfsQ [root]) i
            + (((ptreeChildren t).take j).filter ptreeIsNode).length : Nat) : Int)) ∧
      (bfsQ [root])[1 + pchCountPre (bfsQ [root]) i
          + (((ptreeChildren t).take j).filter ptreeIsNode).length]? = some c) := by
  obtain ⟨hbd1, hbd2⟩ := buildDispatchGo_spec (bfsQ [root]) 0 0
  have hrow := hbd2 i t ht
  simp only [Nat.zero_add] at hrow
  have hgetD : (RelationGetPartitionDispatchInfo root).1.getD i []
      = (nodeSlotScan (ptreeChildren t)
          (leafCountPre (bfsQ [root]) i) (pchCountPre (bfsQ [root]) i) 0).idxs := by
    have h0 : (RelationGetPartitionDispatchInfo root).1
        = (buildDispatchGo (bfsQ [root]) 0 0).1 := rfl
    rw [h0]
    simp [List.getD, hrow]
  obtain ⟨hleafE, hnodeE⟩ := nodeSlotScan_entry (ptreeChildren t)
    (leafCountPre (bfsQ [root]) i) (pchCountPre (bfsQ [root]) i) 0 j c hc
  refine ⟨?_, ?_, ?_⟩
  · cases hin : ptreeIsNode c with
    | false =>
      have he := hleafE hin
      rw [hgetD]
      simp only [List.getD, List.get?_eq_getElem?, he, Option.getD_some]
      exact ⟨fun _ => trivial, fun _ => by omega⟩
    | true =>
      have he := hnodeE hin
      rw [hgetD]
      simp only [List.getD, List.get?_eq_getElem?, he, Option.getD_some]
      constructor
      · intro hcon
        omega
      · intro hcon
        cases hcon
  · intro hin
    have he := hleafE hin
    constructor
    · rw [hgetD]
      simp only [List.getD, List.get?_eq_getElem?, he, Option.getD_some]
    · have hoid : leafOidOf c = some (ptreeOid c) := by
        cases c with
        | pleaf o => rfl
        | pnode o gcs => simp [ptreeIsNode] at hin
      have hpos : (leafChildOids (ptreeChildren t))[
          (leafChildOids ((ptreeChildren t).take j)).length]? = some (ptreeOid c) := by
        have h0 := filterMap_take_position leafOidOf
          (ptreeChildren t) j c (ptreeOid c) hc hoid
        simpa [leafChildOids] using h0
      have hL : ((bfsQ [root]).map (fun t => leafChildOids (ptreeChildren t)))[i]?
          = some (leafChildOids (ptreeChildren t)) := by
        rw [List.getElem?_map, ht]
        rfl
      have hflat := flatten_take_position
        ((bfsQ [root]).map (fun t => leafChildOids (ptreeChildren t))) i
        (leafChildOids (ptreeChildren t))
        ((leafChildOids ((ptreeChildren t).take j)).length) (ptreeOid c) hL hpos
      have hsum : ((((bfsQ [root]).map (fun t => leafChildOids (ptreeChildren t))).take i).map
          List.length).sum = leafCountPre (bfsQ [root]) i := by
        rw [← List.map_take, List.map_map]
        rfl
      rw [hsum] at hflat
      have h2 : (RelationGetPartitionDispatchInfo root).2
          = ((bfsQ [root]).map (fun t => leafChildOids (ptreeChildren t))).flatten := hbd1
      rw [h2]
      exact hflat
  · intro hin
    have he := hnodeE hin
    constructor
    · rw [hgetD]
      simp only [List.getD, List.get?_eq_getElem?, he, Option.getD_some]
      push_cast
      ring
    · have hpch : (pch t)[(((ptreeChildren t).take j).filter ptreeIsNode).length]?
          = some c :=
        filter_take_position ptreeIsNode (ptreeChildren t) j c hc hin
      have hG := bfsQ_child_positions [root] i
        ((((ptreeChildren t).take j).filter ptreeIsNode).length) t c ht hpch
      have harith : ([root] : List PTree).length + pchCountPre (bfsQ [root]) i
          + (((ptreeChildren t).take j).filter ptreeIsNode).length
          = 1 + pchCountPre (bfsQ [root]) i
            + (((ptreeChildren t).take j).filter ptreeIsNode).length := by
        simp
      rw [harith] at hG
      exact hG

/-- A two-level hierarchy for the C8 witness: root 1 with leaf 10, the
partitioned child 2 (holding leaves 20 and 21) and leaf 11. -/
def c8root : PTree :=
  PTree.pnode 1 [PTree.pleaf 10, PTree.pnode 2 [PTree.pleaf 20, PTree.pleaf 21], PTree.pleaf 11]

def c8child : PTree := PTree.pnode 2 [PTree.pleaf 20, PTree.pleaf 21]

/-- Witness for C8: root slot 1 references the partitioned child, whose
entry decodes to its own position in the flat node array. -/
theorem RelationGetPartitionDispatchInfo_correct_witness :
    (0 ≤ ((RelationGetPartitionDispatchInfo c8root).1.getD 0 []).getD 1 0 ↔
      ptreeIsNode c8child = false) ∧
    (ptreeIsNode c8child = false →
      ((RelationGetPartitionDispatchInfo c8root).1.getD 0 []).getD 1 0
        = ((leafCountPre (bfsQ [c8root]) 0
            + (leafChildOids ((ptreeChildren c8root).take 1)).length : Nat) : Int) ∧
      (RelationGetPartitionDispatchInfo c8root).2[
        leafCountPre (bfsQ [c8root]) 0
          + (leafChildOids ((ptreeChildren c8root).take 1)).length]? = some (ptreeOid c8child)) ∧
    (ptreeIsNode c8child = true →
      ((RelationGetPartitionDispatchInfo c8root).1.getD 0 []).getD 1 0
        = -(((1 + pchCountPre (bfsQ [c8root]) 0
            + (((ptreeChildren c8root).take 1).filter ptreeIsNode).length : Nat) : Int)) ∧
      (bfsQ [c8root])[1 + pchCountPre (bfsQ [c8root]) 0
          + (((ptreeChildren c8root).take 1).filter ptreeIsNode).length]? = some c8child) :=
  RelationGetPartitionDispatchInfo_correct c8root 0 c8root
    (by simp [c8root, bfsQ, pch, ptreeChildren, ptreeIsNode, List.filter])
    1 c8child rfl

theorem colCmp_neg {α : Type} [LinearOrder α] (a b : α) : colCmp a b = -(colCmp b a) := by
  unfold colCmp
  rcases lt_trichotomy a b with h | h | h
  · simp [h, not_lt.mpr (le_of_lt h)]
  · simp [h, lt_irrefl]
  · simp [h, not_lt.mpr (le_of_lt h)]

theorem colCmp_le_zero_iff {α : Type} [LinearOrder α] {a b : α} :
    colCmp a b ≤ 0 ↔ a ≤ b := by
  unfold colCmp
  split_ifs with h1 h2
  · simp [le_of_lt h1]
  · simp [not_le.mpr h2]
  · simp [le_antisymm (not_lt.mp h2) (not_lt.mp h1)]

/-- Negate both payloads of the loop outcome. -/
def negSum : Sum Int Int → Sum Int Int
  | .inl c => .inl (-c)
  | .inr c => .inr (-c)

theorem rbcGo_swap {α : Type} [LinearOrder α] :
    ∀ d1 d2 : List (RangeDatum α), rbcGo d2 d1 = negSum (rbcGo d1 d2)
  | [], [] => rfl
  | [], _ :: _ => rfl
  | _ :: _, [] => rfl
  | x :: t1, y :: t2 => by
    cases x with
    | finite a =>
      cases y with
      | finite b =>
        simp only [rbcGo]
        rw [colCmp_neg b a]
        by_cases h : colCmp a b = 0
        · rw [if_pos h, if_pos (by omega : -colCmp a b = 0)]
          exact rbcGo_swap t1 t2
        · rw [if_neg h, if_neg (by omega : ¬(-colCmp a b = 0))]
          rfl
      | negInf => simp [rbcGo, negSum]
      | posInf => simp [rbcGo, negSum]
    | negInf => cases y <;> simp [rbcGo, negSum]
    | posInf => cases y <;> simp [rbcGo, negSum]

theorem rbound_cmp_neg_antisym {α : Type} [LinearOrder α]
    (d1 : List (RangeDatum α)) (l1 : Bool) (d2 : List (RangeDatum α)) (l2 : Bool) :
    partition_rbound_cmp d1 l1 d2 l2 = -(partition_rbound_cmp d2 l2 d1 l1) := by
  unfold partition_rbound_cmp
  rw [rbcGo_swap d2 d1]
  cases hg : rbcGo d2 d1 with
  | inl c => simp [negSum]
  | inr c =>
    simp only [negSum]
    by_cases hc : c = 0
    · subst hc
      cases l1 <;> cases l2 <;> simp
    · have hc' : ¬((-c : Int) = 0) := by omega
      simp [hc, hc']

/-- Unfolding of partition_rbound_cmp at a finite-finite head column. -/
theorem rbound_cmp_cons_finite {α : Type} [LinearOrder α]
    (a b : α) (t1 t2 : List (RangeDatum α)) (l1 l2 : Bool) :
    partition_rbound_cmp (RangeDatum.finite a :: t1) l1 (RangeDatum.finite b :: t2) l2
      = if colCmp a b = 0 then partition_rbound_cmp t1 l1 t2 l2 else colCmp a b := by
  by_cases h : colCmp a b = 0
  · have hg : rbcGo (RangeDatum.finite a :: t1) (RangeDatum.finite b :: t2)
        = rbcGo t1 t2 := by
      simp [rbcGo, h]
    simp only [partition_rbound_cmp, hg, if_pos h]
  · have hg : rbcGo (RangeDatum.finite a :: t1) (RangeDatum.finite b :: t2)
        = .inr (colCmp a b) := by
      simp [rbcGo, h]
    simp only [partition_rbound_cmp, hg]
    rw [if_neg (fun hp => h hp.1), if_neg h]

theorem colCmp_lt_zero_iff {α : Type} [LinearOrder α] {a b : α} :
    colCmp a b < 0 ↔ a < b := by
  unfold colCmp
  split_ifs with h1 h2
  · simp [h1]
  · simp [not_lt.mpr (le_of_lt h2), h2]
  · simp [not_lt.mp h1]

theorem rbound_cmp_negInf_head_le {α : Type} [LinearOrder α]
    (y : RangeDatum α) (t1 t2 : List (RangeDatum α)) (l1 l2 : Bool) :
    partition_rbound_cmp (RangeDatum.negInf :: t1) l1 (y :: t2) l2 ≤ 0 := by
  cases y <;> simp [partition_rbound_cmp, rbcGo]

theorem rbound_cmp_head_posInf_le {α : Type} [LinearOrder α]
    (x : RangeDatum α) (t1 t2 : List (RangeDatum α)) (l1 l2 : Bool) :
    partition_rbound_cmp (x :: t1) l1 (RangeDatum.posInf :: t2) l2 ≤ 0 := by
  cases x <;> simp [partition_rbound_cmp, rbcGo]

theorem posInf_head_le_imp {α : Type} [LinearOrder α]
    (y : RangeDatum α) (t1 t2 : List (RangeDatum α)) (l1 l2 : Bool)
    (h : partition_rbound_cmp (RangeDatum.posInf :: t1) l1 (y :: t2) l2 ≤ 0) :
    y = RangeDatum.posInf := by
  cases y <;> simp_all [partition_rbound_cmp, rbcGo]

theorem head_negInf_le_imp {α : Type} [LinearOrder α]
    (x : RangeDatum α) (t1 t2 : List (RangeDatum α)) (l1 l2 : Bool)
    (h : partition_rbound_cmp (x :: t1) l1 (RangeDatum.negInf :: t2) l2 ≤ 0) :
    x = RangeDatum.negInf := by
  cases x <;> simp_all [partition_rbound_cmp, rbcGo]

theorem rbound_cmp_trans_le {α : Type} [LinearOrder α] :
    ∀ (d1 d2 d3 : List (RangeDatum α)) (l1 l2 l3 : Bool),
      d1.length = d2.length → d2.length = d3.length →
      partition_rbound_cmp d1 l1 d2 l2 ≤ 0 → partition_rbound_cmp d2 l2 d3 l3 ≤ 0 →
      partition_rbound_cmp d1 l1 d3 l3 ≤ 0
  | [], [], [], l1, l2, l3 => by
    intro _ _ h12 h23
    cases l1 <;> cases l2 <;> cases l3 <;> simp_all [partition_rbound_cmp, rbcGo]
  | [], _ :: _, _, _, _, _ => by intro h1 _ _ _; simp at h1
  | [], [], _ :: _, _, _, _ => by intro _ h2 _ _; simp at h2
  | _ :: _, [], _, _, _, _ => by intro h1 _ _ _; simp at h1
  | _ :: _, _ :: _, [], _, _, _ => by intro _ h2 _ _; simp at h2
  | x1 :: t1, x2 :: t2, x3 :: t3, l1, l2, l3 => by
    intro hL1 hL2 h12 h23
    simp only [List.length_cons, Nat.add_right_cancel_iff] at hL1 hL2
    cases x1 with
    | negInf => exact rbound_cmp_negInf_head_le x3 t1 t3 l1 l3
    | posInf =>
      have h2p := posInf_head_le_imp x2 t1 t2 l1 l2 h12
      subst h2p
      have h3p := posInf_head_le_imp x3 t2 t3 l2 l3 h23
      subst h3p
      simp [partition_rbound_cmp, rbcGo]
    | finite a =>
      cases x3 with
      | posInf => exact rbound_cmp_head_posInf_le (RangeDatum.finite a) t1 t3 l1 l3
      | negInf =>
        have h2n := head_negInf_le_imp x2 t2 t3 l2 l3 h23
        subst h2n
        simp [partition_rbound_cmp, rbcGo] at h12
      | finite c =>
        cases x2 with
        | negInf => simp [partition_rbound_cmp, rbcGo] at h12
        | posInf => simp [partition_rbound_cmp, rbcGo] at h23
        | finite b =>
          rw [rbound_cmp_cons_finite] at h12 h23 ⊢
          by_cases hab : colCmp a b = 0
          · have hab' : a = b := colCmp_eq_zero_iff.mp hab
            subst hab'
            rw [if_pos hab] at h12
            by_cases hbc : colCmp a c = 0
            · rw [if_pos hbc] at h23
              rw [if_pos hbc]
              exact rbound_cmp_trans_le t1 t2 t3 l1 l2 l3 hL1 hL2 h12 h23
            · rw [if_neg hbc] at h23
              rw [if_neg hbc]
              exact h23
          · rw [if_neg hab] at h12
            by_cases hbc : colCmp b c = 0
            · have hbc' : b = c := colCmp_eq_zero_iff.mp hbc
              subst hbc'
              rw [if_neg hab]
              exact h12
            · rw [if_neg hbc] at h23
              have h1 : a < b := colCmp_lt_zero_iff.mp (by omega)
              have h2 : b < c := colCmp_lt_zero_iff.mp (by omega)
              have h3 : a < c := lt_trans h1 h2
              have hac : colCmp a c < 0 := colCmp_lt_zero_iff.mpr h3
              rw [if_neg (by omega)]
              omega

theorem pairwise_orderedInsert_of {β : Type} (r : β → β → Prop) [DecidableRel r]
    (htot : ∀ x y : β, r x y ∨ r y x) :
    ∀ (l : List β) (a : β),
      (∀ x ∈ a :: l, ∀ y ∈ a :: l, ∀ z ∈ a :: l, r x y → r y z → r x z) →
      l.Pairwise r → (List.orderedInsert r a l).Pairwise r := by
  intro l
  induction l with
  | nil => intro a _ _; simp [List.orderedInsert]
  | cons b t ih =>
    intro a htr hs
    rw [List.orderedInsert]
    by_cases hab : r a b
    · rw [if_pos hab]
      refine List.Pairwise.cons ?_ hs
      intro x hx
      rcases List.mem_cons.mp hx with hx | hx
      · subst hx; exact hab
      · have hbx : r b x := (List.pairwise_cons.mp hs).1 x hx
        exact htr a (by simp) b (by simp) x (by simp [hx]) hab hbx
    · rw [if_neg hab]
      have hba : r b a := (htot a b).resolve_left hab
      refine List.Pairwise.cons ?_ ?_
      · intro x hx
        rcases (List.mem_orderedInsert r).mp hx with hx | hx
        · subst hx; exact hba
        · exact (List.pairwise_cons.mp hs).1 x hx
      · refine ih a ?_ (List.pairwise_cons.mp hs).2
        intro x hx y hy z hz
        have hmem : ∀ w, w ∈ a :: t → w ∈ a :: b :: t := by
          intro w hw
          rcases List.mem_cons.mp hw with hw | hw
          · simp [hw]
          · simp [hw]
        exact htr x (hmem x hx) y (hmem y hy) z (hmem z hz)

theorem pairwise_insertionSort_of {β : Type} (r : β → β → Prop) [DecidableRel r]
    (htot : ∀ x y : β, r x y ∨ r y x) :
    ∀ l : List β,
      (∀ x ∈ l, ∀ y ∈ l, ∀ z ∈ l, r x y → r y z → r x z) →
      (List.insertionSort r l).Pairwise r := by
  intro l
  induction l with
  | nil => simp [List.insertionSort]
  | cons a t ih =>
    intro htr
    rw [List.insertionSort]
    refine pairwise_orderedInsert_of r htot (List.insertionSort r t) a ?_ ?_
    · intro x hx y hy z hz
      have hmem : ∀ w, w ∈ a :: List.insertionSort r t → w ∈ a :: t := by
        intro w hw
        rcases List.mem_cons.mp hw with hw | hw
        · simp [hw]
        · simp [(List.mem_insertionSort r).mp hw]
      exact htr x (hmem x hx) y (hmem y hy) z (hmem z hz)
    · refine ih ?_
      intro x hx y hy z hz
      exact htr x (by simp [hx]) y (by simp [hy]) z (by simp [hz])

theorem eq_of_perm_of_pairwise_of {β : Type} (r : β → β → Prop) :
    ∀ (l1 l2 : List β), l1.Perm l2 → l1.Pairwise r → l2.Pairwise r →
      (∀ x ∈ l1, ∀ y ∈ l1, r x y → r y x → x = y) → l1 = l2 := by
  intro l1
  induction l1 with
  | nil =>
    intro l2 hp _ _ _
    exact List.Perm.nil_eq hp
  | cons a t1 ih =>
    intro l2 hp hs1 hs2 hanti
    cases l2 with
    | nil => exact absurd (List.Perm.eq_nil hp) (by simp)
    | cons b t2 =>
      have hab : a = b := by
        have hamem : a ∈ b :: t2 := hp.mem_iff.mp (by simp)
        rcases List.mem_cons.mp hamem with h | h
        · exact h
        · have hbmem : b ∈ a :: t1 := hp.mem_iff.mpr (by simp)
          rcases List.mem_cons.mp hbmem with h2 | h2
          · exact h2.symm
          · have hrab : r a b := (List.pairwise_cons.mp hs1).1 b h2
            have hrba : r b a := (List.pairwise_cons.mp hs2).1 a h
            exact hanti a (by simp) b (by simp [h2]) hrab hrba
      subst hab
      have htp : t1.Perm t2 := hp.cons_inv
      have := ih t2 htp (List.pairwise_cons.mp hs1).2 (List.pairwise_cons.mp hs2).2
        (fun x hx y hy => hanti x (by simp [hx]) y (by simp [hy]))
      rw [this]

/-- Position of the first occurrence of a key in a first-appearance list
(the canonical ordinal the mapping array associates with it). -/
def posOf : List Int → Int → Nat
  | [], _ => 0
  | x :: t, k => if x = k then 0 else posOf t k + 1

/-- Append a key to a first-appearance list unless already present: the
effect of one mapping[orig] = next_index++ assignment. -/
def foInsert (fo : List Int) (k : Int) : List Int :=
  if k ∈ fo then fo else fo ++ [k]

def foldInsert (fo : List Int) (ks : List Int) : List Int := ks.foldl foInsert fo

/-- The mapping association list denoted by a first-appearance key list:
key i of the list maps to ordinal i. -/
def assignedOf : List Int → Nat → List (Int × Nat)
  | [], _ => []
  | k :: t, n => (k, n) :: assignedOf t (n + 1)

def stateOf (fo : List Int) : MapState := ⟨assignedOf fo 0, fo.length⟩

theorem lookup_assignedOf : ∀ (fo : List Int) (n : Nat) (k : Int),
    lookupAssigned (assignedOf fo n) k
      = if k ∈ fo then some (posOf fo k + n) else none := by
  intro fo
  induction fo with
  | nil => intro n k; simp [assignedOf, lookupAssigned]
  | cons x t ih =>
    intro n k
    simp only [assignedOf, lookupAssigned]
    by_cases hx : x = k
    · subst hx
      simp [posOf]
    · rw [if_neg hx, ih (n + 1) k]
      by_cases hk : k ∈ t
      · rw [if_pos hk, if_pos (by simp [hk])]
        simp [posOf, hx]
        omega
      · have hnm : k ∉ x :: t := by
          intro hm
          rcases List.mem_cons.mp hm with h | h
          · exact hx h.symm
          · exact hk h
        rw [if_neg hk, if_neg hnm]

theorem assignedOf_append : ∀ (a b : List Int) (n : Nat),
    assignedOf (a ++ b) n = assignedOf a n ++ assignedOf b (n + a.length) := by
  intro a
  induction a with
  | nil => intro b n; simp [assignedOf]
  | cons x t ih =>
    intro b n
    have h1 : assignedOf ((x :: t) ++ b) n = (x, n) :: assignedOf (t ++ b) (n + 1) := rfl
    rw [h1, ih b (n + 1)]
    have h2 : n + 1 + t.length = n + (x :: t).length := by simp; omega
    rw [h2]
    rfl

theorem getOrAssign_stateOf (fo : List Int) (k : Int) :
    getOrAssign (stateOf fo) k
      = ((if k ∈ fo then posOf fo k else fo.length), stateOf (foInsert fo k)) := by
  by_cases hk : k ∈ fo
  · have hl : lookupAssigned (stateOf fo).assigned k = some (posOf fo k) := by
      unfold stateOf
      simp only [lookup_assignedOf fo 0 k, if_pos hk, Nat.add_zero]
    unfold getOrAssign
    rw [hl]
    simp [foInsert, hk, stateOf]
  · have hl : lookupAssigned (stateOf fo).assigned k = none := by
      unfold stateOf
      simp only [lookup_assignedOf fo 0 k, if_neg hk]
    unfold getOrAssign
    rw [hl]
    unfold stateOf foInsert
    rw [if_neg hk, if_neg hk]
    simp [assignedOf_append, assignedOf]

theorem posOf_append_of_mem {k : Int} : ∀ {fo : List Int}, k ∈ fo →
    ∀ l, posOf (fo ++ l) k = posOf fo k := by
  intro fo
  induction fo with
  | nil => intro h; cases h
  | cons x t ih =>
    intro h l
    by_cases hx : x = k
    · simp [posOf, hx]
    · have hk : k ∈ t := by
        rcases List.mem_cons.mp h with h | h
        · exact absurd h.symm hx
        · exact h
      simp [posOf, hx, ih hk l]

theorem posOf_append_of_not_mem {k : Int} : ∀ {fo : List Int}, k ∉ fo →
    ∀ l, posOf (fo ++ l) k = fo.length + posOf l k := by
  intro fo
  induction fo with
  | nil => intro _ l; simp [posOf]
  | cons x t ih =>
    intro h l
    have hx : x ≠ k := fun he => h (by simp [he])
    have hk : k ∉ t := fun hm => h (by simp [hm])
    simp [posOf, hx, ih hk l]
    omega

theorem mem_foInsert_self (fo : List Int) (k : Int) : k ∈ foInsert fo k := by
  unfold foInsert
  by_cases hk : k ∈ fo <;> simp [hk]

theorem mem_foInsert_of_mem {fo : List Int} {k' : Int} (k : Int) (h : k' ∈ fo) :
    k' ∈ foInsert fo k := by
  unfold foInsert
  by_cases hk : k ∈ fo <;> simp [hk, h]

theorem posOf_foInsert_of_mem {fo : List Int} {k : Int} (h : k ∈ fo) (k2 : Int) :
    posOf (foInsert fo k2) k = posOf fo k := by
  unfold foInsert
  by_cases hk : k2 ∈ fo
  · simp [hk]
  · simp [hk, posOf_append_of_mem h]

theorem mem_foldInsert_of_mem {k : Int} : ∀ (ks : List Int) {fo : List Int}, k ∈ fo →
    k ∈ foldInsert fo ks := by
  intro ks
  induction ks with
  | nil => intro fo h; exact h
  | cons k0 t ih =>
    intro fo h
    exact ih (mem_foInsert_of_mem k0 h)

theorem posOf_foldInsert_of_mem {k : Int} : ∀ (ks : List Int) {fo : List Int}, k ∈ fo →
    posOf (foldInsert fo ks) k = posOf fo k := by
  intro ks
  induction ks with
  | nil => intro fo _; rfl
  | cons k0 t ih =>
    intro fo h
    have h2 := ih (mem_foInsert_of_mem k0 h)
    rw [foldInsert] at h2 ⊢
    simp only [List.foldl_cons] at h2 ⊢
    rw [h2, posOf_foInsert_of_mem h k0]

theorem mem_foldInsert_iff {k : Int} : ∀ (ks fo : List Int),
    k ∈ foldInsert fo ks ↔ k ∈ fo ∨ k ∈ ks := by
  intro ks
  induction ks with
  | nil => intro fo; simp [foldInsert]
  | cons k0 t ih =>
    intro fo
    have h2 := ih (foInsert fo k0)
    rw [foldInsert] at h2 ⊢
    simp only [List.foldl_cons]
    rw [h2]
    unfold foInsert
    by_cases hk : k0 ∈ fo
    · simp [hk]
      constructor
      · intro h
        rcases h with h | h
        · exact Or.inl h
        · exact Or.inr (Or.inr h)
      · intro h
        rcases h with h | h | h
        · exact Or.inl h
        · subst h; exact Or.inl hk
        · exact Or.inr h
    · simp [hk]
      constructor
      · intro h
        rcases h with (h | h) | h
        · exact Or.inl h
        · exact Or.inr (Or.inl h)
        · exact Or.inr (Or.inr h)
      · intro h
        rcases h with h | h | h
        · exact Or.inl (Or.inl h)
        · exact Or.inl (Or.inr h)
        · exact Or.inr h

theorem nodup_foldInsert : ∀ (ks fo : List Int), fo.Nodup → (foldInsert fo ks).Nodup := by
  intro ks
  induction ks with
  | nil => intro fo h; exact h
  | cons k0 t ih =>
    intro fo h
    refine ih (foInsert fo k0) ?_
    unfold foInsert
    by_cases hk : k0 ∈ fo
    · simp [hk, h]
    · simp [hk, h, List.nodup_append]

theorem posOf_lt_length_of_mem {k : Int} : ∀ {fo : List Int}, k ∈ fo →
    posOf fo k < fo.length := by
  intro fo
  induction fo with
  | nil => intro h; cases h
  | cons x t ih =>
    intro h
    by_cases hx : x = k
    · simp [posOf, hx]
    · have hk : k ∈ t := by
        rcases List.mem_cons.mp h with h | h
        · exact absurd h.symm hx
        · exact h
      simp [posOf, hx]
      exact ih hk

theorem getD_posOf_of_mem {k : Int} : ∀ {fo : List Int}, k ∈ fo →
    fo.getD (posOf fo k) 0 = k := by
  intro fo
  induction fo with
  | nil => intro h; cases h
  | cons x t ih =>
    intro h
    by_cases hx : x = k
    · simp [posOf, hx, List.getD]
    · have hk : k ∈ t := by
        rcases List.mem_cons.mp h with h | h
        · exact absurd h.symm hx
        · exact h
      simp only [posOf, if_neg hx, List.getD_cons_succ]
      exact ih hk

theorem posOf_inj_of_mem {fo : List Int} {k1 k2 : Int} (h1 : k1 ∈ fo) (h2 : k2 ∈ fo)
    (hp : posOf fo k1 = posOf fo k2) : k1 = k2 := by
  have e1 := getD_posOf_of_mem h1
  have e2 := getD_posOf_of_mem h2
  rw [← e1, ← e2, hp]

theorem posOf_getD_of_nodup : ∀ (fo : List Int), fo.Nodup →
    ∀ o : Nat, o < fo.length → posOf fo (fo.getD o 0) = o := by
  intro fo
  induction fo with
  | nil => intro _ o h; simp at h
  | cons x t ih =>
    intro hnd o h
    cases o with
    | zero => simp [posOf, List.getD]
    | succ o =>
      have hlt : o < t.length := by
        simp only [List.length_cons] at h
        omega
      have hmem : t.getD o 0 ∈ t := by
        rw [List.getD_eq_getElem?_getD, List.getElem?_eq_getElem hlt, Option.getD_some]
        exact List.getElem_mem hlt
      have hx : x ≠ t.getD o 0 := fun he => (List.nodup_cons.mp hnd).1 (he ▸ hmem)
      rw [List.getD_cons_succ]
      simp only [posOf, if_neg hx]
      rw [ih (List.nodup_cons.mp hnd).2 o hlt]

/-- The owner positions of the upper bounds of a bound list, in order:
exactly the keys getOrAssign is called on by rangeBuildIndexes. -/
def upperKeys {α : Type} (l : List (PartitionRangeBound α)) : List Int :=
  (l.filter (fun b => !b.lower)).map (fun b => b.index)

theorem upperKeys_cons_lower {α : Type} (b : PartitionRangeBound α)
    (rest : List (PartitionRangeBound α)) (h : b.lower = true) :
    upperKeys (b :: rest) = upperKeys rest := by
  simp [upperKeys, List.filter_cons, h]

theorem upperKeys_cons_upper {α : Type} (b : PartitionRangeBound α)
    (rest : List (PartitionRangeBound α)) (h : b.lower = false) :
    upperKeys (b :: rest) = b.index :: upperKeys rest := by
  simp [upperKeys, List.filter_cons, h]

theorem rangeBuildIndexes_char {α : Type} :
    ∀ (l : List (PartitionRangeBound α)) (fo : List Int),
      rangeBuildIndexes l (stateOf fo)
        = (l.map (fun b => if b.lower then (-1 : Int) else
            ((posOf (foldInsert fo (upperKeys l)) b.index : Nat) : Int)),
           stateOf (foldInsert fo (upperKeys l))) := by
  intro l
  induction l with
  | nil => intro fo; simp [rangeBuildIndexes, foldInsert, upperKeys]
  | cons b rest ih =>
    intro fo
    cases hb : b.lower with
    | true =>
      rw [upperKeys_cons_lower b rest hb]
      have h1 : rangeBuildIndexes (b :: rest) (stateOf fo)
          = ((-1 : Int) :: (rangeBuildIndexes rest (stateOf fo)).1,
             (rangeBuildIndexes rest (stateOf fo)).2) := by
        simp [rangeBuildIndexes, hb]
      rw [h1, ih fo]
      simp [hb]
    | false =>
      rw [upperKeys_cons_upper b rest hb]
      have hfold : foldInsert fo (b.index :: upperKeys rest)
          = foldInsert (foInsert fo b.index) (upperKeys rest) := rfl
      rw [hfold]
      have hga := getOrAssign_stateOf fo b.index
      simp only [rangeBuildIndexes, hb, hga, ih (foInsert fo b.index), List.map_cons]
      have hhead : ((if b.index ∈ fo then posOf fo b.index else fo.length : Nat) : Int)
          = ((posOf (foldInsert (foInsert fo b.index) (upperKeys rest)) b.index : Nat) : Int) := by
        rw [posOf_foldInsert_of_mem (upperKeys rest) (mem_foInsert_self fo b.index)]
        by_cases hm : b.index ∈ fo
        · rw [if_pos hm, posOf_foInsert_of_mem hm b.index]
        · rw [if_neg hm]
          unfold foInsert
          rw [if_neg hm, posOf_append_of_not_mem hm [b.index]]
          simp [posOf]
      rw [hhead]
      simp

theorem listBuildIndexes_char {α : Type} :
    ∀ (l : List (PartitionListValue α)) (fo : List Int),
      listBuildIndexes l (stateOf fo)
        = (l.map (fun v => ((posOf (foldInsert fo (l.map (fun w => w.index))) v.index : Nat) : Int)),
           stateOf (foldInsert fo (l.map (fun w => w.index)))) := by
  intro l
  induction l with
  | nil => intro fo; simp [listBuildIndexes, foldInsert]
  | cons v rest ih =>
    intro fo
    have hfold : foldInsert fo ((v :: rest).map (fun w => w.index))
        = foldInsert (foInsert fo v.index) (rest.map (fun w => w.index)) := rfl
    rw [hfold]
    have hga := getOrAssign_stateOf fo v.index
    simp only [listBuildIndexes, hga, ih (foInsert fo v.index), List.map_cons]
    have hhead : ((if v.index ∈ fo then posOf fo v.index else fo.length : Nat) : Int)
        = ((posOf (foldInsert (foInsert fo v.index) (rest.map (fun w => w.index)))
            v.index : Nat) : Int) := by
      rw [posOf_foldInsert_of_mem (rest.map (fun w => w.index)) (mem_foInsert_self fo v.index)]
      by_cases hm : v.index ∈ fo
      · rw [if_pos hm, posOf_foInsert_of_mem hm v.index]
      · rw [if_neg hm]
        unfold foInsert
        rw [if_neg hm, posOf_append_of_not_mem hm [v.index]]
        simp [posOf]
    rw [hhead]

/-- The integer interval [k, k + n) as a list, in order: the canonical
ordinals expected for n partitions. -/
def intRange (k : Int) : Nat → List Int
  | 0 => []
  | n + 1 => k :: intRange (k + 1) n

theorem mem_intRange : ∀ (n : Nat) (k x : Int), x ∈ intRange k n ↔ k ≤ x ∧ x < k + n := by
  intro n
  induction n with
  | zero => intro k x; simp [intRange]
  | succ m ih =>
    intro k x
    simp only [intRange, List.mem_cons, ih (k + 1) x]
    constructor
    · intro h
      rcases h with h | h
      · subst h; omega
      · omega
    · intro h
      by_cases hx : x = k
      · exact Or.inl hx
      · right; omega

theorem nodup_intRange : ∀ (n : Nat) (k : Int), (intRange k n).Nodup := by
  intro n
  induction n with
  | zero => intro k; simp [intRange]
  | succ m ih =>
    intro k
    simp only [intRange, List.nodup_cons]
    refine ⟨?_, ih (k + 1)⟩
    rw [mem_intRange]
    omega

theorem length_intRange : ∀ (n : Nat) (k : Int), (intRange k n).length = n := by
  intro n
  induction n with
  | zero => intro k; rfl
  | succ m ih => intro k; simp [intRange, ih (k + 1)]

/-- A first-appearance list holding exactly the ordinal keys 0..n-1 (in
any order) denotes a mapping that is a bijection from partition positions
0..n-1 onto canonical ordinals 0..n-1. -/
theorem mapping_bijection_of_perm_intRange (FO : List Int) (n : Nat)
    (hperm : FO.Perm (intRange 0 n)) :
    (∀ i : Nat, i < n →
      lookupAssigned (stateOf FO).assigned ((i : Int)) = some (posOf FO ((i : Int))) ∧
      posOf FO ((i : Int)) < n) ∧
    (∀ i1 i2 : Nat, i1 < n → i2 < n →
      posOf FO ((i1 : Int)) = posOf FO ((i2 : Int)) → i1 = i2) ∧
    (∀ o : Nat, o < n → ∃ i : Nat, i < n ∧
      lookupAssigned (stateOf FO).assigned ((i : Int)) = some o ∧
      posOf FO ((i : Int)) = o) := by
  have hmem : ∀ x : Int, x ∈ FO ↔ 0 ≤ x ∧ x < (n : Int) := by
    intro x
    rw [hperm.mem_iff, mem_intRange]
    omega
  have hlen : FO.length = n := by
    rw [hperm.length_eq, length_intRange]
  have hnd : FO.Nodup := hperm.nodup_iff.mpr (nodup_intRange n 0)
  refine ⟨?_, ?_, ?_⟩
  · intro i hi
    have hm : ((i : Int)) ∈ FO := (hmem _).mpr (by omega)
    constructor
    · unfold stateOf
      rw [lookup_assignedOf FO 0 _, if_pos hm]
      simp
    · have := posOf_lt_length_of_mem hm
      omega
  · intro i1 i2 h1 h2 hp
    have hm1 : ((i1 : Int)) ∈ FO := (hmem _).mpr (by omega)
    have hm2 : ((i2 : Int)) ∈ FO := (hmem _).mpr (by omega)
    have := posOf_inj_of_mem hm1 hm2 hp
    omega
  · intro o ho
    have hk : FO.getD o 0 ∈ FO := by
      rw [List.getD_eq_getElem?_getD, List.getElem?_eq_getElem (by omega), Option.getD_some]
      exact List.getElem_mem (by omega)
    have hrange := (hmem _).mp hk
    refine ⟨(FO.getD o 0).toNat, by omega, ?_, ?_⟩
    · unfold stateOf
      have hcast : ((FO.getD o 0).toNat : Int) = FO.getD o 0 := by omega
      rw [hcast, lookup_assignedOf FO 0 _, if_pos hk]
      rw [posOf_getD_of_nodup FO hnd o (by omega)]
      simp
    · have hcast : ((FO.getD o 0).toNat : Int) = FO.getD o 0 := by omega
      rw [hcast, posOf_getD_of_nodup FO hnd o (by omega)]

theorem length_foldl_setLike (g : Nat → Nat) (w : Nat → Nat) :
    ∀ (L : List Nat) (acc : List Nat),
      (L.foldl (fun a i => a.set (g i) (w i)) acc).length = acc.length := by
  intro L
  induction L with
  | nil => intro acc; rfl
  | cons j rest ih =>
    intro acc
    simp only [List.foldl_cons, ih (acc.set (g j) (w j)), List.length_set]

theorem getD_foldl_setLike_not_mem (g : Nat → Nat) (w : Nat → Nat) :
    ∀ (L : List Nat) (acc : List Nat) (p : Nat),
      (∀ j ∈ L, g j ≠ p) →
      (L.foldl (fun a i => a.set (g i) (w i)) acc).getD p 0 = acc.getD p 0 := by
  intro L
  induction L with
  | nil => intro acc p _; rfl
  | cons j rest ih =>
    intro acc p hne
    simp only [List.foldl_cons]
    rw [ih (acc.set (g j) (w j)) p (fun x hx => hne x (List.mem_cons_of_mem j hx))]
    simp only [List.getD_eq_getElem?_getD]
    rw [List.getElem?_set_ne (hne j (List.mem_cons_self j rest))]

theorem getD_foldl_setLike_mem (g : Nat → Nat) (w : Nat → Nat) :
    ∀ (L : List Nat) (acc : List Nat),
      L.Nodup →
      (∀ j1 ∈ L, ∀ j2 ∈ L, g j1 = g j2 → j1 = j2) →
      ∀ i ∈ L, g i < acc.length →
      (L.foldl (fun a i => a.set (g i) (w i)) acc).getD (g i) 0 = w i := by
  intro L
  induction L with
  | nil => intro acc _ _ i hi; exact absurd hi (List.not_mem_nil i)
  | cons j rest ih =>
    intro acc hnd hinj i hi hlt
    simp only [List.foldl_cons]
    rcases List.mem_cons.mp hi with hij | hir
    · subst hij
      rw [getD_foldl_setLike_not_mem g w rest (acc.set (g i) (w i)) (g i) ?_]
      · simp only [List.getD_eq_getElem?_getD]
        rw [List.getElem?_set_self (by simpa using hlt)]
        simp
      · intro x hx hgx
        have hxi : x = i := hinj x (List.mem_cons_of_mem i hx) i (List.mem_cons_self i rest) hgx
        subst hxi
        exact (List.nodup_cons.mp hnd).1 hx
    · exact ih (acc.set (g j) (w j)) (List.nodup_cons.mp hnd).2
        (fun x hx y hy => hinj x (List.mem_cons_of_mem j hx) y (List.mem_cons_of_mem j hy))
        i hir (by simpa using hlt)

/-- When every position of 0..n-1 is mapped to a distinct in-range ordinal,
placeOids stores each partition identity at its ordinal's slot. -/
theorem foldl_congr_mem {β γ : Type} (f1 f2 : γ → β → γ) :
    ∀ (L : List β) (a : γ),
      (∀ x ∈ L, ∀ acc, f1 acc x = f2 acc x) → L.foldl f1 a = L.foldl f2 a := by
  intro L
  induction L with
  | nil => intro a _; rfl
  | cons x rest ih =>
    intro a h
    simp only [List.foldl_cons]
    rw [h x (List.mem_cons_self x rest) a]
    exact ih (f2 a x) (fun y hy acc => h y (List.mem_cons_of_mem x hy) acc)

theorem placeOids_getD (oids : List Nat) (st : MapState) (g : Nat → Nat)
    (hg : ∀ i, i < oids.length → lookupAssigned st.assigned (Int.ofNat i) = some (g i))
    (hinj : ∀ i1, i1 < oids.length → ∀ i2, i2 < oids.length → g i1 = g i2 → i1 = i2)
    (hlt : ∀ i, i < oids.length → g i < oids.length) :
    ∀ i, i < oids.length → (placeOids oids st).getD (g i) 0 = oids.getD i 0 := by
  intro i hi
  have hbody : ∀ (acc : List Nat) (j : Nat), j ∈ List.range oids.length →
      (match lookupAssigned st.assigned (Int.ofNat j) with
        | some o => acc.set o (oids.getD j 0)
        | none => acc) = acc.set (g j) (oids.getD j 0) := by
    intro acc j hj
    rw [hg j (List.mem_range.mp hj)]
  have heq : placeOids oids st
      = (List.range oids.length).foldl
          (fun a j => a.set (g j) (oids.getD j 0)) (List.replicate oids.length 0) := by
    unfold placeOids
    exact foldl_congr_mem _ _ (List.range oids.length) (List.replicate oids.length 0)
      (fun j hj acc => hbody acc j hj)
  rw [heq]
  exact getD_foldl_setLike_mem g (fun j => oids.getD j 0) (List.range oids.length)
    (List.replicate oids.length 0) (List.nodup_range _)
    (fun x hx y hy => hinj x (List.mem_range.mp hx) y (List.mem_range.mp hy))
    i (List.mem_range.mpr hi) (by simpa using hlt i hi)

theorem listGatherVals_owner {α : Type} :
    ∀ (specs : List (List (Option α))) (k : Int),
      ∀ v ∈ listGatherVals specs k, k ≤ v.index ∧ v.index < k + specs.length := by
  intro specs
  induction specs with
  | nil => intro k v hv; exact absurd hv (List.not_mem_nil v)
  | cons s rest ih =>
    intro k v hv
    simp only [listGatherVals, List.mem_append] at hv
    rcases hv with hv | hv
    · rcases List.mem_filterMap.mp hv with ⟨d, _, hd⟩
      cases d with
      | none => simp at hd
      | some x =>
        have hv2 : (⟨k, x⟩ : PartitionListValue α) = v := by simpa using hd
        have : v.index = k := by rw [hv2.symm]
        simp only [this, List.length_cons]
        omega
    · have := ih (k + 1) v hv
      simp only [List.length_cons]
      omega

theorem listGatherNulls_owner {α : Type} :
    ∀ (specs : List (List (Option α))) (k : Int),
      ∀ p ∈ listGatherNulls specs k, k ≤ p ∧ p < k + specs.length := by
  intro specs
  induction specs with
  | nil => intro k p hp; exact absurd hp (List.not_mem_nil p)
  | cons s rest ih =>
    intro k p hp
    simp only [listGatherNulls, List.mem_append] at hp
    rcases hp with hp | hp
    · rcases List.mem_filterMap.mp hp with ⟨d, _, hd⟩
      cases d with
      | none =>
        have : p = k := by simpa using hd.symm
        simp only [this, List.length_cons]
        omega
      | some x => simp at hd
    · have := ih (k + 1) p hp
      simp only [List.length_cons]
      omega

theorem listGather_covers {α : Type} :
    ∀ (specs : List (List (Option α))) (k : Int) (j : Nat),
      j < specs.length → specs.getD j [] ≠ [] →
      (∃ v ∈ listGatherVals specs k, v.index = k + j) ∨ (k + (j : Int)) ∈ listGatherNulls specs k := by
  intro specs
  induction specs with
  | nil => intro k j hj _; simp at hj
  | cons s rest ih =>
    intro k j hj hne
    cases j with
    | zero =>
      simp only [List.getD_cons_zero] at hne
      cases s with
      | nil => exact absurd rfl hne
      | cons d t =>
        cases d with
        | some x =>
          left
          refine ⟨⟨k, x⟩, ?_, by simp⟩
          simp only [listGatherVals, List.mem_append]
          left
          exact List.mem_filterMap.mpr ⟨some x, List.mem_cons_self _ _, rfl⟩
        | none =>
          right
          simp only [listGatherNulls, List.mem_append]
          left
          refine List.mem_filterMap.mpr ⟨none, List.mem_cons_self _ _, by simp⟩
    | succ m =>
      simp only [List.getD_cons_succ] at hne
      have hm : m < rest.length := by simp only [List.length_cons] at hj; omega
      rcases ih (k + 1) m hm hne with ⟨v, hv, hvi⟩ | hp
      · left
        refine ⟨v, ?_, by push_cast; omega⟩
        simp only [listGatherVals, List.mem_append]
        exact Or.inr hv
      · right
        simp only [listGatherNulls, List.mem_append]
        right
        have : k + ((m : Nat) + 1 : Nat) = (k + 1) + (m : Int) := by push_cast; omega
        rw [this]
        exact hp

/-- The ordinal mapping held by a MapState is a bijection from input
positions [0, n) onto canonical ordinals [0, n). -/
def MappingBijective (st : MapState) (n : Nat) : Prop :=
  (∀ i : Nat, i < n → ∃ o : Nat,
      lookupAssigned st.assigned (Int.ofNat i) = some o ∧ o < n) ∧
  (∀ i1 i2 : Nat, i1 < n → i2 < n → ∀ o : Nat,
      lookupAssigned st.assigned (Int.ofNat i1) = some o →
      lookupAssigned st.assigned (Int.ofNat i2) = some o → i1 = i2) ∧
  (∀ o : Nat, o < n → ∃ i : Nat, i < n ∧
      lookupAssigned st.assigned (Int.ofNat i) = some o)

/-- Every input partition identity lands at its canonical ordinal's slot
in the output identity array. -/
def OidsPlaced (st : MapState) (n : Nat) : Prop :=
  ∀ oids : List Nat, oids.length = n →
    ∀ i : Nat, i < n → ∀ o : Nat,
      lookupAssigned st.assigned (Int.ofNat i) = some o →
      (placeOids oids st).getD o 0 = oids.getD i 0

theorem bijective_placed_of_perm_intRange (FO : List Int) (n : Nat)
    (hperm : FO.Perm (intRange 0 n)) :
    MappingBijective (stateOf FO) n ∧ OidsPlaced (stateOf FO) n := by
  obtain ⟨h1, h2, h3⟩ := mapping_bijection_of_perm_intRange FO n hperm
  have hofNat : ∀ i : Nat, Int.ofNat i = (i : Int) := fun i => rfl
  constructor
  · refine ⟨?_, ?_, ?_⟩
    · intro i hi
      exact ⟨posOf FO (i : Int), by rw [hofNat]; exact ((h1 i hi).1), (h1 i hi).2⟩
    · intro i1 i2 hi1 hi2 o ho1 ho2
      rw [hofNat, (h1 i1 hi1).1] at ho1
      rw [hofNat, (h1 i2 hi2).1] at ho2
      have : posOf FO (i1 : Int) = posOf FO (i2 : Int) := by
        rw [Option.some_inj] at ho1 ho2; omega
      exact h2 i1 i2 hi1 hi2 this
    · intro o ho
      obtain ⟨i, hi, hl, _⟩ := h3 o ho
      exact ⟨i, hi, by rw [hofNat]; exact hl⟩
  · intro oids hlen i hi o ho
    have hg : ∀ j, j < oids.length →
        lookupAssigned (stateOf FO).assigned (Int.ofNat j) = some (posOf FO (j : Int)) := by
      intro j hj
      rw [hofNat]; exact (h1 j (by omega)).1
    have ho2 : o = posOf FO (i : Int) := by
      rw [hg i (by omega)] at ho
      rw [Option.some_inj] at ho
      omega
    rw [ho2]
    exact placeOids_getD oids (stateOf FO) (fun j => posOf FO (j : Int)) hg
      (fun j1 hj1 j2 hj2 hp => h2 j1 j2 (by omega) (by omega) hp)
      (fun j hj => by simpa [hlen] using (h1 j (by omega)).2) i (by omega)

theorem build_list_state_nil {α : Type} [LinearOrder α] (specs : List (List (Option α)))
    (hcase : listGatherNulls specs 0 = []) :
    ∃ bi, build_list_boundinfo specs
      = .ok (bi, (listBuildIndexes (List.insertionSort plvLE (listGatherVals specs 0))
          emptyMapState).2) :=
  ⟨_, by simp [build_list_boundinfo, hcase]; rfl⟩

theorem build_list_state_one {α : Type} [LinearOrder α] (specs : List (List (Option α)))
    (p : Int) (hcase : listGatherNulls specs 0 = [p]) :
    ∃ bi, build_list_boundinfo specs
      = .ok (bi, (getOrAssign (listBuildIndexes (List.insertionSort plvLE
          (listGatherVals specs 0)) emptyMapState).2 p).2) :=
  ⟨_, by simp [build_list_boundinfo, hcase]; rfl⟩

theorem foldInsert_append : ∀ (ks1 : List Int) (fo ks2 : List Int),
    foldInsert fo (ks1 ++ ks2) = foldInsert (foldInsert fo ks1) ks2 := by
  intro ks1 fo ks2
  simp [foldInsert, List.foldl_append]

theorem build_list_state_perm {α : Type} [LinearOrder α]
    (specs : List (List (Option α)))
    (hne : ∀ s ∈ specs, s ≠ [])
    (hnull : (listGatherNulls specs 0).length ≤ 1) :
    ∃ bi st, build_list_boundinfo specs = .ok (bi, st) ∧
      MappingBijective st specs.length ∧ OidsPlaced st specs.length := by
  have hempty : emptyMapState = stateOf ([] : List Int) := rfl
  have hchar := listBuildIndexes_char (List.insertionSort plvLE (listGatherVals specs 0)) []
  have hsortperm := List.perm_insertionSort plvLE (listGatherVals specs 0)
  have hvalmem : ∀ k : Int,
      k ∈ (List.insertionSort plvLE (listGatherVals specs 0)).map (fun w => w.index)
        ↔ ∃ v ∈ listGatherVals specs 0, v.index = k := by
    intro k
    rw [List.mem_map]
    constructor
    · rintro ⟨v, hv, hvk⟩
      exact ⟨v, hsortperm.mem_iff.mp hv, hvk⟩
    · rintro ⟨v, hv, hvk⟩
      exact ⟨v, hsortperm.mem_iff.mpr hv, hvk⟩
  have hcover : ∀ i : Int, 0 ≤ i → i < (specs.length : Int) →
      (∃ v ∈ listGatherVals specs 0, v.index = i) ∨ i ∈ listGatherNulls specs 0 := by
    intro i h0 hn
    have hj : i.toNat < specs.length := by omega
    have hmemspec : specs.getD i.toNat [] ∈ specs := by
      rw [List.getD_eq_getElem?_getD, List.getElem?_eq_getElem hj, Option.getD_some]
      exact List.getElem_mem hj
    have hcast : (0 : Int) + (i.toNat : Int) = i := by omega
    rcases listGather_covers specs 0 i.toNat hj (hne _ hmemspec) with ⟨v, hv, hvi⟩ | hp
    · exact Or.inl ⟨v, hv, by rw [hvi, hcast]⟩
    · rw [hcast] at hp
      exact Or.inr hp
  rcases hns : listGatherNulls specs 0 with _ | ⟨p, rest⟩
  · obtain ⟨bi, hbi⟩ := build_list_state_nil specs hns
    refine ⟨bi, _, hbi, ?_⟩
    rw [hempty, hchar]
    apply bijective_placed_of_perm_intRange
    apply List.Subperm.antisymm
    · apply List.Nodup.subperm (nodup_foldInsert _ [] List.nodup_nil)
      intro k hk
      rw [mem_foldInsert_iff] at hk
      rcases hk with hk | hk
      · exact absurd hk (List.not_mem_nil k)
      · obtain ⟨v, hv, hvk⟩ := (hvalmem k).mp hk
        have := listGatherVals_owner specs 0 v hv
        rw [mem_intRange]
        omega
    · apply List.Nodup.subperm (nodup_intRange _ 0)
      intro k hk
      rw [mem_intRange] at hk
      rw [mem_foldInsert_iff]
      rcases hcover k (by omega) (by omega) with hv | hp
      · exact Or.inr ((hvalmem k).mpr hv)
      · rw [hns] at hp
        exact absurd hp (List.not_mem_nil k)
  · have hrest : rest = [] := by
      rw [hns] at hnull
      simp only [List.length_cons] at hnull
      exact List.length_eq_zero.mp (by omega)
    subst hrest
    obtain ⟨bi, hbi⟩ := build_list_state_one specs p hns
    refine ⟨bi, _, hbi, ?_⟩
    rw [hempty, hchar]
    have hga := getOrAssign_stateOf
      (foldInsert [] ((List.insertionSort plvLE (listGatherVals specs 0)).map
        (fun w => w.index))) p
    rw [hga]
    apply bijective_placed_of_perm_intRange
    have hfi : foInsert (foldInsert [] ((List.insertionSort plvLE (listGatherVals specs 0)).map
        (fun w => w.index))) p
        = foldInsert [] (((List.insertionSort plvLE (listGatherVals specs 0)).map
          (fun w => w.index)) ++ [p]) := by
      rw [foldInsert_append]
      rfl
    rw [hfi]
    apply List.Subperm.antisymm
    · apply List.Nodup.subperm (nodup_foldInsert _ [] List.nodup_nil)
      intro k hk
      rw [mem_foldInsert_iff] at hk
      rcases hk with hk | hk
      · exact absurd hk (List.not_mem_nil k)
      · rw [List.mem_append] at hk
        rw [mem_intRange]
        rcases hk with hk | hk
        · obtain ⟨v, hv, hvk⟩ := (hvalmem k).mp hk
          have := listGatherVals_owner specs 0 v hv
          omega
        · have hkp : k = p := by simpa using hk
          subst hkp
          have hpnull : k ∈ listGatherNulls specs 0 := by
            rw [hns]; exact List.mem_singleton.mpr rfl
          have := listGatherNulls_owner specs 0 k hpnull
          omega
    · apply List.Nodup.subperm (nodup_intRange _ 0)
      intro k hk
      rw [mem_intRange] at hk
      rw [mem_foldInsert_iff, List.mem_append]
      rcases hcover k (by omega) (by omega) with hv | hp
      · exact Or.inr (Or.inl ((hvalmem k).mpr hv))
      · rw [hns] at hp
        have hkp : k = p := by simpa using hp
        exact Or.inr (Or.inr (by simp [hkp]))

/-- The lower bound built for the partition at input position j. -/
def rmkLower {α : Type} (specs : List (PartitionRangeSpec α)) (k : Int) (j : Nat) :
    PartitionRangeBound α :=
  make_one_range_bound (k + j) (specs.getD j ⟨[], []⟩).lowerdatums true

/-- The upper bound built for the partition at input position j. -/
def rmkUpper {α : Type} (specs : List (PartitionRangeSpec α)) (k : Int) (j : Nat) :
    PartitionRangeBound α :=
  make_one_range_bound (k + j) (specs.getD j ⟨[], []⟩).upperdatums false

theorem rangeAllBounds_mem {α : Type} :
    ∀ (specs : List (PartitionRangeSpec α)) (k : Int) (b : PartitionRangeBound α),
      b ∈ rangeAllBounds specs k
        ↔ ∃ j : Nat, j < specs.length ∧ (b = rmkLower specs k j ∨ b = rmkUpper specs k j) := by
  intro specs
  induction specs with
  | nil => intro k b; simp [rangeAllBounds]
  | cons sp rest ih =>
    intro k b
    simp only [rangeAllBounds, List.mem_cons, ih (k + 1) b]
    constructor
    · intro h
      rcases h with h | h | ⟨j, hj, h⟩
      · exact ⟨0, by simp, Or.inl (by simp [rmkLower, h])⟩
      · exact ⟨0, by simp, Or.inr (by simp [rmkUpper, h])⟩
      · refine ⟨j + 1, by simp only [List.length_cons]; omega, ?_⟩
        have hl : rmkLower rest (k + 1) j = rmkLower (sp :: rest) k (j + 1) := by
          simp only [rmkLower, List.getD_cons_succ]
          have : k + 1 + (j : Int) = k + ((j : Nat) + 1 : Nat) := by push_cast; omega
          rw [this]
        have hu : rmkUpper rest (k + 1) j = rmkUpper (sp :: rest) k (j + 1) := by
          simp only [rmkUpper, List.getD_cons_succ]
          have : k + 1 + (j : Int) = k + ((j : Nat) + 1 : Nat) := by push_cast; omega
          rw [this]
        rcases h with h | h
        · exact Or.inl (by rw [h, hl])
        · exact Or.inr (by rw [h, hu])
    · rintro ⟨j, hj, h⟩
      cases j with
      | zero =>
        rcases h with h | h
        · exact Or.inl (by simp [rmkLower] at h; simpa using h)
        · exact Or.inr (Or.inl (by simp [rmkUpper] at h; simpa using h))
      | succ m =>
        right; right
        refine ⟨m, by simp only [List.length_cons] at hj; omega, ?_⟩
        have hl : rmkLower rest (k + 1) m = rmkLower (sp :: rest) k (m + 1) := by
          simp only [rmkLower, List.getD_cons_succ]
          have : k + 1 + (m : Int) = k + ((m : Nat) + 1 : Nat) := by push_cast; omega
          rw [this]
        have hu : rmkUpper rest (k + 1) m = rmkUpper (sp :: rest) k (m + 1) := by
          simp only [rmkUpper, List.getD_cons_succ]
          have : k + 1 + (m : Int) = k + ((m : Nat) + 1 : Nat) := by push_cast; omega
          rw [this]
        rcases h with h | h
        · exact Or.inl (by rw [h, hl.symm])
        · exact Or.inr (by rw [h, hu.symm])

theorem rangeAllBounds_index_bounds {α : Type} :
    ∀ (specs : List (PartitionRangeSpec α)) (k : Int),
      ∀ b ∈ rangeAllBounds specs k, k ≤ b.index ∧ b.index < k + specs.length := by
  intro specs k b hb
  obtain ⟨j, hj, h⟩ := (rangeAllBounds_mem specs k b).mp hb
  rcases h with h | h <;> subst h <;>
    simp only [rmkLower, rmkUpper, make_one_range_bound] <;> constructor <;> omega

theorem rangeAllBounds_nodup {α : Type} :
    ∀ (specs : List (PartitionRangeSpec α)) (k : Int), (rangeAllBounds specs k).Nodup := by
  intro specs
  induction specs with
  | nil => intro k; simp [rangeAllBounds]
  | cons sp rest ih =>
    intro k
    simp only [rangeAllBounds, List.nodup_cons]
    refine ⟨?_, ?_, ih (k + 1)⟩
    · intro h
      rcases List.mem_cons.mp h with h | h
      · have : (true : Bool) = false := congrArg PartitionRangeBound.lower h
        simp at this
      · have := (rangeAllBounds_index_bounds rest (k + 1) _ h).1
        simp only [make_one_range_bound] at this
        omega
    · intro h
      have := (rangeAllBounds_index_bounds rest (k + 1) _ h).1
      simp only [make_one_range_bound] at this
      omega

theorem make_one_range_bound_length {α : Type} (i : Int) (d : List (Option α)) (l : Bool) :
    (make_one_range_bound i d l).datums.length = d.length := by
  simp [make_one_range_bound]

theorem make_lower_no_posInf {α : Type} (i : Int) (d : List (Option α)) :
    RangeDatum.posInf ∉ (make_one_range_bound i d true).datums := by
  simp only [make_one_range_bound, List.mem_map]
  rintro ⟨x, _, hx⟩
  cases x <;> simp at hx

theorem make_upper_no_negInf {α : Type} (i : Int) (d : List (Option α)) :
    RangeDatum.negInf ∉ (make_one_range_bound i d false).datums := by
  simp only [make_one_range_bound, List.mem_map]
  rintro ⟨x, _, hx⟩
  cases x <;> simp at hx

theorem rbcGo_ne_inl_zero {α : Type} [LinearOrder α] :
    ∀ (d1 d2 : List (RangeDatum α)),
      RangeDatum.posInf ∉ d1 → RangeDatum.negInf ∉ d2 → rbcGo d1 d2 ≠ Sum.inl 0
  | [], _, _, _ => by simp [rbcGo]
  | _ :: _, [], _, _ => by simp [rbcGo]
  | x :: t1, y :: t2, h1, h2 => by
    have hx : x ≠ RangeDatum.posInf := fun h => h1 (h ▸ List.mem_cons_self x t1)
    have hy : y ≠ RangeDatum.negInf := fun h => h2 (h ▸ List.mem_cons_self y t2)
    have ht1 : RangeDatum.posInf ∉ t1 := fun h => h1 (List.mem_cons_of_mem x h)
    have ht2 : RangeDatum.negInf ∉ t2 := fun h => h2 (List.mem_cons_of_mem y h)
    cases x with
    | posInf => exact absurd rfl hx
    | negInf =>
      cases y with
      | negInf => exact absurd rfl hy
      | posInf => simp [rbcGo]
      | finite b => simp [rbcGo]
    | finite a =>
      cases y with
      | negInf => exact absurd rfl hy
      | posInf => simp [rbcGo]
      | finite b =>
        simp only [rbcGo]
        by_cases hc : colCmp a b = 0
        · simpa [hc] using rbcGo_ne_inl_zero t1 t2 ht1 ht2
        · simp [hc]

theorem rbound_cmp_lower_upper_ne_zero {α : Type} [LinearOrder α]
    (d1 d2 : List (RangeDatum α))
    (h1 : RangeDatum.posInf ∉ d1) (h2 : RangeDatum.negInf ∉ d2) :
    partition_rbound_cmp d1 true d2 false ≠ 0 := by
  unfold partition_rbound_cmp
  cases hg : rbcGo d1 d2 with
  | inl c =>
    have hc0 := rbcGo_ne_inl_zero d1 d2 h1 h2
    rw [hg] at hc0
    intro hc
    apply hc0
    have hc1 : c = 0 := by simpa using hc
    rw [hc1]
  | inr c =>
    by_cases hc : c = 0
    · simp [hc]
    · simp [hc]

theorem qsort_rbound_antisym {α : Type} [LinearOrder α] (b1 b2 : PartitionRangeBound α) :
    qsort_partition_rbound_cmp b1 b2 = -(qsort_partition_rbound_cmp b2 b1) :=
  rbound_cmp_neg_antisym b1.datums b1.lower b2.datums b2.lower

theorem qsort_rbound_trans_le {α : Type} [LinearOrder α] (b1 b2 b3 : PartitionRangeBound α)
    (h12 : b1.datums.length = b2.datums.length) (h23 : b2.datums.length = b3.datums.length)
    (hle1 : qsort_partition_rbound_cmp b1 b2 ≤ 0)
    (hle2 : qsort_partition_rbound_cmp b2 b3 ≤ 0) :
    qsort_partition_rbound_cmp b1 b3 ≤ 0 :=
  rbound_cmp_trans_le b1.datums b2.datums b3.datums b1.lower b2.lower b3.lower h12 h23 hle1 hle2

theorem q_lower_upper_ne_zero {α : Type} [LinearOrder α]
    (specs : List (PartitionRangeSpec α)) (k k' : Int) (i j : Nat) :
    qsort_partition_rbound_cmp (rmkLower specs k i) (rmkUpper specs k' j) ≠ 0 := by
  unfold qsort_partition_rbound_cmp rmkLower rmkUpper
  exact rbound_cmp_lower_upper_ne_zero _ _ (make_lower_no_posInf _ _) (make_upper_no_negInf _ _)

theorem rmkLower_len {α : Type} [LinearOrder α] {specs : List (PartitionRangeSpec α)}
    {ncols : Nat} (k : Int) {j : Nat}
    (h : (specs.getD j ⟨[], []⟩).lowerdatums.length = ncols) :
    (rmkLower specs k j).datums.length = ncols := by
  simp only [rmkLower, make_one_range_bound_length]
  exact h

theorem rmkUpper_len {α : Type} [LinearOrder α] {specs : List (PartitionRangeSpec α)}
    {ncols : Nat} (k : Int) {j : Nat}
    (h : (specs.getD j ⟨[], []⟩).upperdatums.length = ncols) :
    (rmkUpper specs k j).datums.length = ncols := by
  simp only [rmkUpper, make_one_range_bound_length]
  exact h

theorem rangeAllBounds_noties {α : Type} [LinearOrder α]
    (specs : List (PartitionRangeSpec α)) (ncols : Nat)
    (hcols : ∀ j, j < specs.length →
      (specs.getD j ⟨[], []⟩).lowerdatums.length = ncols ∧
      (specs.getD j ⟨[], []⟩).upperdatums.length = ncols)
    (hnn : ∀ j, j < specs.length →
      qsort_partition_rbound_cmp (rmkLower specs 0 j) (rmkUpper specs 0 j) < 0)
    (hdisj : ∀ j1 j2, j1 < specs.length → j2 < specs.length → j1 ≠ j2 →
      qsort_partition_rbound_cmp (rmkUpper specs 0 j1) (rmkLower specs 0 j2) ≤ 0 ∨
      qsort_partition_rbound_cmp (rmkUpper specs 0 j2) (rmkLower specs 0 j1) ≤ 0) :
    ∀ b1 ∈ rangeAllBounds specs 0, ∀ b2 ∈ rangeAllBounds specs 0,
      qsort_partition_rbound_cmp b1 b2 = 0 → b1 = b2 := by
  intro b1 hb1 b2 hb2 heq
  obtain ⟨i, hi, hc1⟩ := (rangeAllBounds_mem specs 0 b1).mp hb1
  obtain ⟨j, hj, hc2⟩ := (rangeAllBounds_mem specs 0 b2).mp hb2
  have hLi := rmkLower_len 0 (hcols i hi).1
  have hUi := rmkUpper_len 0 (hcols i hi).2
  have hLj := rmkLower_len 0 (hcols j hj).1
  have hUj := rmkUpper_len 0 (hcols j hj).2
  rcases hc1 with hc1 | hc1 <;> rcases hc2 with hc2 | hc2 <;> subst hc1 <;> subst hc2
  · by_cases hij : i = j
    · rw [hij]
    · exfalso
      have hsymm : qsort_partition_rbound_cmp (rmkLower specs 0 j) (rmkLower specs 0 i) = 0 := by
        have := qsort_rbound_antisym (rmkLower specs 0 i) (rmkLower specs 0 j)
        omega
      rcases hdisj i j hi hj hij with hd | hd
      · have hchain := qsort_rbound_trans_le (rmkUpper specs 0 i) (rmkLower specs 0 j)
          (rmkLower specs 0 i) (by omega) (by omega) hd (by omega)
        have hpos := hnn i hi
        have := qsort_rbound_antisym (rmkLower specs 0 i) (rmkUpper specs 0 i)
        omega
      · have hchain := qsort_rbound_trans_le (rmkUpper specs 0 j) (rmkLower specs 0 i)
          (rmkLower specs 0 j) (by omega) (by omega) hd (by omega)
        have hpos := hnn j hj
        have := qsort_rbound_antisym (rmkLower specs 0 j) (rmkUpper specs 0 j)
        omega
  · exact absurd heq (q_lower_upper_ne_zero specs 0 0 i j)
  · exfalso
    have hsymm : qsort_partition_rbound_cmp (rmkLower specs 0 j) (rmkUpper specs 0 i) = 0 := by
      have := qsort_rbound_antisym (rmkUpper specs 0 i) (rmkLower specs 0 j)
      omega
    exact absurd hsymm (q_lower_upper_ne_zero specs 0 0 j i)
  · by_cases hij : i = j
    · rw [hij]
    · exfalso
      have hsymm : qsort_partition_rbound_cmp (rmkUpper specs 0 j) (rmkUpper specs 0 i) = 0 := by
        have := qsort_rbound_antisym (rmkUpper specs 0 i) (rmkUpper specs 0 j)
        omega
      rcases hdisj i j hi hj hij with hd | hd
      · have hchain := qsort_rbound_trans_le (rmkUpper specs 0 j) (rmkUpper specs 0 i)
          (rmkLower specs 0 j) (by omega) (by omega) (by omega) hd
        have hpos := hnn j hj
        have := qsort_rbound_antisym (rmkLower specs 0 j) (rmkUpper specs 0 j)
        omega
      · have hchain := qsort_rbound_trans_le (rmkUpper specs 0 i) (rmkUpper specs 0 j)
          (rmkLower specs 0 i) (by omega) (by omega) (by omega) hd
        have hpos := hnn i hi
        have := qsort_rbound_antisym (rmkLower specs 0 i) (rmkUpper specs 0 i)
        omega

theorem dedupGo_sublist {α : Type} [LinearOrder α] :
    ∀ (l : List (PartitionRangeBound α)) (prev : PartitionRangeBound α),
      (dedupGo prev l).Sublist l := by
  intro l
  induction l with
  | nil => intro prev; exact List.Sublist.refl []
  | cons c rest ih =>
    intro prev
    simp only [dedupGo]
    by_cases hbd : boundsNotDistinct c.datums prev.datums
    · rw [if_pos hbd]
      exact (ih c).cons c
    · rw [if_neg hbd]
      exact (ih c).cons₂ c

theorem dedupBounds_sublist {α : Type} [LinearOrder α] :
    ∀ (l : List (PartitionRangeBound α)), (dedupBounds l).Sublist l := by
  intro l
  cases l with
  | nil => exact List.Sublist.refl []
  | cons b rest => exact (dedupGo_sublist rest b).cons₂ b

theorem dedupGo_keeps_upper {α : Type} [LinearOrder α] :
    ∀ (rest : List (PartitionRangeBound α)) (prev : PartitionRangeBound α),
      (prev :: rest).Pairwise rbLE → (prev :: rest).Nodup →
      (∀ x ∈ prev :: rest, ∀ y ∈ prev :: rest, qsort_partition_rbound_cmp x y = 0 → x = y) →
      ∀ u ∈ rest, u.lower = false → u ∈ dedupGo prev rest := by
  intro rest
  induction rest with
  | nil => intro prev _ _ _ u hu _; cases hu
  | cons c rest' ih =>
    intro prev hpw hnd hnt u hu hul
    simp only [dedupGo]
    have hpw' : (c :: rest').Pairwise rbLE := hpw.of_cons
    have hnd' : (c :: rest').Nodup := (List.nodup_cons.mp hnd).2
    have hnt' : ∀ x ∈ c :: rest', ∀ y ∈ c :: rest',
        qsort_partition_rbound_cmp x y = 0 → x = y :=
      fun x hx y hy => hnt x (List.mem_cons_of_mem _ hx) y (List.mem_cons_of_mem _ hy)
    rcases List.mem_cons.mp hu with hu | hu
    · subst hu
      by_cases hbd : boundsNotDistinct u.datums prev.datums
      · exfalso
        have hfe := (boundsNotDistinct_iff_finEqCols _ _).mp hbd
        have hg : rbcGo u.datums prev.datums = Sum.inr 0 := rbcGo_of_finEqCols hfe
        cases hpl : prev.lower
        · have hcp : qsort_partition_rbound_cmp u prev = 0 := by
            unfold qsort_partition_rbound_cmp partition_rbound_cmp
            rw [hg]
            simp [hul, hpl]
          have heq := hnt u (List.mem_cons_of_mem _ (List.mem_cons_self u rest'))
            prev (List.mem_cons_self prev _) hcp
          exact (List.nodup_cons.mp hnd).1 (by rw [← heq]; exact List.mem_cons_self u rest')
        · have hcp : qsort_partition_rbound_cmp u prev = -1 := by
            unfold qsort_partition_rbound_cmp partition_rbound_cmp
            rw [hg]
            simp [hul, hpl]
          have hle : rbLE prev u :=
            (List.pairwise_cons.mp hpw).1 u (List.mem_cons_self u rest')
          have ha := qsort_rbound_antisym prev u
          unfold rbLE at hle
          omega
      · rw [if_neg hbd]
        exact List.mem_cons_self u _
    · have hrec : u ∈ dedupGo c rest' := ih c hpw' hnd' hnt' u hu hul
      by_cases hbd : boundsNotDistinct c.datums prev.datums
      · rw [if_pos hbd]
        exact hrec
      · rw [if_neg hbd]
        exact List.mem_cons_of_mem c hrec

theorem dedup_filter_upper_eq {α : Type} [LinearOrder α]
    (S : List (PartitionRangeBound α))
    (hpw : S.Pairwise rbLE) (hnd : S.Nodup)
    (hnt : ∀ x ∈ S, ∀ y ∈ S, qsort_partition_rbound_cmp x y = 0 → x = y) :
    (dedupBounds S).filter (fun b => !b.lower) = S.filter (fun b => !b.lower) := by
  cases S with
  | nil => rfl
  | cons b rest =>
    have hsub : (dedupBounds (b :: rest)).Sublist (b :: rest) := dedupBounds_sublist _
    have hfsub := hsub.filter (fun b => !b.lower)
    have hsupset : ∀ x ∈ (b :: rest).filter (fun b => !b.lower),
        x ∈ (dedupBounds (b :: rest)).filter (fun b => !b.lower) := by
      intro x hx
      rw [List.mem_filter] at hx ⊢
      refine ⟨?_, hx.2⟩
      rcases List.mem_cons.mp hx.1 with h | h
      · subst h
        exact List.mem_cons_self x _
      · have hx2 : x.lower = false := by simpa using hx.2
        exact List.mem_cons_of_mem b (dedupGo_keeps_upper rest b hpw hnd hnt x h hx2)
    have hndf : ((b :: rest).filter (fun b => !b.lower)).Nodup := hnd.filter _
    have hsp := List.Nodup.subperm hndf hsupset
    have hlen1 := hfsub.length_le
    have hlen2 := hsp.length_le
    exact hfsub.eq_of_length (by omega)

theorem rangeAllBounds_upperKeys {α : Type} :
    ∀ (specs : List (PartitionRangeSpec α)) (k : Int),
      upperKeys (rangeAllBounds specs k) = intRange k specs.length := by
  intro specs
  induction specs with
  | nil => intro k; rfl
  | cons sp rest ih =>
    intro k
    simp only [rangeAllBounds, List.length_cons, intRange]
    rw [upperKeys_cons_lower _ _ rfl, upperKeys_cons_upper _ _ rfl, ih (k + 1)]
    rfl

theorem foldInsert_of_fresh : ∀ (ks fo : List Int), ks.Nodup → (∀ k ∈ ks, k ∉ fo) →
    foldInsert fo ks = fo ++ ks := by
  intro ks
  induction ks with
  | nil => intro fo _ _; simp [foldInsert]
  | cons k t ih =>
    intro fo hnd hfresh
    have hstep : foldInsert fo (k :: t) = foldInsert (foInsert fo k) t := rfl
    rw [hstep]
    have hkfo : k ∉ fo := hfresh k (List.mem_cons_self k t)
    have hfi : foInsert fo k = fo ++ [k] := by
      unfold foInsert
      rw [if_neg hkfo]
    rw [hfi, ih (fo ++ [k]) (List.nodup_cons.mp hnd).2 ?_]
    · simp
    · intro x hx
      rw [List.mem_append]
      rintro (h | h)
      · exact hfresh x (List.mem_cons_of_mem k hx) h
      · have hxk : x = k := by simpa using h
        exact (List.nodup_cons.mp hnd).1 (hxk ▸ hx)

theorem rbLE_total {α : Type} [LinearOrder α] (x y : PartitionRangeBound α) :
    rbLE x y ∨ rbLE y x := by
  unfold rbLE
  have := qsort_rbound_antisym x y
  omega

theorem rangeAllBounds_datums_length {α : Type} [LinearOrder α]
    (specs : List (PartitionRangeSpec α)) (ncols : Nat)
    (hcols : ∀ j, j < specs.length →
      (specs.getD j ⟨[], []⟩).lowerdatums.length = ncols ∧
      (specs.getD j ⟨[], []⟩).upperdatums.length = ncols) :
    ∀ b ∈ rangeAllBounds specs 0, b.datums.length = ncols := by
  intro b hb
  obtain ⟨j, hj, h⟩ := (rangeAllBounds_mem specs 0 b).mp hb
  rcases h with h | h <;> subst h
  · exact rmkLower_len 0 (hcols j hj).1
  · exact rmkUpper_len 0 (hcols j hj).2

theorem build_range_state_perm {α : Type} [LinearOrder α]
    (specs : List (PartitionRangeSpec α)) (ncols : Nat)
    (hcols : ∀ j, j < specs.length →
      (specs.getD j ⟨[], []⟩).lowerdatums.length = ncols ∧
      (specs.getD j ⟨[], []⟩).upperdatums.length = ncols)
    (hnn : ∀ j, j < specs.length →
      qsort_partition_rbound_cmp (rmkLower specs 0 j) (rmkUpper specs 0 j) < 0)
    (hdisj : ∀ j1 j2, j1 < specs.length → j2 < specs.length → j1 ≠ j2 →
      qsort_partition_rbound_cmp (rmkUpper specs 0 j1) (rmkLower specs 0 j2) ≤ 0 ∨
      qsort_partition_rbound_cmp (rmkUpper specs 0 j2) (rmkLower specs 0 j1) ≤ 0) :
    MappingBijective (build_range_boundinfo specs).2 specs.length ∧
      OidsPlaced (build_range_boundinfo specs).2 specs.length := by
  have hlens := rangeAllBounds_datums_length specs ncols hcols
  have hstperm := List.perm_insertionSort rbLE (rangeAllBounds specs 0)
  have hpwS : (List.insertionSort rbLE (rangeAllBounds specs 0)).Pairwise rbLE := by
    apply pairwise_insertionSort_of rbLE rbLE_total
    intro x hx y hy z hz hxy hyz
    unfold rbLE at hxy hyz ⊢
    exact qsort_rbound_trans_le x y z
      (by rw [hlens x hx, hlens y hy]) (by rw [hlens y hy, hlens z hz]) hxy hyz
  have hndS : (List.insertionSort rbLE (rangeAllBounds specs 0)).Nodup :=
    hstperm.nodup_iff.mpr (rangeAllBounds_nodup specs 0)
  have hntall := rangeAllBounds_noties specs ncols hcols hnn hdisj
  have hntS : ∀ x ∈ List.insertionSort rbLE (rangeAllBounds specs 0),
      ∀ y ∈ List.insertionSort rbLE (rangeAllBounds specs 0),
        qsort_partition_rbound_cmp x y = 0 → x = y :=
    fun x hx y hy => hntall x (hstperm.mem_iff.mp hx) y (hstperm.mem_iff.mp hy)
  have hfilter := dedup_filter_upper_eq _ hpwS hndS hntS
  have hkeyseq : upperKeys (dedupBounds (List.insertionSort rbLE (rangeAllBounds specs 0)))
      = ((List.insertionSort rbLE (rangeAllBounds specs 0)).filter
          (fun b => !b.lower)).map (fun b => b.index) := by
    unfold upperKeys
    rw [hfilter]
  have hkeysperm : (upperKeys (dedupBounds
      (List.insertionSort rbLE (rangeAllBounds specs 0)))).Perm
        (intRange 0 specs.length) := by
    rw [hkeyseq, ← rangeAllBounds_upperKeys specs 0]
    unfold upperKeys
    exact (hstperm.filter (fun b => !b.lower)).map (fun b => b.index)
  have hkeysnd : (upperKeys (dedupBounds
      (List.insertionSort rbLE (rangeAllBounds specs 0)))).Nodup :=
    hkeysperm.nodup_iff.mpr (nodup_intRange specs.length 0)
  have hchar := rangeBuildIndexes_char
    (dedupBounds (List.insertionSort rbLE (rangeAllBounds specs 0))) []
  have hfold : foldInsert [] (upperKeys (dedupBounds
      (List.insertionSort rbLE (rangeAllBounds specs 0))))
      = upperKeys (dedupBounds (List.insertionSort rbLE (rangeAllBounds specs 0))) := by
    rw [foldInsert_of_fresh _ [] hkeysnd (fun k _ h => List.not_mem_nil k h)]
    simp
  have hst : (build_range_boundinfo specs).2
      = stateOf (upperKeys (dedupBounds
          (List.insertionSort rbLE (rangeAllBounds specs 0)))) := by
    have hstep : (build_range_boundinfo specs).2
        = (rangeBuildIndexes (dedupBounds (List.insertionSort rbLE (rangeAllBounds specs 0)))
            emptyMapState).2 := rfl
    rw [hstep]
    have hempty : emptyMapState = stateOf ([] : List Int) := rfl
    rw [hempty, hchar, hfold]
  rw [hst]
  exact bijective_placed_of_perm_intRange _ _ hkeysperm

/-- C9: after canonicalization of a valid set of partitions (list strategy:
nonempty per-partition value lists, at most one null declaration; range
strategy: per-partition lower edge strictly below upper edge and pairwise
non-overlapping declarations), the mapping from input partition position to
canonical ordinal is a bijection onto [0, nparts): every input position is
assigned an ordinal below nparts, distinct positions get distinct ordinals,
every ordinal below nparts is assigned to some position, and placeOids
stores each partition identity at its canonical ordinal's slot. -/
theorem canonical_ordinal_mapping_bijection {α : Type} [LinearOrder α]
    (lspecs : List (List (Option α))) (rspecs : List (PartitionRangeSpec α)) (ncols : Nat)
    (hlne : ∀ s ∈ lspecs, s ≠ [])
    (hlnull : (listGatherNulls lspecs 0).length ≤ 1)
    (hcols : ∀ j, j < rspecs.length →
      (rspecs.getD j ⟨[], []⟩).lowerdatums.length = ncols ∧
      (rspecs.getD j ⟨[], []⟩).upperdatums.length = ncols)
    (hnn : ∀ j, j < rspecs.length →
      qsort_partition_rbound_cmp (rmkLower rspecs 0 j) (rmkUpper rspecs 0 j) < 0)
    (hdisj : ∀ j1, j1 < rspecs.length → ∀ j2, j2 < rspecs.length → j1 ≠ j2 →
      qsort_partition_rbound_cmp (rmkUpper rspecs 0 j1) (rmkLower rspecs 0 j2) ≤ 0 ∨
      qsort_partition_rbound_cmp (rmkUpper rspecs 0 j2) (rmkLower rspecs 0 j1) ≤ 0) :
    (∃ bi st, build_list_boundinfo lspecs = .ok (bi, st) ∧
      MappingBijective st lspecs.length ∧ OidsPlaced st lspecs.length) ∧
    (MappingBijective (build_range_boundinfo rspecs).2 rspecs.length ∧
      OidsPlaced (build_range_boundinfo rspecs).2 rspecs.length) :=
  ⟨build_list_state_perm lspecs hlne hlnull,
    build_range_state_perm rspecs ncols hcols hnn
      (fun j1 j2 h1 h2 => hdisj j1 h1 j2 h2)⟩

theorem canonical_ordinal_mapping_bijection_witness :
    ((∀ s ∈ [[some (5 : Int)], [some 7]], s ≠ []) ∧
     (listGatherNulls [[some (5 : Int)], [some 7]] 0).length ≤ 1 ∧
     (∀ j, j < ([⟨[some 10], [some 20]⟩, ⟨[some 20], [some 30]⟩] :
         List (PartitionRangeSpec Int)).length →
       (([⟨[some 10], [some 20]⟩, ⟨[some 20], [some 30]⟩] :
         List (PartitionRangeSpec Int)).getD j ⟨[], []⟩).lowerdatums.length = 1 ∧
       (([⟨[some 10], [some 20]⟩, ⟨[some 20], [some 30]⟩] :
         List (PartitionRangeSpec Int)).getD j ⟨[], []⟩).upperdatums.length = 1) ∧
     (∀ j, j < ([⟨[some 10], [some 20]⟩, ⟨[some 20], [some 30]⟩] :
         List (PartitionRangeSpec Int)).length →
       qsort_partition_rbound_cmp
         (rmkLower [⟨[some 10], [some 20]⟩, ⟨[some 20], [some 30]⟩] 0 j)
         (rmkUpper [⟨[some 10], [some 20]⟩, ⟨[some 20], [some 30]⟩] 0 j) < 0)) ∧
    ((∃ bi st, build_list_boundinfo [[some (5 : Int)], [some 7]] = .ok (bi, st) ∧
        MappingBijective st 2 ∧ OidsPlaced st 2) ∧
     (MappingBijective
        (build_range_boundinfo
          ([⟨[some 10], [some 20]⟩, ⟨[some 20], [some 30]⟩] :
            List (PartitionRangeSpec Int))).2 2 ∧
      OidsPlaced
        (build_range_boundinfo
          ([⟨[some 10], [some 20]⟩, ⟨[some 20], [some 30]⟩] :
            List (PartitionRangeSpec Int))).2 2)) :=
  ⟨⟨by decide, by decide, by decide, by decide⟩,
    canonical_ordinal_mapping_bijection
      [[some (5 : Int)], [some 7]]
      [⟨[some 10], [some 20]⟩, ⟨[some 20], [some 30]⟩] 1
      (by decide) (by decide) (by decide) (by decide) (by decide)⟩

theorem pbe_refl {α : Type} [LinearOrder α] (partnatts : Nat)
    (strategy : PartitionStrategy) (b : PartitionBoundInfoData α) :
    partition_bounds_equal partnatts strategy b b = true := by
  simp [partition_bounds_equal, List.all_eq_true]

/-- A permutation of positions [0, k) extended to the integers (identity
outside the range). -/
def extNat (f : Nat → Nat) (k : Nat) (i : Int) : Int :=
  if 0 ≤ i ∧ i < (k : Int) then (f i.toNat : Int) else i

theorem extNat_injective (f : Nat → Nat) (g : Nat → Nat) (k : Nat)
    (hf : ∀ j, j < k → f j < k) (hgf : ∀ j, j < k → g (f j) = j) :
    ∀ i1 i2 : Int, extNat f k i1 = extNat f k i2 → i1 = i2 := by
  intro i1 i2 h
  unfold extNat at h
  by_cases h1 : 0 ≤ i1 ∧ i1 < (k : Int) <;> by_cases h2 : 0 ≤ i2 ∧ i2 < (k : Int)
  · rw [if_pos h1, if_pos h2] at h
    have hn : f i1.toNat = f i2.toNat := by omega
    have := hgf i1.toNat (by omega)
    have := hgf i2.toNat (by omega)
    have : i1.toNat = i2.toNat := by
      rw [← hgf i1.toNat (by omega), ← hgf i2.toNat (by omega), hn]
    omega
  · rw [if_pos h1, if_neg h2] at h
    have := hf i1.toNat (by omega)
    omega
  · rw [if_neg h1, if_pos h2] at h
    have := hf i2.toNat (by omega)
    omega
  · rw [if_neg h1, if_neg h2] at h
    exact h

theorem extNat_cast (f : Nat → Nat) (k : Nat) (j : Nat) (hj : j < k) :
    extNat f k (j : Int) = (f j : Int) := by
  unfold extNat
  rw [if_pos (by constructor <;> omega)]
  simp

theorem posOf_map_inj (ρ : Int → Int) (hinj : ∀ i1 i2 : Int, ρ i1 = ρ i2 → i1 = i2) :
    ∀ (fo : List Int) (t : Int), posOf (fo.map ρ) (ρ t) = posOf fo t := by
  intro fo
  induction fo with
  | nil => intro t; rfl
  | cons x rest ih =>
    intro t
    simp only [List.map_cons, posOf]
    by_cases hx : x = t
    · rw [if_pos (by rw [hx]), if_pos hx]
    · rw [if_neg (fun h => hx (hinj x t h)), if_neg hx, ih t]

theorem mem_map_inj_iff (ρ : Int → Int) (hinj : ∀ i1 i2 : Int, ρ i1 = ρ i2 → i1 = i2)
    (fo : List Int) (t : Int) : ρ t ∈ fo.map ρ ↔ t ∈ fo := by
  constructor
  · intro h
    rcases List.mem_map.mp h with ⟨x, hx, hxe⟩
    rwa [← hinj x t hxe]
  · intro h
    exact List.mem_map.mpr ⟨t, h, rfl⟩

theorem foInsert_map (ρ : Int → Int) (hinj : ∀ i1 i2 : Int, ρ i1 = ρ i2 → i1 = i2)
    (fo : List Int) (t : Int) :
    foInsert (fo.map ρ) (ρ t) = (foInsert fo t).map ρ := by
  unfold foInsert
  by_cases hm : t ∈ fo
  · rw [if_pos ((mem_map_inj_iff ρ hinj fo t).mpr hm), if_pos hm]
  · rw [if_neg (fun h => hm ((mem_map_inj_iff ρ hinj fo t).mp h)), if_neg hm]
    simp

theorem foldInsert_map (ρ : Int → Int) (hinj : ∀ i1 i2 : Int, ρ i1 = ρ i2 → i1 = i2) :
    ∀ (ks fo : List Int), foldInsert (fo.map ρ) (ks.map ρ) = (foldInsert fo ks).map ρ := by
  intro ks
  induction ks with
  | nil => intro fo; rfl
  | cons t rest ih =>
    intro fo
    have h1 : foldInsert (fo.map ρ) ((t :: rest).map ρ)
        = foldInsert (foInsert (fo.map ρ) (ρ t)) (rest.map ρ) := rfl
    rw [h1, foInsert_map ρ hinj fo t]
    exact ih (foInsert fo t)

/-- The tagged non-null values contributed by one partition's spec. -/
def valsBlock {α : Type} (s : List (Option α)) (i : Int) : List (PartitionListValue α) :=
  s.filterMap (fun d => d.map (fun v => ⟨i, v⟩))

/-- The null positions contributed by one partition's spec. -/
def nullsBlock {α : Type} (s : List (Option α)) (i : Int) : List Int :=
  s.filterMap (fun d => match d with | none => some i | some _ => none)

theorem listGatherVals_eq_flatten {α : Type} :
    ∀ (specs : List (List (Option α))) (k : Int),
      listGatherVals specs k
        = ((List.range specs.length).map (fun j => valsBlock (specs.getD j []) (k + j))).flatten := by
  intro specs
  induction specs with
  | nil => intro k; rfl
  | cons sp rest ih =>
    intro k
    have hstep : listGatherVals (sp :: rest) k = valsBlock sp k ++ listGatherVals rest (k + 1) := rfl
    rw [hstep, ih (k + 1)]
    simp only [List.length_cons, List.range_succ_eq_map, List.map_cons, List.map_map,
      List.flatten_cons]
    congr 1
    · simp [valsBlock]
    · congr 1
      apply List.map_congr_left
      intro j _
      simp only [Function.comp, List.getD_cons_succ]
      have : k + ((j : Nat) + 1 : Nat) = k + 1 + (j : Int) := by push_cast; omega
      rw [this]

theorem listGatherNulls_eq_flatten {α : Type} :
    ∀ (specs : List (List (Option α))) (k : Int),
      listGatherNulls specs k
        = ((List.range specs.length).map (fun j => nullsBlock (specs.getD j []) (k + j))).flatten := by
  intro specs
  induction specs with
  | nil => intro k; rfl
  | cons sp rest ih =>
    intro k
    have hstep : listGatherNulls (sp :: rest) k
        = nullsBlock sp k ++ listGatherNulls rest (k + 1) := rfl
    rw [hstep, ih (k + 1)]
    simp only [List.length_cons, List.range_succ_eq_map, List.map_cons, List.map_map,
      List.flatten_cons]
    congr 1
    · simp [nullsBlock]
    · congr 1
      apply List.map_congr_left
      intro j _
      simp only [Function.comp, List.getD_cons_succ]
      have : k + ((j : Nat) + 1 : Nat) = k + 1 + (j : Int) := by push_cast; omega
      rw [this]

theorem valsBlock_map_retag {α : Type} (ρ : Int → Int) :
    ∀ (s : List (Option α)) (i : Int),
      (valsBlock s i).map (fun v => (⟨ρ v.index, v.value⟩ : PartitionListValue α))
        = valsBlock s (ρ i) := by
  intro s
  induction s with
  | nil => intro i; rfl
  | cons d t ih =>
    intro i
    cases d with
    | none =>
      have h1 : valsBlock (none :: t) i = valsBlock t i := rfl
      have h2 : valsBlock (none :: t) (ρ i) = valsBlock t (ρ i) := rfl
      rw [h1, h2]
      exact ih i
    | some v =>
      have h1 : valsBlock (some v :: t) i = ⟨i, v⟩ :: valsBlock t i := rfl
      have h2 : valsBlock (some v :: t) (ρ i) = ⟨ρ i, v⟩ :: valsBlock t (ρ i) := rfl
      rw [h1, h2, List.map_cons, ih i]

theorem nullsBlock_map {α : Type} (ρ : Int → Int) :
    ∀ (s : List (Option α)) (i : Int), (nullsBlock s i).map ρ = nullsBlock s (ρ i) := by
  intro s
  induction s with
  | nil => intro i; rfl
  | cons d t ih =>
    intro i
    cases d with
    | none =>
      have h1 : nullsBlock (none :: t) i = i :: nullsBlock t i := rfl
      have h2 : nullsBlock (none :: t) (ρ i) = ρ i :: nullsBlock t (ρ i) := rfl
      rw [h1, h2, List.map_cons, ih i]
    | some v =>
      have h1 : nullsBlock (some v :: t) i = nullsBlock t i := rfl
      have h2 : nullsBlock (some v :: t) (ρ i) = nullsBlock t (ρ i) := rfl
      rw [h1, h2]
      exact ih i

theorem map_perm_range (π ρ : Nat → Nat) (k : Nat)
    (hπ : ∀ j, j < k → π j < k) (hinv : ∀ j, j < k → ρ (π j) = j)
    (hρ : ∀ j, j < k → ρ j < k) (hinv2 : ∀ j, j < k → π (ρ j) = j) :
    ((List.range k).map π).Perm (List.range k) := by
  have hnd : ((List.range k).map π).Nodup := by
    apply List.Nodup.map_on ?_ (List.nodup_range k)
    intro x hx y hy hxy
    rw [List.mem_range] at hx hy
    rw [← hinv x hx, ← hinv y hy, hxy]
  apply (List.perm_ext_iff_of_nodup hnd (List.nodup_range k)).mpr
  intro x
  rw [List.mem_map]
  constructor
  · rintro ⟨j, hj, he⟩
    rw [List.mem_range] at hj
    rw [List.mem_range, ← he]
    exact hπ j hj
  · intro hx
    rw [List.mem_range] at hx
    exact ⟨ρ x, List.mem_range.mpr (hρ x hx), hinv2 x hx⟩

theorem flatten_blocks_perm {β : Type} (blockA blockB : Nat → List β) (rel : β → β)
    (k : Nat) (π ρ : Nat → Nat)
    (hπ : ∀ j, j < k → π j < k) (hinv : ∀ j, j < k → ρ (π j) = j)
    (hρ : ∀ j, j < k → ρ j < k) (hinv2 : ∀ j, j < k → π (ρ j) = j)
    (hB : ∀ j, j < k → blockB j = (blockA (π j)).map rel) :
    ((List.range k).map blockB).flatten.Perm
      ((((List.range k).map blockA).flatten).map rel) := by
  have h1 : (List.range k).map blockB = (List.range k).map (fun j => (blockA (π j)).map rel) := by
    apply List.map_congr_left
    intro j hj
    exact hB j (List.mem_range.mp hj)
  rw [h1]
  have h2 : (List.range k).map (fun j => (blockA (π j)).map rel)
      = (((List.range k).map π).map blockA).map (List.map rel) := by
    simp [List.map_map, Function.comp]
  rw [h2, List.map_flatten]
  apply List.Perm.join
  exact (((map_perm_range π ρ k hπ hinv hρ hinv2).map blockA).map (List.map rel))

theorem plvLE_total {α : Type} [LinearOrder α] (x y : PartitionListValue α) :
    plvLE x y ∨ plvLE y x := by
  unfold plvLE qsort_partition_list_value_cmp
  have := colCmp_neg x.value y.value
  omega

theorem plvLE_trans {α : Type} [LinearOrder α] (x y z : PartitionListValue α)
    (h1 : plvLE x y) (h2 : plvLE y z) : plvLE x z := by
  unfold plvLE qsort_partition_list_value_cmp at h1 h2 ⊢
  rw [colCmp_le_zero_iff] at h1 h2 ⊢
  exact le_trans h1 h2

theorem sortedA_pairwise {α : Type} [LinearOrder α] (l : List (PartitionListValue α)) :
    (List.insertionSort plvLE l).Pairwise plvLE :=
  pairwise_insertionSort_of plvLE plvLE_total l
    (fun x _ y _ z _ hxy hyz => plvLE_trans x y z hxy hyz)

theorem build_list_eq_nil {α : Type} [LinearOrder α] (specs : List (List (Option α)))
    (hcase : listGatherNulls specs 0 = []) :
    build_list_boundinfo specs
      = .ok ({ strategy := .list
               ndatums := (List.insertionSort plvLE (listGatherVals specs 0)).length
               datums := (List.insertionSort plvLE (listGatherVals specs 0)).map
                 (fun v => [RangeDatum.finite v.value])
               indexes := (listBuildIndexes (List.insertionSort plvLE (listGatherVals specs 0))
                 emptyMapState).1
               null_index := -1 },
             (listBuildIndexes (List.insertionSort plvLE (listGatherVals specs 0))
               emptyMapState).2) := by
  simp [build_list_boundinfo, hcase]

theorem build_list_eq_one {α : Type} [LinearOrder α] (specs : List (List (Option α)))
    (p : Int) (hcase : listGatherNulls specs 0 = [p]) :
    build_list_boundinfo specs
      = .ok ({ strategy := .list
               ndatums := (List.insertionSort plvLE (listGatherVals specs 0)).length
               datums := (List.insertionSort plvLE (listGatherVals specs 0)).map
                 (fun v => [RangeDatum.finite v.value])
               indexes := (listBuildIndexes (List.insertionSort plvLE (listGatherVals specs 0))
                 emptyMapState).1
               null_index := ((getOrAssign (listBuildIndexes
                 (List.insertionSort plvLE (listGatherVals specs 0)) emptyMapState).2 p).1 : Int) },
             (getOrAssign (listBuildIndexes (List.insertionSort plvLE (listGatherVals specs 0))
               emptyMapState).2 p).2) := by
  simp [build_list_boundinfo, hcase]

theorem listGatherVals_relabel_perm {α : Type} [LinearOrder α]
    (k : Nat) (π ρ : Nat → Nat)
    (hπ : ∀ j, j < k → π j < k) (hinv : ∀ j, j < k → ρ (π j) = j)
    (hρ : ∀ j, j < k → ρ j < k) (hinv2 : ∀ j, j < k → π (ρ j) = j)
    (lA lB : List (List (Option α)))
    (hlenA : lA.length = k) (hlenB : lB.length = k)
    (hLB : ∀ j, j < k → lB.getD j [] = lA.getD (π j) []) :
    (listGatherVals lB 0).Perm ((listGatherVals lA 0).map
      (fun v => (⟨extNat ρ k v.index, v.value⟩ : PartitionListValue α))) := by
  rw [listGatherVals_eq_flatten lB 0, listGatherVals_eq_flatten lA 0, hlenA, hlenB]
  apply flatten_blocks_perm _ _ _ k π ρ hπ hinv hρ hinv2
  intro j hj
  rw [hLB j hj, valsBlock_map_retag]
  congr 1
  rw [zero_add, zero_add, extNat_cast ρ k (π j) (hπ j hj), hinv j hj]

theorem listGatherNulls_relabel_perm {α : Type} [LinearOrder α]
    (k : Nat) (π ρ : Nat → Nat)
    (hπ : ∀ j, j < k → π j < k) (hinv : ∀ j, j < k → ρ (π j) = j)
    (hρ : ∀ j, j < k → ρ j < k) (hinv2 : ∀ j, j < k → π (ρ j) = j)
    (lA lB : List (List (Option α)))
    (hlenA : lA.length = k) (hlenB : lB.length = k)
    (hLB : ∀ j, j < k → lB.getD j [] = lA.getD (π j) []) :
    (listGatherNulls lB 0).Perm ((listGatherNulls lA 0).map (extNat ρ k)) := by
  rw [listGatherNulls_eq_flatten lB 0, listGatherNulls_eq_flatten lA 0, hlenA, hlenB]
  apply flatten_blocks_perm _ _ _ k π ρ hπ hinv hρ hinv2
  intro j hj
  rw [hLB j hj, nullsBlock_map]
  congr 1
  rw [zero_add, zero_add, extNat_cast ρ k (π j) (hπ j hj), hinv j hj]

theorem sorted_vals_relabel_eq {α : Type} [LinearOrder α]
    (k : Nat) (π ρ : Nat → Nat)
    (hπ : ∀ j, j < k → π j < k) (hinv : ∀ j, j < k → ρ (π j) = j)
    (hρ : ∀ j, j < k → ρ j < k) (hinv2 : ∀ j, j < k → π (ρ j) = j)
    (lA lB : List (List (Option α)))
    (hlenA : lA.length = k) (hlenB : lB.length = k)
    (hLB : ∀ j, j < k → lB.getD j [] = lA.getD (π j) [])
    (hties : ∀ v1 ∈ listGatherVals lA 0, ∀ v2 ∈ listGatherVals lA 0,
      colCmp v1.value v2.value = 0 → v1 = v2) :
    List.insertionSort plvLE (listGatherVals lB 0)
      = (List.insertionSort plvLE (listGatherVals lA 0)).map
          (fun v => (⟨extNat ρ k v.index, v.value⟩ : PartitionListValue α)) := by
  have h1 := List.perm_insertionSort plvLE (listGatherVals lB 0)
  have h2 := listGatherVals_relabel_perm k π ρ hπ hinv hρ hinv2 lA lB hlenA hlenB hLB
  have h3 := ((List.perm_insertionSort plvLE (listGatherVals lA 0)).map
    (fun v => (⟨extNat ρ k v.index, v.value⟩ : PartitionListValue α))).symm
  have hperm := h1.trans (h2.trans h3)
  apply eq_of_perm_of_pairwise_of plvLE _ _ hperm (sortedA_pairwise _)
  · rw [List.pairwise_map]
    exact sortedA_pairwise _
  · intro x hx y hy hxy hyx
    have hmm : ∀ z, z ∈ List.insertionSort plvLE (listGatherVals lB 0) →
        ∃ z0 ∈ listGatherVals lA 0,
          z = (⟨extNat ρ k z0.index, z0.value⟩ : PartitionListValue α) := by
      intro z hz
      have hz2 := (h1.trans h2).mem_iff.mp hz
      rcases List.mem_map.mp hz2 with ⟨z0, hz0, hze⟩
      exact ⟨z0, hz0, hze.symm⟩
    obtain ⟨x0, hx0, hxe⟩ := hmm x hx
    obtain ⟨y0, hy0, hye⟩ := hmm y hy
    have hcc : colCmp x.value y.value = 0 := by
      unfold plvLE qsort_partition_list_value_cmp at hxy hyx
      have := colCmp_neg x.value y.value
      omega
    have hcc0 : colCmp x0.value y0.value = 0 := by
      rw [hxe, hye] at hcc
      exact hcc
    have := hties x0 hx0 y0 hy0 hcc0
    rw [hxe, hye, this]

theorem build_list_relabel {α : Type} [LinearOrder α]
    (k : Nat) (π ρ : Nat → Nat)
    (hπ : ∀ j, j < k → π j < k) (hinv : ∀ j, j < k → ρ (π j) = j)
    (hρ : ∀ j, j < k → ρ j < k) (hinv2 : ∀ j, j < k → π (ρ j) = j)
    (lA lB : List (List (Option α)))
    (hlenA : lA.length = k) (hlenB : lB.length = k)
    (hLB : ∀ j, j < k → lB.getD j [] = lA.getD (π j) [])
    (hties : ∀ v1 ∈ listGatherVals lA 0, ∀ v2 ∈ listGatherVals lA 0,
      colCmp v1.value v2.value = 0 → v1 = v2)
    (hnullA : (listGatherNulls lA 0).length ≤ 1) :
    ∃ p1 p2, build_list_boundinfo lA = .ok p1 ∧ build_list_boundinfo lB = .ok p2 ∧
      p1.1 = p2.1 := by
  have hinjI : ∀ i1 i2 : Int, extNat ρ k i1 = extNat ρ k i2 → i1 = i2 :=
    extNat_injective ρ π k hρ hinv2
  have hSB := sorted_vals_relabel_eq k π ρ hπ hinv hρ hinv2 lA lB hlenA hlenB hLB hties
  have hnullperm := listGatherNulls_relabel_perm k π ρ hπ hinv hρ hinv2 lA lB hlenA hlenB hLB
  have hnd : (List.insertionSort plvLE (listGatherVals lB 0)).length
      = (List.insertionSort plvLE (listGatherVals lA 0)).length := by
    rw [hSB, List.length_map]
  have hdat : (List.insertionSort plvLE (listGatherVals lB 0)).map
        (fun v => [RangeDatum.finite v.value])
      = (List.insertionSort plvLE (listGatherVals lA 0)).map
        (fun v => [RangeDatum.finite v.value]) := by
    rw [hSB, List.map_map]
    rfl
  have hemp : emptyMapState = stateOf ([] : List Int) := rfl
  have hkeys : (List.insertionSort plvLE (listGatherVals lB 0)).map (fun w => w.index)
      = ((List.insertionSort plvLE (listGatherVals lA 0)).map (fun w => w.index)).map
          (extNat ρ k) := by
    rw [hSB, List.map_map, List.map_map]
    rfl
  have hFO : foldInsert [] ((List.insertionSort plvLE (listGatherVals lB 0)).map
        (fun w => w.index))
      = (foldInsert [] ((List.insertionSort plvLE (listGatherVals lA 0)).map
          (fun w => w.index))).map (extNat ρ k) := by
    rw [hkeys]
    exact foldInsert_map (extNat ρ k) hinjI _ []
  have h1 : (listBuildIndexes (List.insertionSort plvLE (listGatherVals lB 0))
        (stateOf [])).1
      = (List.insertionSort plvLE (listGatherVals lB 0)).map
          (fun v => ((posOf (foldInsert []
            ((List.insertionSort plvLE (listGatherVals lB 0)).map (fun w => w.index)))
            v.index : Nat) : Int)) := by
    rw [listBuildIndexes_char]
  have h2 : (listBuildIndexes (List.insertionSort plvLE (listGatherVals lA 0))
        (stateOf [])).1
      = (List.insertionSort plvLE (listGatherVals lA 0)).map
          (fun v => ((posOf (foldInsert []
            ((List.insertionSort plvLE (listGatherVals lA 0)).map (fun w => w.index)))
            v.index : Nat) : Int)) := by
    rw [listBuildIndexes_char]
  have hidx : (listBuildIndexes (List.insertionSort plvLE (listGatherVals lB 0))
        emptyMapState).1
      = (listBuildIndexes (List.insertionSort plvLE (listGatherVals lA 0))
        emptyMapState).1 := by
    rw [hemp, h1, h2, hFO, hSB, List.map_map]
    apply List.map_congr_left
    intro v _
    simp only [Function.comp]
    rw [posOf_map_inj (extNat ρ k) hinjI]
  have hst2 : (listBuildIndexes (List.insertionSort plvLE (listGatherVals lB 0))
        (stateOf [])).2
      = stateOf (foldInsert [] ((List.insertionSort plvLE (listGatherVals lB 0)).map
          (fun w => w.index))) := by
    rw [listBuildIndexes_char]
  have hst3 : (listBuildIndexes (List.insertionSort plvLE (listGatherVals lA 0))
        (stateOf [])).2
      = stateOf (foldInsert [] ((List.insertionSort plvLE (listGatherVals lA 0)).map
          (fun w => w.index))) := by
    rw [listBuildIndexes_char]
  rcases hnsA : listGatherNulls lA 0 with _ | ⟨p, rest⟩
  · have hnsB : listGatherNulls lB 0 = [] := by
      have hp := hnullperm
      rw [hnsA] at hp
      have hp2 : (listGatherNulls lB 0).Perm ([] : List Int) := by simpa using hp
      exact List.Perm.eq_nil hp2
    refine ⟨_, _, build_list_eq_nil lA hnsA, build_list_eq_nil lB hnsB, ?_⟩
    rw [PartitionBoundInfoData.mk.injEq]
    exact ⟨rfl, hnd.symm, hdat.symm, hidx.symm, rfl⟩
  · have hrest : rest = [] := by
      rw [hnsA] at hnullA
      simp only [List.length_cons] at hnullA
      exact List.length_eq_zero.mp (by omega)
    subst hrest
    have hnsB : listGatherNulls lB 0 = [extNat ρ k p] := by
      have hp := hnullperm
      rw [hnsA] at hp
      simp only [List.map_cons, List.map_nil] at hp
      exact List.perm_singleton.mp hp
    have hni : ((getOrAssign (listBuildIndexes (List.insertionSort plvLE
          (listGatherVals lB 0)) emptyMapState).2 (extNat ρ k p)).1 : Int)
        = ((getOrAssign (listBuildIndexes (List.insertionSort plvLE
          (listGatherVals lA 0)) emptyMapState).2 p).1 : Int) := by
      rw [hemp, hst2, hst3, hFO, getOrAssign_stateOf, getOrAssign_stateOf]
      by_cases hm : p ∈ foldInsert [] ((List.insertionSort plvLE (listGatherVals lA 0)).map
          (fun w => w.index))
      · rw [if_pos ((mem_map_inj_iff (extNat ρ k) hinjI _ p).mpr hm), if_pos hm,
          posOf_map_inj (extNat ρ k) hinjI]
      · rw [if_neg (fun h => hm ((mem_map_inj_iff (extNat ρ k) hinjI _ p).mp h)), if_neg hm,
          List.length_map]
    refine ⟨_, _, build_list_eq_one lA p hnsA, build_list_eq_one lB (extNat ρ k p) hnsB, ?_⟩
    rw [PartitionBoundInfoData.mk.injEq]
    exact ⟨rfl, hnd.symm, hdat.symm, hidx.symm, hni.symm⟩

/-- Retag a range bound to a new input position, keeping its datums and
edge kind. -/
def relabelBound {α : Type} (ρ : Int → Int) (b : PartitionRangeBound α) :
    PartitionRangeBound α :=
  ⟨ρ b.index, b.datums, b.lower⟩

theorem rangeAllBounds_eq_flatten {α : Type} :
    ∀ (specs : List (PartitionRangeSpec α)) (k : Int),
      rangeAllBounds specs k
        = ((List.range specs.length).map (fun j : Nat =>
            [make_one_range_bound (k + (j : Int)) (specs.getD j ⟨[], []⟩).lowerdatums true,
             make_one_range_bound (k + (j : Int)) (specs.getD j ⟨[], []⟩).upperdatums false])).flatten := by
  intro specs
  induction specs with
  | nil => intro k; rfl
  | cons sp rest ih =>
    intro k
    have hstep : rangeAllBounds (sp :: rest) k
        = make_one_range_bound k sp.lowerdatums true
            :: make_one_range_bound k sp.upperdatums false :: rangeAllBounds rest (k + 1) := rfl
    rw [hstep, ih (k + 1)]
    simp only [List.length_cons, List.range_succ_eq_map, List.map_cons, List.map_map,
      List.flatten_cons]
    have hz : k + ((0 : Nat) : Int) = k := by simp
    rw [List.getD_cons_zero, hz]
    simp only [List.cons_append, List.nil_append]
    congr 2
    apply congrArg
    apply List.map_congr_left
    intro j _
    simp only [Function.comp, List.getD_cons_succ]
    have : k + ((j : Nat) + 1 : Nat) = k + 1 + (j : Int) := by push_cast; omega
    rw [this]

theorem rangeAllBounds_relabel_perm {α : Type} [LinearOrder α]
    (k : Nat) (π ρN : Nat → Nat)
    (hπ : ∀ j, j < k → π j < k) (hinv : ∀ j, j < k → ρN (π j) = j)
    (hρ : ∀ j, j < k → ρN j < k) (hinv2 : ∀ j, j < k → π (ρN j) = j)
    (rA rB : List (PartitionRangeSpec α))
    (hlenA : rA.length = k) (hlenB : rB.length = k)
    (hRB : ∀ j, j < k → rB.getD j ⟨[], []⟩ = rA.getD (π j) ⟨[], []⟩) :
    (rangeAllBounds rB 0).Perm
      ((rangeAllBounds rA 0).map (relabelBound (extNat ρN k))) := by
  rw [rangeAllBounds_eq_flatten rB 0, rangeAllBounds_eq_flatten rA 0, hlenA, hlenB]
  apply flatten_blocks_perm _ _ _ k π ρN hπ hinv hρ hinv2
  intro j hj
  rw [hRB j hj]
  have hcast : extNat ρN k ((0 : Int) + (π j : Nat)) = (0 : Int) + (j : Nat) := by
    rw [zero_add, zero_add, extNat_cast ρN k (π j) (hπ j hj), hinv j hj]
  simp only [List.map_cons, List.map_nil]
  have hrl : ∀ (d : List (Option α)) (lw : Bool) (i : Int),
      relabelBound (extNat ρN k) (make_one_range_bound i d lw)
        = make_one_range_bound (extNat ρN k i) d lw := fun d lw i => rfl
  rw [hrl, hrl, hcast]

theorem qsort_relabel {α : Type} [LinearOrder α] (ρI : Int → Int)
    (a b : PartitionRangeBound α) :
    qsort_partition_rbound_cmp (relabelBound ρI a) (relabelBound ρI b)
      = qsort_partition_rbound_cmp a b := rfl

theorem sorted_bounds_relabel_eq {α : Type} [LinearOrder α]
    (k : Nat) (π ρN : Nat → Nat)
    (hπ : ∀ j, j < k → π j < k) (hinv : ∀ j, j < k → ρN (π j) = j)
    (hρ : ∀ j, j < k → ρN j < k) (hinv2 : ∀ j, j < k → π (ρN j) = j)
    (rA rB : List (PartitionRangeSpec α))
    (hrlenA : rA.length = k) (hrlenB : rB.length = k)
    (hRB : ∀ j, j < k → rB.getD j ⟨[], []⟩ = rA.getD (π j) ⟨[], []⟩)
    (ncols : Nat)
    (hcolsA : ∀ j, j < rA.length →
      (rA.getD j ⟨[], []⟩).lowerdatums.length = ncols ∧
      (rA.getD j ⟨[], []⟩).upperdatums.length = ncols)
    (hnnA : ∀ j, j < rA.length →
      qsort_partition_rbound_cmp (rmkLower rA 0 j) (rmkUpper rA 0 j) < 0)
    (hdisjA : ∀ j1 j2, j1 < rA.length → j2 < rA.length → j1 ≠ j2 →
      qsort_partition_rbound_cmp (rmkUpper rA 0 j1) (rmkLower rA 0 j2) ≤ 0 ∨
      qsort_partition_rbound_cmp (rmkUpper rA 0 j2) (rmkLower rA 0 j1) ≤ 0) :
    List.insertionSort rbLE (rangeAllBounds rB 0)
      = (List.insertionSort rbLE (rangeAllBounds rA 0)).map
          (relabelBound (extNat ρN k)) := by
  have hcolsB : ∀ j, j < rB.length →
      (rB.getD j ⟨[], []⟩).lowerdatums.length = ncols ∧
      (rB.getD j ⟨[], []⟩).upperdatums.length = ncols := by
    intro j hj
    rw [hRB j (by omega)]
    exact hcolsA (π j) (by rw [hrlenA]; exact hπ j (by omega))
  have hlensA := rangeAllBounds_datums_length rA ncols hcolsA
  have hlensB := rangeAllBounds_datums_length rB ncols hcolsB
  have hnt := rangeAllBounds_noties rA ncols hcolsA hnnA hdisjA
  have h1 := List.perm_insertionSort rbLE (rangeAllBounds rB 0)
  have h2 := rangeAllBounds_relabel_perm k π ρN hπ hinv hρ hinv2 rA rB hrlenA hrlenB hRB
  have h3 := ((List.perm_insertionSort rbLE (rangeAllBounds rA 0)).map
    (relabelBound (extNat ρN k))).symm
  have hperm := h1.trans (h2.trans h3)
  have hpwB : (List.insertionSort rbLE (rangeAllBounds rB 0)).Pairwise rbLE := by
    apply pairwise_insertionSort_of rbLE rbLE_total
    intro x hx y hy z hz hxy hyz
    unfold rbLE at hxy hyz ⊢
    exact qsort_rbound_trans_le x y z
      (by rw [hlensB x hx, hlensB y hy]) (by rw [hlensB y hy, hlensB z hz]) hxy hyz
  have hpwA : (List.insertionSort rbLE (rangeAllBounds rA 0)).Pairwise rbLE := by
    apply pairwise_insertionSort_of rbLE rbLE_total
    intro x hx y hy z hz hxy hyz
    unfold rbLE at hxy hyz ⊢
    exact qsort_rbound_trans_le x y z
      (by rw [hlensA x hx, hlensA y hy]) (by rw [hlensA y hy, hlensA z hz]) hxy hyz
  apply eq_of_perm_of_pairwise_of rbLE _ _ hperm hpwB
  · rw [List.pairwise_map]
    exact hpwA
  · intro x hx y hy hxy hyx
    have hmm : ∀ z, z ∈ List.insertionSort rbLE (rangeAllBounds rB 0) →
        ∃ z0 ∈ rangeAllBounds rA 0, z = relabelBound (extNat ρN k) z0 := by
      intro z hz
      have hz2 := (h1.trans h2).mem_iff.mp hz
      rcases List.mem_map.mp hz2 with ⟨z0, hz0, hze⟩
      exact ⟨z0, hz0, hze.symm⟩
    obtain ⟨x0, hx0, hxe⟩ := hmm x hx
    obtain ⟨y0, hy0, hye⟩ := hmm y hy
    have hcc : qsort_partition_rbound_cmp x y = 0 := by
      unfold rbLE at hxy hyx
      have := qsort_rbound_antisym x y
      omega
    have hcc0 : qsort_partition_rbound_cmp x0 y0 = 0 := by
      rw [hxe, hye, qsort_relabel] at hcc
      exact hcc
    have := hnt x0 hx0 y0 hy0 hcc0
    rw [hxe, hye, this]

theorem dedupGo_relabel {α : Type} [LinearOrder α] (ρI : Int → Int) :
    ∀ (l : List (PartitionRangeBound α)) (prev : PartitionRangeBound α),
      dedupGo (relabelBound ρI prev) (l.map (relabelBound ρI))
        = (dedupGo prev l).map (relabelBound ρI) := by
  intro l
  induction l with
  | nil => intro prev; rfl
  | cons c rest ih =>
    intro prev
    have hd : (relabelBound ρI c).datums = c.datums := rfl
    have hp : (relabelBound ρI prev).datums = prev.datums := rfl
    simp only [List.map_cons, dedupGo, hd, hp]
    by_cases hbd : boundsNotDistinct c.datums prev.datums
    · rw [if_pos hbd, if_pos hbd, ih c]
    · rw [if_neg hbd, if_neg hbd, ih c]
      rw [List.map_cons]

theorem dedupBounds_relabel {α : Type} [LinearOrder α] (ρI : Int → Int)
    (l : List (PartitionRangeBound α)) :
    dedupBounds (l.map (relabelBound ρI)) = (dedupBounds l).map (relabelBound ρI) := by
  cases l with
  | nil => rfl
  | cons b rest =>
    simp only [List.map_cons, dedupBounds, dedupGo_relabel ρI rest b]

theorem upperKeys_map_relabel {α : Type} (ρI : Int → Int)
    (l : List (PartitionRangeBound α)) :
    upperKeys (l.map (relabelBound ρI)) = (upperKeys l).map ρI := by
  unfold upperKeys
  have h1 : (l.map (relabelBound ρI)).filter (fun b => !b.lower)
      = (l.filter (fun b => !b.lower)).map (relabelBound ρI) := by
    rw [List.filter_map]
    rfl
  rw [h1, List.map_map, List.map_map]
  rfl

theorem build_range_relabel {α : Type} [LinearOrder α]
    (k : Nat) (π ρN : Nat → Nat)
    (hπ : ∀ j, j < k → π j < k) (hinv : ∀ j, j < k → ρN (π j) = j)
    (hρ : ∀ j, j < k → ρN j < k) (hinv2 : ∀ j, j < k → π (ρN j) = j)
    (rA rB : List (PartitionRangeSpec α))
    (hrlenA : rA.length = k) (hrlenB : rB.length = k)
    (hRB : ∀ j, j < k → rB.getD j ⟨[], []⟩ = rA.getD (π j) ⟨[], []⟩)
    (ncols : Nat)
    (hcolsA : ∀ j, j < rA.length →
      (rA.getD j ⟨[], []⟩).lowerdatums.length = ncols ∧
      (rA.getD j ⟨[], []⟩).upperdatums.length = ncols)
    (hnnA : ∀ j, j < rA.length →
      qsort_partition_rbound_cmp (rmkLower rA 0 j) (rmkUpper rA 0 j) < 0)
    (hdisjA : ∀ j1 j2, j1 < rA.length → j2 < rA.length → j1 ≠ j2 →
      qsort_partition_rbound_cmp (rmkUpper rA 0 j1) (rmkLower rA 0 j2) ≤ 0 ∨
      qsort_partition_rbound_cmp (rmkUpper rA 0 j2) (rmkLower rA 0 j1) ≤ 0) :
    (build_range_boundinfo rB).1 = (build_range_boundinfo rA).1 := by
  have hinjI : ∀ i1 i2 : Int, extNat ρN k i1 = extNat ρN k i2 → i1 = i2 :=
    extNat_injective ρN π k hρ hinv2
  have hSB := sorted_bounds_relabel_eq k π ρN hπ hinv hρ hinv2 rA rB hrlenA hrlenB hRB
    ncols hcolsA hnnA hdisjA
  have hded : dedupBounds (List.insertionSort rbLE (rangeAllBounds rB 0))
      = (dedupBounds (List.insertionSort rbLE (rangeAllBounds rA 0))).map
          (relabelBound (extNat ρN k)) := by
    rw [hSB, dedupBounds_relabel]
  have hbuildB : (build_range_boundinfo rB).1
      = { strategy := .range
          ndatums := (dedupBounds (List.insertionSort rbLE (rangeAllBounds rB 0))).length
          datums := (dedupBounds (List.insertionSort rbLE (rangeAllBounds rB 0))).map
            (fun b => b.datums)
          indexes := (rangeBuildIndexes
            (dedupBounds (List.insertionSort rbLE (rangeAllBounds rB 0))) emptyMapState).1
            ++ [-1]
          null_index := -1 } := rfl
  have hbuildA : (build_range_boundinfo rA).1
      = { strategy := .range
          ndatums := (dedupBounds (List.insertionSort rbLE (rangeAllBounds rA 0))).length
          datums := (dedupBounds (List.insertionSort rbLE (rangeAllBounds rA 0))).map
            (fun b => b.datums)
          indexes := (rangeBuildIndexes
            (dedupBounds (List.insertionSort rbLE (rangeAllBounds rA 0))) emptyMapState).1
            ++ [-1]
          null_index := -1 } := rfl
  rw [hbuildA, hbuildB, PartitionBoundInfoData.mk.injEq]
  refine ⟨rfl, ?_, ?_, ?_, rfl⟩
  · rw [hded, List.length_map]
  · rw [hded, List.map_map]
    rfl
  · congr 1
    have hemp : emptyMapState = stateOf ([] : List Int) := rfl
    have hcB : (rangeBuildIndexes
        (dedupBounds (List.insertionSort rbLE (rangeAllBounds rB 0))) (stateOf [])).1
        = (dedupBounds (List.insertionSort rbLE (rangeAllBounds rB 0))).map
            (fun b => if b.lower then (-1 : Int) else
              ((posOf (foldInsert [] (upperKeys (dedupBounds
                (List.insertionSort rbLE (rangeAllBounds rB 0))))) b.index : Nat) : Int)) := by
      rw [rangeBuildIndexes_char]
    have hcA : (rangeBuildIndexes
        (dedupBounds (List.insertionSort rbLE (rangeAllBounds rA 0))) (stateOf [])).1
        = (dedupBounds (List.insertionSort rbLE (rangeAllBounds rA 0))).map
            (fun b => if b.lower then (-1 : Int) else
              ((posOf (foldInsert [] (upperKeys (dedupBounds
                (List.insertionSort rbLE (rangeAllBounds rA 0))))) b.index : Nat) : Int)) := by
      rw [rangeBuildIndexes_char]
    have hFO : foldInsert [] (upperKeys (dedupBounds
          (List.insertionSort rbLE (rangeAllBounds rB 0))))
        = (foldInsert [] (upperKeys (dedupBounds
            (List.insertionSort rbLE (rangeAllBounds rA 0))))).map (extNat ρN k) := by
      rw [hded, upperKeys_map_relabel]
      exact foldInsert_map (extNat ρN k) hinjI _ []
    rw [hemp, hcA, hcB, hFO, hded, List.map_map]
    apply List.map_congr_left
    intro b _
    simp only [Function.comp]
    have hlw : (relabelBound (extNat ρN k) b).lower = b.lower := rfl
    have hix : (relabelBound (extNat ρN k) b).index = extNat ρN k b.index := rfl
    rw [hlw, hix, posOf_map_inj (extNat ρN k) hinjI]

/-- C1 (amended): for tie-free inputs — list strategy: no two gathered
values comparator-equal except the same occurrence; range strategy: each
partition's lower edge strictly below its upper edge and pairwise
non-overlapping declarations — canonicalizing the same partitions in two
input orders related by a position permutation yields bound collections
that partition_bounds_equal judges equal. -/
theorem canonicalization_order_independent {α : Type} [LinearOrder α]
    (k : Nat) (π ρN : Nat → Nat)
    (hπ : ∀ j, j < k → π j < k) (hinv : ∀ j, j < k → ρN (π j) = j)
    (hρ : ∀ j, j < k → ρN j < k) (hinv2 : ∀ j, j < k → π (ρN j) = j)
    (lA lB : List (List (Option α)))
    (hlenA : lA.length = k) (hlenB : lB.length = k)
    (hLB : ∀ j, j < k → lB.getD j [] = lA.getD (π j) [])
    (hties : ∀ v1 ∈ listGatherVals lA 0, ∀ v2 ∈ listGatherVals lA 0,
      colCmp v1.value v2.value = 0 → v1 = v2)
    (hnullA : (listGatherNulls lA 0).length ≤ 1)
    (rA rB : List (PartitionRangeSpec α))
    (hrlenA : rA.length = k) (hrlenB : rB.length = k)
    (hRB : ∀ j, j < k → rB.getD j ⟨[], []⟩ = rA.getD (π j) ⟨[], []⟩)
    (ncols : Nat)
    (hcolsA : ∀ j, j < rA.length →
      (rA.getD j ⟨[], []⟩).lowerdatums.length = ncols ∧
      (rA.getD j ⟨[], []⟩).upperdatums.length = ncols)
    (hnnA : ∀ j, j < rA.length →
      qsort_partition_rbound_cmp (rmkLower rA 0 j) (rmkUpper rA 0 j) < 0)
    (hdisjA : ∀ j1, j1 < rA.length → ∀ j2, j2 < rA.length → j1 ≠ j2 →
      qsort_partition_rbound_cmp (rmkUpper rA 0 j1) (rmkLower rA 0 j2) ≤ 0 ∨
      qsort_partition_rbound_cmp (rmkUpper rA 0 j2) (rmkLower rA 0 j1) ≤ 0) :
    (∃ p1 p2, build_list_boundinfo lA = .ok p1 ∧ build_list_boundinfo lB = .ok p2 ∧
      partition_bounds_equal 1 PartitionStrategy.list p1.1 p2.1 = true) ∧
    partition_bounds_equal ncols PartitionStrategy.range
      (build_range_boundinfo rA).1 (build_range_boundinfo rB).1 = true := by
  constructor
  · obtain ⟨p1, p2, h1, h2, he⟩ := build_list_relabel k π ρN hπ hinv hρ hinv2 lA lB
      hlenA hlenB hLB hties hnullA
    refine ⟨p1, p2, h1, h2, ?_⟩
    rw [he]
    exact pbe_refl 1 PartitionStrategy.list p2.1
  · have he := build_range_relabel k π ρN hπ hinv hρ hinv2 rA rB hrlenA hrlenB hRB
      ncols hcolsA hnnA (fun j1 j2 h1 h2 => hdisjA j1 h1 j2 h2)
    rw [he]
    exact pbe_refl ncols PartitionStrategy.range (build_range_boundinfo rA).1

/-- C1 counterexample to the unamended claim: with the value 5 declared by
both list partitions (an overlap the canonicalizer itself never checks),
the two declaration orders produce index arrays [0,1,1] and [0,1,0], which
partition_bounds_equal judges unequal. -/
theorem canonicalization_order_dependent_on_ties_cx :
    ∃ p1 p2, build_list_boundinfo [[some (5 : Int)], [some 5, some 6]] = .ok p1 ∧
      build_list_boundinfo [[some 5, some 6], [some (5 : Int)]] = .ok p2 ∧
      partition_bounds_equal 1 PartitionStrategy.list p1.1 p2.1 = false :=
  ⟨_, _, rfl, rfl, by decide⟩

theorem canonicalization_order_independent_witness :
    ((∀ j, j < 2 → (if j = 0 then 1 else if j = 1 then 0 else j) < 2) ∧
     (∀ j, j < 2 →
       ([[some 7], [some (5 : Int)]] : List (List (Option Int))).getD j []
         = ([[some (5 : Int)], [some 7]] : List (List (Option Int))).getD
             (if j = 0 then 1 else if j = 1 then 0 else j) []) ∧
     (∀ v1 ∈ listGatherVals ([[some (5 : Int)], [some 7]] : List (List (Option Int))) 0,
       ∀ v2 ∈ listGatherVals ([[some (5 : Int)], [some 7]] : List (List (Option Int))) 0,
         colCmp v1.value v2.value = 0 → v1 = v2) ∧
     (∀ j, j < 2 →
       (([⟨[some 20], [some 30]⟩, ⟨[some 10], [some 20]⟩] :
           List (PartitionRangeSpec Int)).getD j ⟨[], []⟩)
         = (([⟨[some 10], [some 20]⟩, ⟨[some 20], [some 30]⟩] :
             List (PartitionRangeSpec Int)).getD
               (if j = 0 then 1 else if j = 1 then 0 else j) ⟨[], []⟩))) ∧
    ((∃ p1 p2,
        build_list_boundinfo ([[some (5 : Int)], [some 7]] : List (List (Option Int)))
          = .ok p1 ∧
        build_list_boundinfo ([[some 7], [some (5 : Int)]] : List (List (Option Int)))
          = .ok p2 ∧
        partition_bounds_equal 1 PartitionStrategy.list p1.1 p2.1 = true) ∧
     partition_bounds_equal 1 PartitionStrategy.range
       (build_range_boundinfo ([⟨[some 10], [some 20]⟩, ⟨[some 20], [some 30]⟩] :
         List (PartitionRangeSpec Int))).1
       (build_range_boundinfo ([⟨[some 20], [some 30]⟩, ⟨[some 10], [some 20]⟩] :
         List (PartitionRangeSpec Int))).1 = true) :=
  ⟨⟨by decide, by decide, by decide, by decide⟩,
    canonicalization_order_independent 2
      (fun j => if j = 0 then 1 else if j = 1 then 0 else j)
      (fun j => if j = 0 then 1 else if j = 1 then 0 else j)
      (by decide) (by decide) (by decide) (by decide)
      [[some (5 : Int)], [some 7]] [[some 7], [some (5 : Int)]]
      (by decide) (by decide) (by decide) (by decide) (by decide)
      [⟨[some 10], [some 20]⟩, ⟨[some 20], [some 30]⟩]
      [⟨[some 20], [some 30]⟩, ⟨[some 10], [some 20]⟩]
      (by decide) (by decide) (by decide) 1
      (by decide) (by decide) (by decide)⟩
